import Mathlib

/-!
Verification of the `rf` random-forest library (Go) against its design
specification.  The Go sources are shallowly embedded: 64-bit floats are
modelled as exact rationals (`ℚ`), Go `int` as `ℤ` (loop indices and
lengths as `ℕ`), slices as lists, and the global random number generator
as an explicit stream of naturals that each `Intn` call consumes.
-/

namespace RF

/-- The numeric epsilon `1e-7` used uniformly by the splitter. -/
def eps : ℚ := 1 / 10000000

/-- The early-stop tolerance `1e-6` used by the forest regressor. -/
def oneE6 : ℚ := 1 / 1000000

/-! ### The argmax loop

`maxCt := 0; maxC := 0; for class, count := range counts { if count > maxCt
{ maxCt, maxC = count, class } }` — the pattern shared by
`tree.Classifier.Predict`, `tree.Classifier.PredictID`,
`forest.Classifier.Predict` and `oobCtr.compute`. -/

def argmaxStep {α : Type} [LinearOrder α] (s : α × ℕ × ℕ) (count : α) : α × ℕ × ℕ :=
  if s.1 < count then (count, s.2.2, s.2.2 + 1) else (s.1, s.2.1, s.2.2 + 1)

def argmaxGo {α : Type} [LinearOrder α] (z : α) (l : List α) : ℕ :=
  (l.foldl argmaxStep (z, 0, 0)).2.1

/-- Argmax over integer vote/count vectors, starting from `maxCt = 0`. -/
def argmaxVote (counts : List ℤ) : ℕ := argmaxGo 0 counts

/-- Argmax over probability vectors, starting from `maxP = 0.0`. -/
def argmaxProb (probs : List ℚ) : ℕ := argmaxGo 0 probs

theorem argmaxGo_foldl_append {α : Type} [LinearOrder α] (s : α × ℕ × ℕ)
    (l : List α) (a : α) :
    (l ++ [a]).foldl argmaxStep s = argmaxStep (l.foldl argmaxStep s) a := by
  simp [List.foldl_append]

/-- Full characterisation of the state of the argmax fold: the position
counter equals the number of elements seen, the best value dominates `z`
and every element, and the best index is either the untouched initial `0`
(when nothing ever beat `z`) or the least index attaining the best value. -/
theorem argmaxGo_inv {α : Type} [LinearOrder α] (z : α) (l : List α) :
    (l.foldl argmaxStep (z, 0, 0)).2.2 = l.length ∧
    z ≤ (l.foldl argmaxStep (z, 0, 0)).1 ∧
    (∀ j < l.length, l.getD j z ≤ (l.foldl argmaxStep (z, 0, 0)).1) ∧
    (((l.foldl argmaxStep (z, 0, 0)).2.1 = 0 ∧
        (l.foldl argmaxStep (z, 0, 0)).1 = z) ∨
      ((l.foldl argmaxStep (z, 0, 0)).2.1 < l.length ∧
        l.getD (l.foldl argmaxStep (z, 0, 0)).2.1 z = (l.foldl argmaxStep (z, 0, 0)).1 ∧
        z < (l.foldl argmaxStep (z, 0, 0)).1 ∧
        ∀ j < (l.foldl argmaxStep (z, 0, 0)).2.1,
          l.getD j z < (l.foldl argmaxStep (z, 0, 0)).1)) := by
  induction l using List.reverseRecOn with
  | nil => simp
  | append_singleton l a ih =>
    obtain ⟨hlen, hzle, hdom, hcase⟩ := ih
    rw [argmaxGo_foldl_append]
    set st := l.foldl argmaxStep (z, 0, 0) with hst
    by_cases hlt : st.1 < a
    · refine ⟨?_, ?_, ?_, Or.inr ⟨?_, ?_, ?_, ?_⟩⟩
      · simp [argmaxStep, hlt, hlen]
      · simp only [argmaxStep, if_pos hlt]
        exact le_of_lt (lt_of_le_of_lt hzle hlt)
      · intro j hj
        simp only [List.length_append, List.length_singleton] at hj
        simp only [argmaxStep, if_pos hlt]
        by_cases hjl : j < l.length
        · rw [List.getD_append _ _ _ _ hjl]
          exact le_of_lt (lt_of_le_of_lt (hdom j hjl) hlt)
        · have hje : j = l.length := by omega
          subst hje
          rw [List.getD_append_right _ _ _ _ (le_refl _)]
          simp
      · simp [argmaxStep, hlt, hlen]
      · simp only [argmaxStep, if_pos hlt, hlen]
        rw [List.getD_append_right _ _ _ _ (le_refl _)]
        simp
      · simp only [argmaxStep, if_pos hlt]
        exact lt_of_le_of_lt hzle hlt
      · intro j hj
        simp only [argmaxStep, if_pos hlt, hlen] at hj ⊢
        rw [List.getD_append _ _ _ _ hj]
        exact lt_of_le_of_lt (hdom j hj) hlt
    · refine ⟨?_, ?_, ?_, ?_⟩
      · simp [argmaxStep, hlt, hlen]
      · simpa [argmaxStep, hlt] using hzle
      · intro j hj
        simp only [List.length_append, List.length_singleton] at hj
        simp only [argmaxStep, if_neg hlt]
        by_cases hjl : j < l.length
        · rw [List.getD_append _ _ _ _ hjl]
          exact hdom j hjl
        · have hje : j = l.length := by omega
          subst hje
          rw [List.getD_append_right _ _ _ _ (le_refl _)]
          simpa using le_of_not_lt hlt
      · rcases hcase with ⟨hc0, hmz⟩ | ⟨hclen, hcval, hzlt, hprev⟩
        · rw [hmz] at hlt
          exact Or.inl (by simp [argmaxStep, hlt, hc0, hmz])
        · refine Or.inr ⟨?_, ?_, ?_, ?_⟩
          · simp only [argmaxStep, if_neg hlt, List.length_append,
              List.length_singleton]
            omega
          · simp only [argmaxStep, if_neg hlt]
            rw [List.getD_append _ _ _ _ hclen]
            exact hcval
          · simpa [argmaxStep, hlt] using hzlt
          · intro j hj
            simp only [argmaxStep, if_neg hlt] at hj ⊢
            have hjl : j < l.length := lt_trans hj hclen
            rw [List.getD_append _ _ _ _ hjl]
            exact hprev j hj

/-- Helper: for vote vectors with non-negative entries, the Go argmax loop
returns the least index attaining the maximum, and `0` on an all-zero (or
empty) vector. -/
theorem argmaxVote_spec (counts : List ℤ) (hpos : ∀ c ∈ counts, 0 ≤ c) :
    (∀ j < counts.length, counts.getD j 0 ≤ counts.getD (argmaxVote counts) 0) ∧
    (∀ j < argmaxVote counts, counts.getD j 0 < counts.getD (argmaxVote counts) 0) ∧
    (counts ≠ [] → argmaxVote counts < counts.length) := by
  obtain ⟨hlen, hzle, hdom, hcase⟩ := argmaxGo_inv (0 : ℤ) counts
  rcases hcase with ⟨hc0, hbest⟩ | ⟨hclen, hcval, hzlt, hprev⟩
  · have hzero : ∀ j < counts.length, counts.getD j 0 = 0 := by
      intro j hj
      have h1 := hdom j hj
      rw [hbest] at h1
      have h2 : 0 ≤ counts.getD j 0 := by
        have := hpos (counts.getD j 0) ?_
        · exact this
        · rw [List.getD_eq_getElem _ _ hj]
          exact List.getElem_mem hj
      omega
    unfold argmaxVote argmaxGo
    rw [hc0]
    refine ⟨?_, ?_, ?_⟩
    · intro j hj
      rw [hzero j hj]
      by_cases h0 : 0 < counts.length
      · rw [hzero 0 h0]
      · omega
    · intro j hj; omega
    · intro hne
      cases counts with
      | nil => exact absurd rfl hne
      | cons a l => simp
  · unfold argmaxVote argmaxGo
    refine ⟨?_, ?_, fun _ => hclen⟩
    · intro j hj
      rw [hcval]
      exact hdom j hj
    · intro j hj
      rw [hcval]
      exact hprev j hj

/-- Helper: argmax of a one-hot vector is the hot index. -/
theorem argmaxVote_oneHot (counts : List ℤ) (c : ℕ) (hc : c < counts.length)
    (hpos : 0 < counts.getD c 0)
    (hz : ∀ j < counts.length, j ≠ c → counts.getD j 0 = 0) :
    argmaxVote counts = c := by
  obtain ⟨hlen, hzle, hdom, hcase⟩ := argmaxGo_inv (0 : ℤ) counts
  rcases hcase with ⟨hc0, hbest⟩ | ⟨hclen, hcval, hzlt, hprev⟩
  · exfalso
    have := hdom c hc
    rw [hbest] at this
    omega
  · unfold argmaxVote argmaxGo
    by_contra hne
    have hval0 : counts.getD (counts.foldl argmaxStep (0, 0, 0)).2.1 0 = 0 :=
      hz _ hclen hne
    rw [hcval] at hval0
    have := hdom c hc
    omega

/-- Helper: the argmax loop commutes with a strictly monotone map of the
values that fixes the initial best value. -/
theorem argmaxGo_foldl_map {α β : Type} [LinearOrder α] [LinearOrder β]
    (f : α → β) (hf : StrictMono f) (l : List α) :
    ∀ (m : α) (c i : ℕ),
      (l.map f).foldl argmaxStep (f m, c, i) =
        (f (l.foldl argmaxStep (m, c, i)).1,
          (l.foldl argmaxStep (m, c, i)).2.1,
          (l.foldl argmaxStep (m, c, i)).2.2) := by
  intro m c i
  induction l generalizing m c i with
  | nil => simp
  | cons a l ih =>
    simp only [List.map_cons, List.foldl_cons, argmaxStep]
    by_cases h : m < a
    · simp only [if_pos h, if_pos (hf.lt_iff_lt.mpr h)]
      exact ih a i (i + 1)
    · have h' : ¬ f m < f a := fun hc => h (hf.lt_iff_lt.mp hc)
      simp only [if_neg h, if_neg h']
      exact ih m c (i + 1)

/-- Helper: dividing every vote by a positive tree count does not change
the argmax (including its tie-breaking). -/
theorem argmaxProb_map_div (votes : List ℤ) (N : ℕ) (hN : 0 < N) :
    argmaxProb (votes.map (fun v : ℤ => (v : ℚ) / (N : ℚ))) = argmaxVote votes := by
  have hf : StrictMono (fun v : ℤ => (v : ℚ) / (N : ℚ)) := by
    intro a b hab
    have hNQ : (0 : ℚ) < (N : ℚ) := by exact_mod_cast hN
    exact div_lt_div_of_pos_right (by exact_mod_cast hab) hNQ
  have h0 : ((0 : ℤ) : ℚ) / (N : ℚ) = 0 := by simp
  unfold argmaxProb argmaxVote argmaxGo
  rw [show ((0 : ℚ), 0, 0) = ((fun v : ℤ => (v : ℚ) / (N : ℚ)) 0, 0, 0) by
    simp [h0]]
  rw [argmaxGo_foldl_map _ hf]

/-! ### Trees (frozen, as used for prediction)

`tree.Node` carries `Left, Right, SplitVar, SplitVal, ClassCounts,
Impurity, Leaf, Samples`; a frozen well-formed tree (two children or leaf)
is an inductive. -/

inductive FNode : Type where
  | leaf (classCounts : List ℤ) (impurity : ℚ) (samples : ℕ) : FNode
  | node (classCounts : List ℤ) (impurity : ℚ) (samples : ℕ)
      (splitVar : ℕ) (splitVal : ℚ) (left right : FNode) : FNode
deriving DecidableEq

def FNode.counts : FNode → List ℤ
  | FNode.leaf cc _ _ => cc
  | FNode.node cc _ _ _ _ _ _ => cc

def FNode.samples : FNode → ℕ
  | FNode.leaf _ _ s => s
  | FNode.node _ _ s _ _ _ _ => s

/-- `for !n.Leaf { if X[i][n.SplitVar] > n.SplitVal { n = n.Right } else
{ n = n.Left } }` — the traversal shared by every predict method. -/
def leafOf (x : ℕ → ℚ) : FNode → FNode
  | FNode.leaf cc imp s => FNode.leaf cc imp s
  | FNode.node _ _ _ v t l r => if x v > t then leafOf x r else leafOf x l

/-- Per-row `tree.Classifier.Predict`: argmax of the class counts at the
leaf reached. -/
def treePredictRow (t : FNode) (x : ℕ → ℚ) : ℕ :=
  argmaxVote (leafOf x t).counts

/-- Per-row `tree.Classifier.PredictProb`: `row[i] = ClassCounts[i] /
Samples` at the leaf reached. -/
def treeProbRow (t : FNode) (x : ℕ → ℚ) : List ℚ :=
  (leafOf x t).counts.map (fun c : ℤ => (c : ℚ) / ((leafOf x t).samples : ℚ))

/-! ### Forest prediction (`forest.Classifier`) -/

structure ClfForest : Type where
  trees : List FNode
  nTrees : ℕ
  nClasses : ℕ

/-- `classVotes[i][class]++` -/
def incAt (l : List ℤ) (i : ℕ) : List ℤ := l.set i (l.getD i 0 + 1)

/-- Vote accumulation of `forest.Classifier.Predict` for one row. -/
def forestVotesRow (f : ClfForest) (x : ℕ → ℚ) : List ℤ :=
  f.trees.foldl (fun votes t => incAt votes (treePredictRow t x))
    (List.replicate f.nClasses 0)

/-- Per-row `forest.Classifier.Predict`: argmax over the summed votes. -/
def forestPredictRow (f : ClfForest) (x : ℕ → ℚ) : ℕ :=
  argmaxVote (forestVotesRow f x)

/-- `for class := range tProbs[row] { probs[row][class] +=
tProbs[row][class] / float64(f.NTrees) }` -/
def addScaled (probs tp : List ℚ) (nTrees : ℕ) : List ℚ :=
  (List.range tp.length).foldl
    (fun ps c => ps.set c (ps.getD c 0 + tp.getD c 0 / (nTrees : ℚ))) probs

/-- Per-row `forest.Classifier.PredictProb`: per-class probabilities
averaged across trees. -/
def forestProbRow (f : ClfForest) (x : ℕ → ℚ) : List ℚ :=
  f.trees.foldl (fun ps t => addScaled ps (treeProbRow t x) f.nTrees)
    (List.replicate f.nClasses 0)

/-- C10: In every argmax over class votes or class counts (tree `Predict`,
forest `Predict`, and the OOB confusion-matrix computation — all of which
run the `count > maxCt` loop embedded as `argmaxVote`), ties are broken
toward the smallest class index: the returned class is the least index
attaining the maximal count, and when all counts are zero the returned
class is index 0. -/
theorem c10_argmax_tiebreak (counts : List ℤ) (hpos : ∀ c ∈ counts, 0 ≤ c)
    (hne : counts ≠ []) :
    argmaxVote counts < counts.length ∧
    (∀ j < counts.length, counts.getD j 0 ≤ counts.getD (argmaxVote counts) 0) ∧
    (∀ j < argmaxVote counts, counts.getD j 0 < counts.getD (argmaxVote counts) 0) ∧
    ((∀ j < counts.length, counts.getD j 0 = 0) → argmaxVote counts = 0) := by
  obtain ⟨hdom, hleast, hlt⟩ := argmaxVote_spec counts hpos
  refine ⟨hlt hne, hdom, hleast, ?_⟩
  intro hzero
  by_contra hne0
  have h0 : 0 < argmaxVote counts := Nat.pos_of_ne_zero hne0
  have := hleast 0 h0
  have hml := hlt hne
  rw [hzero 0 (by omega), hzero _ hml] at this
  omega

/-- Witness for C10 at `counts = [2, 5, 5, 0]` (argmax is class 1). -/
theorem c10_argmax_tiebreak_witness :
    argmaxVote [2, 5, 5, 0] < ([2, 5, 5, 0] : List ℤ).length ∧
    (∀ j < ([2, 5, 5, 0] : List ℤ).length,
      ([2, 5, 5, 0] : List ℤ).getD j 0 ≤
        ([2, 5, 5, 0] : List ℤ).getD (argmaxVote [2, 5, 5, 0]) 0) ∧
    (∀ j < argmaxVote [2, 5, 5, 0],
      ([2, 5, 5, 0] : List ℤ).getD j 0 <
        ([2, 5, 5, 0] : List ℤ).getD (argmaxVote [2, 5, 5, 0]) 0) ∧
    ((∀ j < ([2, 5, 5, 0] : List ℤ).length,
      ([2, 5, 5, 0] : List ℤ).getD j 0 = 0) → argmaxVote [2, 5, 5, 0] = 0) :=
  c10_argmax_tiebreak [2, 5, 5, 0] (by decide) (by decide)

/-! ### C1: Predict vs argmax of PredictProb -/

/-- A one-hot probability vector of length `K`, hot at `c`. -/
def oneHotQ (K c : ℕ) : List ℚ := (List.replicate K (0 : ℚ)).set c 1

/-- The leaf reached by row `x` in tree `t` concentrates all its class
counts on a single class (with `ClassCounts` of length `K` and positive
`Samples`). -/
def PureLeaf (K : ℕ) (t : FNode) (x : ℕ → ℚ) : Prop :=
  (leafOf x t).counts.length = K ∧ 0 < (leafOf x t).samples ∧
  ∃ c, c < K ∧ (leafOf x t).counts.getD c 0 = ((leafOf x t).samples : ℤ) ∧
    ∀ j, j < K → j ≠ c → (leafOf x t).counts.getD j 0 = 0

theorem oneHotQ_length (K c : ℕ) : (oneHotQ K c).length = K := by
  simp [oneHotQ]

theorem treeRow_of_pure (K : ℕ) (t : FNode) (x : ℕ → ℚ)
    (h : PureLeaf K t x) :
    ∃ c, c < K ∧ treePredictRow t x = c ∧ treeProbRow t x = oneHotQ K c := by
  obtain ⟨hlen, hs, c, hcK, hhot, hz⟩ := h
  refine ⟨c, hcK, ?_, ?_⟩
  · unfold treePredictRow
    refine argmaxVote_oneHot _ c (by omega) ?_ ?_
    · rw [hhot]; exact_mod_cast hs
    · intro j hj hjc
      exact hz j (by omega) hjc
  · unfold treeProbRow
    apply List.ext_getElem
    · simp [hlen, oneHotQ_length]
    · intro i h1 h2
      have hiK : i < K := by simpa [oneHotQ_length] using h2
      have hilen : i < (leafOf x t).counts.length := by omega
      rw [List.getElem_map]
      by_cases hic : i = c
      · subst hic
        have hval : (leafOf x t).counts[i] = ((leafOf x t).samples : ℤ) := by
          rw [← List.getD_eq_getElem _ (0 : ℤ) hilen]; exact hhot
        have hs0 : ((leafOf x t).samples : ℚ) ≠ 0 :=
          ne_of_gt (by exact_mod_cast hs)
        rw [hval]
        have hrhs : (oneHotQ K i)[i] = 1 := by
          unfold oneHotQ
          exact List.getElem_set_self ..
        rw [hrhs]
        push_cast
        exact div_self hs0
      · have hval : (leafOf x t).counts[i] = (0 : ℤ) := by
          rw [← List.getD_eq_getElem _ (0 : ℤ) hilen]
          exact hz i hiK hic
        have hrhs : (oneHotQ K c)[i] = 0 := by
          unfold oneHotQ
          rw [List.getElem_set_ne (fun hci => hic hci.symm)]
          exact List.getElem_replicate ..
        rw [hval, hrhs]
        simp

theorem addScaled_nil (ps : List ℚ) (N : ℕ) : addScaled ps [] N = ps := rfl

theorem foldl_set_nil (w : ℕ → ℚ) (idxs : List ℕ) :
    idxs.foldl (fun ps c => ps.set c (ps.getD c 0 + w c)) [] = [] := by
  induction idxs with
  | nil => rfl
  | cons i idxs ih => simpa using ih

theorem foldl_set_shift (w : ℕ → ℚ) (idxs : List ℕ) :
    ∀ (a : ℚ) (l : List ℚ),
      (idxs.map Nat.succ).foldl (fun ps c => ps.set c (ps.getD c 0 + w c)) (a :: l) =
        a :: idxs.foldl (fun ps c => ps.set c (ps.getD c 0 + w (c + 1))) l := by
  induction idxs with
  | nil => intro a l; rfl
  | cons i idxs ih =>
    intro a l
    simp only [List.map_cons, List.foldl_cons, List.getD_cons_succ, List.set_cons_succ]
    exact ih a _

theorem addScaled_cons (p t : ℚ) (ps tp : List ℚ) (N : ℕ) :
    addScaled (p :: ps) (t :: tp) N = (p + t / (N : ℚ)) :: addScaled ps tp N := by
  unfold addScaled
  rw [List.length_cons, List.range_succ_eq_map]
  simp only [List.foldl_cons, List.getD_cons_zero, List.set_cons_zero]
  exact foldl_set_shift (fun c => (t :: tp).getD c 0 / (N : ℚ)) _ _ _

theorem addScaled_nil_left (tp : List ℚ) (N : ℕ) : addScaled [] tp N = [] :=
  foldl_set_nil _ _

theorem addScaled_zeros (N : ℕ) :
    ∀ (tp ps : List ℚ), (∀ i < tp.length, tp.getD i 0 = 0) →
      addScaled ps tp N = ps := by
  intro tp
  induction tp with
  | nil => intro ps _; rfl
  | cons t tp ih =>
    intro ps hz
    cases ps with
    | nil => exact addScaled_nil_left _ _
    | cons p ps =>
      rw [addScaled_cons]
      have ht : t = 0 := by simpa using hz 0 (by simp)
      rw [ht, ih ps (fun i hi => by simpa using hz (i + 1) (by simpa using hi))]
      simp

theorem addScaled_oneHot (N : ℕ) :
    ∀ (vs : List ℤ) (K c : ℕ), vs.length = K → c < K →
      addScaled (vs.map (fun v : ℤ => (v : ℚ) / (N : ℚ))) (oneHotQ K c) N =
        (incAt vs c).map (fun v : ℤ => (v : ℚ) / (N : ℚ)) := by
  intro vs
  induction vs with
  | nil => intro K c hK hc; rw [← hK] at hc; simp at hc
  | cons v vs ih =>
    intro K c hK hc
    cases K with
    | zero => omega
    | succ K =>
      have hvs : vs.length = K := by simpa using hK
      cases c with
      | zero =>
        simp only [oneHotQ, List.replicate_succ, List.set_cons_zero, List.map_cons]
        rw [addScaled_cons]
        rw [addScaled_zeros N (List.replicate K 0) _ (fun i hi => by simp)]
        simp only [incAt, List.getD_cons_zero, List.set_cons_zero, List.map_cons]
        congr 1
        push_cast
        rw [div_add_div_same]
      | succ c =>
        simp only [oneHotQ, List.replicate_succ, List.set_cons_succ, List.map_cons]
        rw [addScaled_cons]
        have := ih K c hvs (by omega)
        simp only [oneHotQ] at this
        rw [this]
        simp only [incAt, List.getD_cons_succ, List.set_cons_succ, List.map_cons]
        simp

theorem incAt_length (l : List ℤ) (i : ℕ) : (incAt l i).length = l.length := by
  simp [incAt]

theorem forest_fold_rel (x : ℕ → ℚ) (K N : ℕ) :
    ∀ (trees : List FNode) (vs : List ℤ), vs.length = K →
      (∀ t ∈ trees, PureLeaf K t x) →
      trees.foldl (fun ps t => addScaled ps (treeProbRow t x) N)
          (vs.map (fun v : ℤ => (v : ℚ) / (N : ℚ))) =
        (trees.foldl (fun votes t => incAt votes (treePredictRow t x)) vs).map
          (fun v : ℤ => (v : ℚ) / (N : ℚ)) := by
  intro trees
  induction trees with
  | nil => intro vs _ _; rfl
  | cons t trees ih =>
    intro vs hK hpure
    obtain ⟨c, hcK, hpred, hprob⟩ :=
      treeRow_of_pure K t x (hpure t (List.mem_cons_self t trees))
    simp only [List.foldl_cons, hprob, hpred]
    rw [addScaled_oneHot N vs K c hK hcK]
    exact ih (incAt vs c) (by rw [incAt_length, hK])
      (fun t' ht' => hpure t' (List.mem_cons_of_mem t ht'))

/-- C1 (amended): whenever the leaf each tree routes the row to is pure
(one-hot class counts) and `NTrees > 0`, the class returned by `Predict`
equals the argmax of the probabilities returned by `PredictProb`.  (The
unamended claim is refuted by `c1_counterexample`.) -/
theorem c1_predict_predictProb_agree (f : ClfForest) (x : ℕ → ℚ)
    (hN : 0 < f.nTrees) (hpure : ∀ t ∈ f.trees, PureLeaf f.nClasses t x) :
    argmaxProb (forestProbRow f x) = forestPredictRow f x := by
  unfold forestProbRow forestPredictRow forestVotesRow
  have hinit : (List.replicate f.nClasses (0 : ℚ)) =
      (List.replicate f.nClasses (0 : ℤ)).map
        (fun v : ℤ => (v : ℚ) / (f.nTrees : ℚ)) := by
    rw [List.map_replicate]
    simp
  rw [hinit, forest_fold_rel x f.nClasses f.nTrees f.trees
    (List.replicate f.nClasses 0) (by simp) hpure]
  exact argmaxProb_map_div _ _ hN

/-- C1 (counterexample): a two-tree forest whose trees have impure leaves:
tree 1's leaf has counts `[3,2]` (votes class 0), tree 2's has `[0,1]`
(votes class 1).  `Predict` returns class 0 (vote tie, first max wins)
while the averaged probabilities are `[3/10, 7/10]`, whose argmax is
class 1. -/
theorem c1_counterexample :
    ¬ (argmaxProb (forestProbRow
          ⟨[FNode.leaf [3, 2] 0 5, FNode.leaf [0, 1] 0 1], 2, 2⟩ (fun _ => 0)) =
        forestPredictRow
          ⟨[FNode.leaf [3, 2] 0 5, FNode.leaf [0, 1] 0 1], 2, 2⟩ (fun _ => 0)) := by
  have hp : forestProbRow
      ⟨[FNode.leaf [3, 2] 0 5, FNode.leaf [0, 1] 0 1], 2, 2⟩ (fun _ => 0) =
      [3 / 10, 7 / 10] := by
    show addScaled (addScaled [0, 0]
      (treeProbRow (FNode.leaf [3, 2] 0 5) (fun _ => 0)) 2)
      (treeProbRow (FNode.leaf [0, 1] 0 1) (fun _ => 0)) 2 = [3 / 10, 7 / 10]
    have h1 : treeProbRow (FNode.leaf [3, 2] 0 5) (fun _ => 0) =
        [3 / 5, 2 / 5] := by
      unfold treeProbRow leafOf FNode.counts FNode.samples
      norm_num
    have h2 : treeProbRow (FNode.leaf [0, 1] 0 1) (fun _ => 0) = [0, 1] := by
      unfold treeProbRow leafOf FNode.counts FNode.samples
      norm_num
    rw [h1, h2]
    simp only [addScaled_cons, addScaled_nil]
    norm_num
  have hv : forestPredictRow
      ⟨[FNode.leaf [3, 2] 0 5, FNode.leaf [0, 1] 0 1], 2, 2⟩ (fun _ => 0) = 0 := by
    decide
  have ha : argmaxProb [(3 : ℚ) / 10, 7 / 10] = 1 := by
    unfold argmaxProb argmaxGo argmaxStep
    norm_num
  rw [hp, ha, hv]
  decide

/-- Witness for C1 on a two-tree forest with pure leaves. -/
theorem c1_predict_predictProb_agree_witness :
    argmaxProb (forestProbRow
        ⟨[FNode.leaf [0, 3] 0 3, FNode.leaf [2, 0] 0 2], 2, 2⟩ (fun _ => 0)) =
      forestPredictRow
        ⟨[FNode.leaf [0, 3] 0 3, FNode.leaf [2, 0] 0 2], 2, 2⟩ (fun _ => 0) := by
  refine c1_predict_predictProb_agree _ _ (by decide) ?_
  intro t ht
  simp only [List.mem_cons, List.not_mem_nil, or_false] at ht
  rcases ht with rfl | rfl
  · exact ⟨by decide, by decide, 1, by decide, by decide, by decide⟩
  · exact ⟨by decide, by decide, 0, by decide, by decide, by decide⟩

/-! ### C2: OOB accuracy (`oobCtr.compute`) -/

theorem getD_set_self {α : Type} (l : List α) (i : ℕ) (v d : α)
    (h : i < l.length) : (l.set i v).getD i d = v := by
  rw [List.getD_eq_getElem _ _ (by simpa using h)]
  exact List.getElem_set_self ..

theorem getD_set_ne {α : Type} (l : List α) (i j : ℕ) (v d : α)
    (h : i ≠ j) : (l.set i v).getD j d = l.getD j d := by
  by_cases hj : j < l.length
  · rw [List.getD_eq_getElem _ _ (by simpa using hj),
      List.getD_eq_getElem _ _ hj]
    exact List.getElem_set_ne h ..
  · rw [List.getD_eq_default _ _ (by simpa using not_lt.mp hj),
      List.getD_eq_default _ _ (by simpa using not_lt.mp hj)]

/-- `confMat[actual][maxClass]++` -/
def inc2At (m : List (List ℤ)) (a b : ℕ) : List (List ℤ) :=
  m.set a (incAt (m.getD a []) b)

/-- `for i := range confMat { correctCt += confMat[i][i] }` -/
def traceMat (m : List (List ℤ)) : ℤ :=
  (List.range m.length).foldl (fun s i => s + (m.getD i []).getD i 0) 0

/-- The confusion matrix built by `oobCtr.compute`: a `K × K` zero matrix
(`K = len(classVotes[0])`) incremented at `[actual][argmax vote]` for
every training sample. -/
def oobConfMat (classVotes : List (List ℤ)) (Y : List ℕ) : List (List ℤ) :=
  Y.enum.foldl (fun m p => inc2At m p.2 (argmaxVote (classVotes.getD p.1 [])))
    (List.replicate (classVotes.getD 0 []).length
      (List.replicate (classVotes.getD 0 []).length 0))

/-- The accuracy returned by `oobCtr.compute`:
`float64(correctCt) / float64(len(Y))`. -/
def oobAccuracy (classVotes : List (List ℤ)) (Y : List ℕ) : ℚ :=
  (traceMat (oobConfMat classVotes Y) : ℚ) / (Y.length : ℚ)

/-- Spec-side: the number of training samples that received at least one
out-of-bag vote (the denominator the spec prescribes). -/
def specOobDenom (classVotes : List (List ℤ)) (Y : List ℕ) : ℕ :=
  (List.range Y.length).countP
    (fun i => (classVotes.getD i []).any (fun c => 0 < c))

/-- Spec-side: the number of samples whose OOB argmax vote matches their
true label. -/
def specCorrectCt (classVotes : List (List ℤ)) (Y : List ℕ) : ℕ :=
  Y.enum.countP (fun p => argmaxVote (classVotes.getD p.1 []) = p.2)

theorem inc2At_length (m : List (List ℤ)) (a b : ℕ) :
    (inc2At m a b).length = m.length := by
  simp [inc2At]

theorem foldl_add_eq_sum (g : ℕ → ℤ) :
    ∀ (idxs : List ℕ) (s : ℤ),
      idxs.foldl (fun s i => s + g i) s = s + (idxs.map g).sum := by
  intro idxs
  induction idxs with
  | nil => intro s; simp
  | cons i idxs ih =>
    intro s
    simp only [List.foldl_cons, List.map_cons, List.sum_cons]
    rw [ih]
    ring

theorem traceMat_eq_sum (m : List (List ℤ)) :
    traceMat m =
      ((List.range m.length).map (fun i => (m.getD i []).getD i 0)).sum := by
  unfold traceMat
  rw [foldl_add_eq_sum]
  ring

theorem sum_map_range_except (d : ℤ) (g g' : ℕ → ℤ) :
    ∀ (K a : ℕ), a < K → (∀ i, i ≠ a → g' i = g i) → g' a = g a + d →
      ((List.range K).map g').sum = ((List.range K).map g).sum + d := by
  intro K
  induction K with
  | zero => intro a ha; omega
  | succ K ih =>
    intro a ha hne hd
    rw [List.range_succ, List.map_append, List.map_append, List.sum_append,
      List.sum_append]
    by_cases haK : a = K
    · have hmap : (List.range K).map g' = (List.range K).map g := by
        apply List.map_congr_left
        intro i hi
        apply hne
        have := List.mem_range.mp hi
        omega
      have h2 : g' K = g K + d := by rw [← haK]; exact hd
      rw [hmap]
      simp [h2]
      ring
    · rw [ih a (by omega) hne hd]
      have : g' K = g K := hne K (fun h => haK h.symm)
      simp [this]
      ring

theorem traceMat_inc2At (m : List (List ℤ)) (a b : ℕ) (K : ℕ)
    (hK : m.length = K) (hrows : ∀ i < K, (m.getD i []).length = K)
    (ha : a < K) :
    traceMat (inc2At m a b) = traceMat m + (if b = a then 1 else 0) := by
  rw [traceMat_eq_sum, traceMat_eq_sum, inc2At_length, hK]
  apply sum_map_range_except _ _ _ K a ha
  · intro i hia
    have hrow : (inc2At m a b).getD i [] = m.getD i [] := by
      unfold inc2At
      exact getD_set_ne m a i _ [] (fun h => hia h.symm)
    rw [hrow]
  · have hrow : (inc2At m a b).getD a [] = incAt (m.getD a []) b := by
      unfold inc2At
      exact getD_set_self m a _ [] (by omega)
    rw [hrow]
    by_cases hba : b = a
    · subst hba
      have : (incAt (m.getD b []) b).getD b 0 = (m.getD b []).getD b 0 + 1 := by
        unfold incAt
        exact getD_set_self _ b _ 0 (by rw [hrows b ha]; omega)
      rw [this]
      simp
    · have : (incAt (m.getD a []) b).getD a 0 = (m.getD a []).getD a 0 := by
        unfold incAt
        exact getD_set_ne _ b a _ 0 hba
      rw [this]
      simp [hba]

theorem inc2At_rows (m : List (List ℤ)) (a b K : ℕ)
    (hrows : ∀ i < K, (m.getD i []).length = K) :
    ∀ i < K, ((inc2At m a b).getD i []).length = K := by
  intro i hi
  by_cases hia : i = a
  · subst hia
    by_cases him : i < m.length
    · have : (inc2At m i b).getD i [] = incAt (m.getD i []) b :=
        getD_set_self m i _ [] him
      rw [this, incAt_length]
      exact hrows i hi
    · unfold inc2At
      rw [List.set_eq_of_length_le (by omega)]
      exact hrows i hi
  · have : (inc2At m a b).getD i [] = m.getD i [] :=
      getD_set_ne m a i _ [] (fun h => hia h.symm)
    rw [this]
    exact hrows i hi

theorem oob_fold_trace (cv : List (List ℤ)) (K : ℕ) :
    ∀ (pairs : List (ℕ × ℕ)) (m : List (List ℤ)),
      m.length = K → (∀ i < K, (m.getD i []).length = K) →
      (∀ p ∈ pairs, p.2 < K) →
      traceMat (pairs.foldl
          (fun m p => inc2At m p.2 (argmaxVote (cv.getD p.1 []))) m) =
        traceMat m +
          (pairs.countP (fun p => argmaxVote (cv.getD p.1 []) = p.2) : ℤ) := by
  intro pairs
  induction pairs with
  | nil => intro m _ _ _; simp
  | cons p pairs ih =>
    intro m hK hrows hmem
    simp only [List.foldl_cons]
    rw [ih (inc2At m p.2 (argmaxVote (cv.getD p.1 [])))
      (by rw [inc2At_length, hK])
      (inc2At_rows m _ _ K hrows)
      (fun q hq => hmem q (List.mem_cons_of_mem p hq))]
    rw [traceMat_inc2At m _ _ K hK hrows (hmem p (List.mem_cons_self p pairs))]
    rw [List.countP_cons]
    by_cases hc : argmaxVote (cv.getD p.1 []) = p.2
    · rw [if_pos hc, if_pos (decide_eq_true hc)]
      push_cast
      ring
    · rw [if_neg hc, if_neg (by simpa using hc)]
      push_cast
      ring

/-- C2 (amended): the accuracy computed by `oobCtr.compute` equals the
trace of the confusion matrix divided by the TOTAL number of training
samples (`len(Y)`), samples with zero OOB votes included — such samples
are recorded in the confusion matrix under predicted class 0.
Equivalently, the trace equals the number of samples whose argmax OOB
vote matches their label.  (The spec's `≥1 vote` denominator is refuted
by `c2_counterexample`.) -/
theorem c2_oob_accuracy (classVotes : List (List ℤ)) (Y : List ℕ)
    (hy : ∀ y ∈ Y, y < (classVotes.getD 0 []).length) :
    traceMat (oobConfMat classVotes Y) = (specCorrectCt classVotes Y : ℤ) ∧
    oobAccuracy classVotes Y = (specCorrectCt classVotes Y : ℚ) / (Y.length : ℚ) := by
  have htr : traceMat (oobConfMat classVotes Y) = (specCorrectCt classVotes Y : ℤ) := by
    unfold oobConfMat specCorrectCt
    set K := (classVotes.getD 0 []).length with hKdef
    have h0 : traceMat (List.replicate K (List.replicate K (0 : ℤ))) = 0 := by
      rw [traceMat_eq_sum]
      apply List.sum_eq_zero
      intro x hx
      rw [List.mem_map] at hx
      obtain ⟨i, hi, hval⟩ := hx
      have hiK : i < K := by simpa using List.mem_range.mp hi
      rw [← hval]
      have : (List.replicate K (List.replicate K (0 : ℤ))).getD i [] =
          List.replicate K (0 : ℤ) := by
        rw [List.getD_eq_getElem _ _ (by simpa using hiK)]
        exact List.getElem_replicate ..
      rw [this]
      rcases Nat.lt_or_ge i K with h | h
      · rw [List.getD_eq_getElem _ _ (by simpa using h)]
        exact List.getElem_replicate ..
      · rw [List.getD_eq_default _ _ (by simpa using h)]
    rw [oob_fold_trace classVotes K Y.enum _ (by simp) ?_ ?_, h0]
    · ring
    · intro i hi
      rw [List.getD_eq_getElem _ _ (by simpa using hi)]
      simp
    · intro p hp
      rw [List.enum_eq_zip_range] at hp
      exact hy p.2 (List.of_mem_zip hp).2
  refine ⟨htr, ?_⟩
  unfold oobAccuracy
  rw [htr]
  push_cast
  ring

/-- Witness for C2 on `classVotes = [[1,0],[0,2]]`, `Y = [0,1]`: both
samples are predicted correctly and the accuracy is `2/2`. -/
theorem c2_oob_accuracy_witness :
    traceMat (oobConfMat [[1, 0], [0, 2]] [0, 1]) =
      (specCorrectCt [[1, 0], [0, 2]] [0, 1] : ℤ) ∧
    oobAccuracy [[1, 0], [0, 2]] [0, 1] =
      (specCorrectCt [[1, 0], [0, 2]] [0, 1] : ℚ) /
        (([0, 1] : List ℕ).length : ℚ) :=
  c2_oob_accuracy [[1, 0], [0, 2]] [0, 1] (by decide)

/-- C2 (counterexample): with `classVotes = [[1,0],[0,0]]` and
`Y = [0,1]` (sample 1 got no OOB vote), the code returns accuracy
`1/2` while the spec's formula (trace divided by samples with at least
one vote) gives `1/1`. -/
theorem c2_counterexample :
    ¬ (oobAccuracy [[1, 0], [0, 0]] [0, 1] =
        (traceMat (oobConfMat [[1, 0], [0, 0]] [0, 1]) : ℚ) /
          (specOobDenom [[1, 0], [0, 0]] [0, 1] : ℚ)) := by
  have htr : traceMat (oobConfMat [[1, 0], [0, 0]] [0, 1]) = 1 := by decide
  have hd : specOobDenom [[1, 0], [0, 0]] [0, 1] = 1 := by decide
  unfold oobAccuracy
  rw [htr, hd]
  norm_num

/-! ### C9: early stop in `forest.Regressor.Fit`

The receive loop is embedded with the incoming trees and the OOB-counter
MSE values abstracted as streams (`treeAt`, `mseAt`): worker concurrency
only affects which values those streams hold, not the loop's logic. -/

/-- `if f.earlyStop { f.computeOOB = true }` -/
def regComputeOOB (earlyStop computeOOB : Bool) : Bool :=
  if earlyStop then true else computeOOB

/-- The tree-collection loop of `Regressor.Fit` (lines 116-131):
receive a tree; when early stop is on, recompute the OOB MSE and break
before appending once `i > 4` and `|mse - prevMSE| < 1e-6`. -/
def collectGo {α : Type} (earlyStop : Bool) (mseAt : ℕ → ℚ) (treeAt : ℕ → α) :
    ℕ → ℕ → ℚ → List α
  | _, 0, _ => []
  | i, n + 1, prevMSE =>
    if earlyStop then
      if 4 < i ∧ |mseAt i - prevMSE| < oneE6 then []
      else treeAt i :: collectGo earlyStop mseAt treeAt (i + 1) n (mseAt i)
    else treeAt i :: collectGo earlyStop mseAt treeAt (i + 1) n prevMSE

/-- `Regressor.Fit`'s trees: `n_trees` receive iterations starting from
`prevMSE = 0`. -/
def regFitTrees {α : Type} (nTrees : ℕ) (earlyStop : Bool)
    (mseAt : ℕ → ℚ) (treeAt : ℕ → α) : List α :=
  collectGo earlyStop mseAt treeAt 0 nTrees 0

/-- C9: with early stop enabled on the forest regressor, `compute_oob` is
implicitly enabled; the receive loop accepts at most the requested number
of trees; and as soon as a received tree has index `i > 4` with the OOB
MSE within `1e-6` of the previous one, no further trees (that one
included) are accepted. -/
theorem c9_early_stop {α : Type} (mseAt : ℕ → ℚ) (treeAt : ℕ → α) :
    (∀ c : Bool, regComputeOOB true c = true) ∧
    (∀ (es : Bool) (i n : ℕ) (prev : ℚ),
      (collectGo es mseAt treeAt i n prev).length ≤ n) ∧
    (∀ (i n : ℕ) (prev : ℚ), 4 < i → |mseAt i - prev| < oneE6 →
      collectGo true mseAt treeAt i (n + 1) prev = []) := by
  refine ⟨fun c => rfl, ?_, ?_⟩
  · intro es i n
    induction n generalizing i with
    | zero => intro prev; simp [collectGo]
    | succ n ih =>
      intro prev
      unfold collectGo
      cases es with
      | true =>
        simp only [if_true]
        by_cases hstop : 4 < i ∧ |mseAt i - prev| < oneE6
        · simp [hstop]
        · simp only [hstop, if_false, List.length_cons]
          exact Nat.succ_le_succ (ih (i + 1) (mseAt i))
      | false =>
        simp only [Bool.false_eq_true, if_false, List.length_cons]
        exact Nat.succ_le_succ (ih (i + 1) prev)
  · intro i n prev h4 hmse
    unfold collectGo
    simp [h4, hmse]

/-- Witness for C9: at index 5 with a constant MSE stream the loop stops
immediately, and `compute_oob` follows from `early_stop`. -/
theorem c9_early_stop_witness :
    collectGo true (fun _ => (0 : ℚ)) (fun i => i) 5 (2 + 1) 0 = [] :=
  (c9_early_stop (fun _ => (0 : ℚ)) (fun i => i)).2.2 5 2 0 (by norm_num)
    (by rw [sub_zero, abs_zero]; norm_num [oneE6])

/-! ### C8: CSV header detection (`parseHeader` / `parseCSV`)

A CSV cell either parses as a 64-bit float or is a non-numeric string;
`strconv.ParseFloat` is modelled by `parseFloat` on that sum. -/

inductive Cell : Type where
  | num (v : ℚ) : Cell
  | str (s : String) : Cell
deriving DecidableEq

/-- `strconv.ParseFloat(val, 64)`: `some` iff the cell is numeric. -/
def parseFloat : Cell → Option ℚ
  | Cell.num v => some v
  | Cell.str _ => none

/-- The loop of `parseHeader` over `row[1:]`: a numeric value aborts with
the "not a header row" error (`none`); otherwise the value is collected
as a column name. -/
def phLoop : List Cell → List String → Option (List String)
  | [], acc => some acc
  | c :: rest, acc =>
    match parseFloat c, c with
    | some _, _ => none
    | none, Cell.num _ => none
    | none, Cell.str s => phLoop rest (acc ++ [s])

/-- `parseHeader`: only rows with more than one column run the loop; a
one-column (or empty) row returns the empty name list with no error. -/
def parseHeaderGo (row : List Cell) : Option (List String) :=
  if row.length > 1 then phLoop row.tail [] else some []

/-- `parseCSV` treats the first row as a header exactly when
`parseHeader` returns no error (lines 34-49 of the parser). -/
def csvFirstRowIsHeader (rows : List (List Cell)) : Bool :=
  match rows with
  | [] => false
  | row :: _ => (parseHeaderGo row).isSome

/-- Spec-side: "any value beyond the first column is non-numeric". -/
def specAnyNonNumeric (row : List Cell) : Bool :=
  row.tail.any (fun c => (parseFloat c).isNone)

theorem phLoop_isSome (cells : List Cell) :
    ∀ acc : List String, (phLoop cells acc).isSome =
      cells.all (fun c => (parseFloat c).isNone) := by
  induction cells with
  | nil => intro acc; simp [phLoop]
  | cons c rest ih =>
    intro acc
    cases c with
    | num v => simp [phLoop, parseFloat]
    | str s => simp [phLoop, parseFloat, ih]

/-- C8 (amended): the parser treats the first row as a header iff EVERY
value beyond the first column is non-numeric (vacuously a header when
the row has at most one column); a single numeric value beyond the first
column makes it a data row.  (The spec's "any value non-numeric" rule is
refuted by `c8_counterexample`.) -/
theorem c8_header_iff_all_nonnumeric (row : List Cell) (rest : List (List Cell)) :
    csvFirstRowIsHeader (row :: rest) =
      row.tail.all (fun c => (parseFloat c).isNone) := by
  unfold csvFirstRowIsHeader parseHeaderGo
  by_cases h : row.length > 1
  · simp only [h, if_true]
    exact phLoop_isSome row.tail []
  · simp only [h, if_false]
    cases row with
    | nil => simp
    | cons c cs =>
      cases cs with
      | nil => simp
      | cons c2 cs2 => simp at h

/-- C8 (counterexample): first row `["y", "name", "2.0"]` has a
non-numeric value beyond the first column, so the spec declares it a
header, but the parser (which aborts on the numeric `"2.0"`) treats it
as data. -/
theorem c8_counterexample :
    ¬ (csvFirstRowIsHeader [[Cell.str "y", Cell.str "name", Cell.num 2]] =
        specAnyNonNumeric [Cell.str "y", Cell.str "name", Cell.num 2]) := by
  decide

/-! ### The best-threshold scan (`tree.Classifier.bestSplit`, C6) -/

/-- `classCtR[yVal]--` -/
def decAt (l : List ℤ) (i : ℕ) : List ℤ := l.set i (l.getD i 0 - 1)

/-- The gini impurity exactly as coded: `g += p * p` for every class with
a positive count, result `1 - g`. -/
def gini (n : ℤ) (ct : List ℤ) : ℚ :=
  1 - ct.foldl
    (fun g c => if 0 < c then g + ((c : ℚ) / (n : ℚ)) * ((c : ℚ) / (n : ℚ)) else g) 0

/-- The inner loop `for j := lastCtr; j < i; j++` moving samples from the
right counter to the left counter. -/
def bsMove (Y : ℕ → ℕ) (inx : List ℕ) (lastCtr i : ℕ)
    (st : ℤ × List ℤ × ℤ × List ℤ) : ℤ × List ℤ × ℤ × List ℤ :=
  (List.range' lastCtr (i - lastCtr)).foldl
    (fun st j =>
      (st.1 + 1, incAt st.2.1 (Y (inx.getD j 0)),
       st.2.2.1 - 1, decAt st.2.2.2 (Y (inx.getD j 0))))
    st

structure BSState : Type where
  dBest : ℚ
  vBest : ℚ
  pos : ℤ
  nLeft : ℤ
  nRight : ℤ
  ctL : List ℤ
  ctR : List ℤ
  lastCtr : ℕ

/-- One iteration of the `for i := 1; i < n; i++` scan of `bestSplit`. -/
def bsStep (xi : List ℚ) (Y : ℕ → ℕ) (inx : List ℕ) (minLeaf : ℤ)
    (dInit : ℚ) (impurityFn : ℤ → List ℤ → ℚ) (st : BSState) (i : ℕ) : BSState :=
  if xi.getD i 0 ≤ xi.getD (i - 1) 0 + eps then st
  else
    let m := bsMove Y inx st.lastCtr i (st.nLeft, st.ctL, st.nRight, st.ctR)
    let st' : BSState :=
      { st with nLeft := m.1, ctL := m.2.1, nRight := m.2.2.1, ctR := m.2.2.2,
                lastCtr := i }
    if 0 < minLeaf ∧ (st'.nLeft < minLeaf ∨ st'.nRight < minLeaf) then st'
    else
      let v := (xi.getD (i - 1) 0 + xi.getD i 0) / 2
      let iR := impurityFn st'.nRight st'.ctR
      let iL := impurityFn st'.nLeft st'.ctL
      let d := dInit - ((st'.nLeft : ℚ) / (xi.length : ℚ)) * iL -
        ((st'.nRight : ℚ) / (xi.length : ℚ)) * iR
      if d > st'.dBest then { st' with dBest := d, vBest := v, pos := st'.nLeft }
      else st'

/-- `tree.Classifier.bestSplit`: returns `(vBest, dBest, pos)`.  The
caller hands in a zeroed left counter and the node's class counts as the
right counter. -/
def bestSplitGo (xi : List ℚ) (Y : ℕ → ℕ) (inx : List ℕ) (minLeaf : ℤ)
    (dInit : ℚ) (ctL0 ctR0 : List ℤ) (impurityFn : ℤ → List ℤ → ℚ) :
    ℚ × ℚ × ℤ :=
  let st := (List.range' 1 (xi.length - 1)).foldl
    (bsStep xi Y inx minLeaf dInit impurityFn)
    ⟨0, 0, -1, 0, (xi.length : ℤ), ctL0, ctR0, 0⟩
  (st.vBest, st.dBest, st.pos)

/-! Spec-side reference scan, following §4.3 step 3 of the design
document word for word: positions within `eps` of the previous value are
skipped; a position `i` splits into the first `i` and the remaining
`n - i` samples whose class histograms are recomputed from scratch;
`nLeft ≥ min_leaf ∧ nRight ≥ min_leaf` is enforced; the candidate
threshold is the midpoint; `delta = I_parent − (nL/n)·iL − (nR/n)·iR`
must strictly exceed the running best (first best wins); pivot `-1` when
nothing was retained. -/

/-- Class histogram of a sample-id list, recomputed from scratch. -/
def classHisto (K : ℕ) (Y : ℕ → ℕ) (ids : List ℕ) : List ℤ :=
  (List.range K).map (fun c => ((ids.filter (fun s => Y s = c)).length : ℤ))

/-- One candidate position of the spec-side scan. -/
def specStep (xi : List ℚ) (Y : ℕ → ℕ) (inx : List ℕ) (minLeaf : ℤ)
    (dInit : ℚ) (K : ℕ) (impurityFn : ℤ → List ℤ → ℚ)
    (t : ℚ × ℚ × ℤ) (i : ℕ) : ℚ × ℚ × ℤ :=
  if xi.getD i 0 ≤ xi.getD (i - 1) 0 + eps then t
  else if ¬ (minLeaf ≤ (i : ℤ) ∧ minLeaf ≤ ((xi.length - i : ℕ) : ℤ)) then t
  else
    let iL := impurityFn (i : ℤ) (classHisto K Y (inx.take i))
    let iR := impurityFn ((xi.length - i : ℕ) : ℤ) (classHisto K Y (inx.drop i))
    let d := dInit - ((i : ℚ) / (xi.length : ℚ)) * iL -
      (((xi.length - i : ℕ) : ℚ) / (xi.length : ℚ)) * iR
    if d > t.2.1 then ((xi.getD (i - 1) 0 + xi.getD i 0) / 2, d, (i : ℤ))
    else t

/-- Spec-side best split: returns `(vBest, dBest, pos)`. -/
def specBestSplit (xi : List ℚ) (Y : ℕ → ℕ) (inx : List ℕ) (minLeaf : ℤ)
    (dInit : ℚ) (K : ℕ) (impurityFn : ℤ → List ℤ → ℚ) : ℚ × ℚ × ℤ :=
  (List.range' 1 (xi.length - 1)).foldl
    (specStep xi Y inx minLeaf dInit K impurityFn) (0, 0, -1)

theorem classHisto_length (K : ℕ) (Y : ℕ → ℕ) (ids : List ℕ) :
    (classHisto K Y ids).length = K := by
  simp [classHisto]

theorem classHisto_nil (K : ℕ) (Y : ℕ → ℕ) :
    classHisto K Y [] = List.replicate K 0 := by
  unfold classHisto
  simp [List.map_const']

theorem incAt_getD (l : List ℤ) (i j : ℕ) (hi : i < l.length) :
    (incAt l i).getD j 0 = l.getD j 0 + (if i = j then 1 else 0) := by
  by_cases hij : i = j
  · subst hij
    rw [if_pos rfl]
    unfold incAt
    exact getD_set_self l i _ 0 hi
  · rw [if_neg hij]
    unfold incAt
    rw [getD_set_ne l i j _ 0 hij]
    ring

theorem classHisto_getD (K : ℕ) (Y : ℕ → ℕ) (ids : List ℕ) (c : ℕ)
    (hc : c < K) :
    (classHisto K Y ids).getD c 0 =
      ((ids.filter (fun s => Y s = c)).length : ℤ) := by
  unfold classHisto
  rw [List.getD_eq_getElem _ _ (by simpa using hc)]
  simp

theorem classHisto_ext (K : ℕ) (h1 h2 : List ℤ)
    (hl1 : h1.length = K) (hl2 : h2.length = K)
    (h : ∀ c < K, h1.getD c 0 = h2.getD c 0) : h1 = h2 := by
  apply List.ext_getElem
  · rw [hl1, hl2]
  · intro i hi1 hi2
    have hiK : i < K := by omega
    have := h i hiK
    rwa [List.getD_eq_getElem _ _ hi1, List.getD_eq_getElem _ _ hi2] at this

theorem classHisto_append_one (K : ℕ) (Y : ℕ → ℕ) (ids : List ℕ) (s : ℕ)
    (h : Y s < K) :
    classHisto K Y (ids ++ [s]) = incAt (classHisto K Y ids) (Y s) := by
  apply classHisto_ext K _ _ (classHisto_length ..)
    (by rw [incAt, List.length_set, classHisto_length])
  intro c hc
  rw [classHisto_getD _ _ _ _ hc,
    incAt_getD _ _ _ (by rw [classHisto_length]; exact h),
    classHisto_getD _ _ _ _ hc, List.filter_append]
  simp only [List.length_append]
  by_cases hYs : Y s = c
  · rw [if_pos hYs]
    simp [hYs]
  · rw [if_neg hYs]
    simp [hYs]

theorem classHisto_cons (K : ℕ) (Y : ℕ → ℕ) (ids : List ℕ) (s : ℕ)
    (h : Y s < K) :
    classHisto K Y (s :: ids) = incAt (classHisto K Y ids) (Y s) := by
  apply classHisto_ext K _ _ (classHisto_length ..)
    (by rw [incAt, List.length_set, classHisto_length])
  intro c hc
  rw [classHisto_getD _ _ _ _ hc,
    incAt_getD _ _ _ (by rw [classHisto_length]; exact h),
    classHisto_getD _ _ _ _ hc, List.filter_cons]
  by_cases hYs : Y s = c
  · simp [hYs]
  · simp [hYs]

theorem set_getD_self {α : Type} (l : List α) (i : ℕ) (d : α)
    (h : i < l.length) : l.set i (l.getD i d) = l := by
  apply List.ext_getElem
  · simp
  · intro n h1 h2
    by_cases hn : n = i
    · subst hn
      rw [List.getElem_set_self, List.getD_eq_getElem _ _ h2]
    · exact List.getElem_set_ne (fun hh => hn hh.symm) ..

theorem decAt_incAt (l : List ℤ) (i : ℕ) (h : i < l.length) :
    decAt (incAt l i) i = l := by
  unfold decAt incAt
  rw [getD_set_self l i _ 0 h]
  have : (l.set i (l.getD i 0 + 1)).set i (l.getD i 0 + 1 - 1) =
      (l.set i (l.getD i 0 + 1)).set i (l.getD i 0) := by ring_nf
  rw [this, List.set_set]
  exact set_getD_self l i 0 h

theorem bsMove_histo (K : ℕ) (Y : ℕ → ℕ) (inx : List ℕ)
    (hY : ∀ s ∈ inx, Y s < K) (z : ℤ) :
    ∀ (k lastCtr : ℕ), lastCtr + k ≤ inx.length →
      bsMove Y inx lastCtr (lastCtr + k)
        ((lastCtr : ℤ), classHisto K Y (inx.take lastCtr),
          z - (lastCtr : ℤ), classHisto K Y (inx.drop lastCtr)) =
      (((lastCtr + k : ℕ) : ℤ), classHisto K Y (inx.take (lastCtr + k)),
        z - ((lastCtr + k : ℕ) : ℤ), classHisto K Y (inx.drop (lastCtr + k))) := by
  intro k
  induction k with
  | zero =>
    intro lastCtr _
    unfold bsMove
    simp
  | succ k ih =>
    intro lastCtr hle
    unfold bsMove
    have hcount : lastCtr + (k + 1) - lastCtr = k + 1 := by omega
    rw [hcount, List.range'_succ]
    simp only [List.foldl_cons]
    have hlt : lastCtr < inx.length := by omega
    have hgd : inx.getD lastCtr 0 = inx[lastCtr] := List.getD_eq_getElem _ _ hlt
    have hYlt : Y inx[lastCtr] < K := hY _ (List.getElem_mem hlt)
    have htake : inx.take (lastCtr + 1) = inx.take lastCtr ++ [inx[lastCtr]] := by
      rw [List.take_succ]
      simp [List.getElem?_eq_getElem hlt]
    have hdrop : inx.drop lastCtr = inx[lastCtr] :: inx.drop (lastCtr + 1) :=
      List.drop_eq_getElem_cons hlt
    have hctL : incAt (classHisto K Y (inx.take lastCtr)) (Y (inx.getD lastCtr 0)) =
        classHisto K Y (inx.take (lastCtr + 1)) := by
      rw [hgd, htake, classHisto_append_one K Y _ _ hYlt]
    have hctR : decAt (classHisto K Y (inx.drop lastCtr)) (Y (inx.getD lastCtr 0)) =
        classHisto K Y (inx.drop (lastCtr + 1)) := by
      rw [hgd, hdrop, classHisto_cons K Y _ _ hYlt,
        decAt_incAt _ _ (by rw [classHisto_length]; exact hYlt)]
    have hrest := ih (lastCtr + 1) (by omega)
    unfold bsMove at hrest
    have hcount2 : lastCtr + 1 + k - (lastCtr + 1) = k := by omega
    rw [hcount2] at hrest
    have harith : lastCtr + 1 + k = lastCtr + (k + 1) := by omega
    rw [harith] at hrest
    simp only [hctL, hctR]
    have e1 : (lastCtr : ℤ) + 1 = ((lastCtr + 1 : ℕ) : ℤ) := by push_cast; ring
    have e2 : z - (lastCtr : ℤ) - 1 = z - ((lastCtr + 1 : ℕ) : ℤ) := by
      push_cast; ring
    rw [e1, e2]
    exact hrest

/-- The invariant tying the incremental Go scan state to the spec-side
triple: the counters are exactly the from-scratch histograms at
`lastCtr`, and the running bests agree. -/
def BSInv (xi : List ℚ) (Y : ℕ → ℕ) (inx : List ℕ) (K : ℕ)
    (st : BSState) (t : ℚ × ℚ × ℤ) : Prop :=
  st.nLeft = (st.lastCtr : ℤ) ∧
  st.nRight = (xi.length : ℤ) - (st.lastCtr : ℤ) ∧
  st.ctL = classHisto K Y (inx.take st.lastCtr) ∧
  st.ctR = classHisto K Y (inx.drop st.lastCtr) ∧
  st.vBest = t.1 ∧ st.dBest = t.2.1 ∧ st.pos = t.2.2

theorem bs_step_inv (xi : List ℚ) (Y : ℕ → ℕ) (inx : List ℕ)
    (minLeaf : ℤ) (dInit : ℚ) (K : ℕ) (imp : ℤ → List ℤ → ℚ)
    (hn : inx.length = xi.length) (hY : ∀ s ∈ inx, Y s < K)
    (st : BSState) (t : ℚ × ℚ × ℤ) (i : ℕ)
    (hinv : BSInv xi Y inx K st t)
    (hle : st.lastCtr ≤ i) (h1 : 1 ≤ i) (hi : i < xi.length) :
    BSInv xi Y inx K (bsStep xi Y inx minLeaf dInit imp st i)
        (specStep xi Y inx minLeaf dInit K imp t i) ∧
      st.lastCtr ≤ (bsStep xi Y inx minLeaf dInit imp st i).lastCtr ∧
      (bsStep xi Y inx minLeaf dInit imp st i).lastCtr ≤ i := by
  obtain ⟨hL, hR, hcl, hcr, hv, hd, hp⟩ := hinv
  by_cases heps : xi.getD i 0 ≤ xi.getD (i - 1) 0 + eps
  · rw [bsStep, specStep, if_pos heps, if_pos heps]
    exact ⟨⟨hL, hR, hcl, hcr, hv, hd, hp⟩, le_refl _, hle⟩
  · have hmove : bsMove Y inx st.lastCtr i (st.nLeft, st.ctL, st.nRight, st.ctR) =
        ((i : ℤ), classHisto K Y (inx.take i),
          (xi.length : ℤ) - (i : ℤ), classHisto K Y (inx.drop i)) := by
      rw [hL, hR, hcl, hcr]
      have hk : i = st.lastCtr + (i - st.lastCtr) := by omega
      rw [hk]
      exact bsMove_histo K Y inx hY (xi.length : ℤ) (i - st.lastCtr) st.lastCtr
        (by omega)
    have hcast : ((xi.length - i : ℕ) : ℤ) = (xi.length : ℤ) - (i : ℤ) := by
      push_cast [Nat.cast_sub (le_of_lt hi)]
      ring
    have hcastQ : ((xi.length - i : ℕ) : ℚ) = (xi.length : ℚ) - (i : ℚ) := by
      push_cast [Nat.cast_sub (le_of_lt hi)]
      ring
    rw [bsStep, specStep, if_neg heps, if_neg heps]
    simp only [hmove]
    by_cases hml : 0 < minLeaf ∧ ((i : ℤ) < minLeaf ∨
        (xi.length : ℤ) - (i : ℤ) < minLeaf)
    · have hml' : ¬ (minLeaf ≤ (i : ℤ) ∧ minLeaf ≤ ((xi.length - i : ℕ) : ℤ)) := by
        rw [hcast]
        omega
      rw [if_pos hml, if_pos hml']
      exact ⟨⟨rfl, rfl, rfl, rfl, hv, hd, hp⟩, by simpa using hle, le_refl i⟩
    · have hml' : ¬ ¬ (minLeaf ≤ (i : ℤ) ∧ minLeaf ≤ ((xi.length - i : ℕ) : ℤ)) := by
        rw [hcast]
        omega
      rw [if_neg hml, if_neg hml']
      have hiR : imp ((xi.length : ℤ) - (i : ℤ)) (classHisto K Y (inx.drop i)) =
          imp ((xi.length - i : ℕ) : ℤ) (classHisto K Y (inx.drop i)) := by
        rw [hcast]
      have hiL : imp ((i : ℤ)) (classHisto K Y (inx.take i)) =
          imp ((i : ℕ) : ℤ) (classHisto K Y (inx.take i)) := rfl
      have hdQ : (((i : ℤ) : ℚ)) = (i : ℚ) := by push_cast; ring
      have hdQ2 : (((xi.length : ℤ) - (i : ℤ) : ℤ) : ℚ) = ((xi.length - i : ℕ) : ℚ) := by
        rw [hcastQ]
        push_cast
        ring
      simp only [hiR, hdQ, hdQ2]
      rw [hd]
      by_cases hgt : dInit - ((i : ℚ) / (xi.length : ℚ)) *
            imp (i : ℤ) (classHisto K Y (inx.take i)) -
          (((xi.length - i : ℕ) : ℚ) / (xi.length : ℚ)) *
            imp ((xi.length - i : ℕ) : ℤ) (classHisto K Y (inx.drop i)) > t.2.1
      · rw [if_pos hgt, if_pos hgt]
        exact ⟨⟨rfl, rfl, rfl, rfl, rfl, rfl, rfl⟩, by simpa using hle, le_refl i⟩
      · rw [if_neg hgt, if_neg hgt]
        exact ⟨⟨rfl, rfl, rfl, rfl, hv, rfl, hp⟩, by simpa using hle, le_refl i⟩

theorem bs_fold_inv (xi : List ℚ) (Y : ℕ → ℕ) (inx : List ℕ)
    (minLeaf : ℤ) (dInit : ℚ) (K : ℕ) (imp : ℤ → List ℤ → ℚ)
    (hn : inx.length = xi.length) (hY : ∀ s ∈ inx, Y s < K) :
    ∀ (idxs : List ℕ) (st : BSState) (t : ℚ × ℚ × ℤ),
      BSInv xi Y inx K st t →
      (∀ j ∈ idxs, st.lastCtr ≤ j ∧ 1 ≤ j ∧ j < xi.length) →
      idxs.Pairwise (· ≤ ·) →
      BSInv xi Y inx K
        (idxs.foldl (bsStep xi Y inx minLeaf dInit imp) st)
        (idxs.foldl (specStep xi Y inx minLeaf dInit K imp) t) := by
  intro idxs
  induction idxs with
  | nil => intro st t hinv _ _; exact hinv
  | cons i rest ih =>
    intro st t hinv hmem hpair
    simp only [List.foldl_cons]
    obtain ⟨hle, h1, hi⟩ := hmem i (List.mem_cons_self i rest)
    obtain ⟨hinv', hge, hle'⟩ :=
      bs_step_inv xi Y inx minLeaf dInit K imp hn hY st t i hinv hle h1 hi
    apply ih _ _ hinv'
    · intro j hj
      obtain ⟨_, h1j, hij⟩ := hmem j (List.mem_cons_of_mem i hj)
      refine ⟨?_, h1j, hij⟩
      have : i ≤ j := (List.pairwise_cons.mp hpair).1 j hj
      omega
    · exact (List.pairwise_cons.mp hpair).2

theorem specStep_skip (xi : List ℚ) (Y : ℕ → ℕ) (inx : List ℕ)
    (minLeaf : ℤ) (dInit : ℚ) (K : ℕ) (imp : ℤ → List ℤ → ℚ) :
    ∀ (idxs : List ℕ) (t : ℚ × ℚ × ℤ),
      (∀ i ∈ idxs, xi.getD i 0 ≤ xi.getD (i - 1) 0 + eps ∨
        ¬ (minLeaf ≤ (i : ℤ) ∧ minLeaf ≤ ((xi.length - i : ℕ) : ℤ))) →
      idxs.foldl (specStep xi Y inx minLeaf dInit K imp) t = t := by
  intro idxs
  induction idxs with
  | nil => intro t _; rfl
  | cons i rest ih =>
    intro t hskip
    simp only [List.foldl_cons]
    have hstep : specStep xi Y inx minLeaf dInit K imp t i = t := by
      rcases hskip i (List.mem_cons_self i rest) with h | h
      · rw [specStep, if_pos h]
      · rw [specStep]
        by_cases heps : xi.getD i 0 ≤ xi.getD (i - 1) 0 + eps
        · rw [if_pos heps]
        · rw [if_neg heps, if_pos h]
    rw [hstep]
    exact ih t (fun j hj => hskip j (List.mem_cons_of_mem i hj))

/-- C6: called with a zeroed left counter and the node's class histogram
as the right counter, `bestSplit` computes exactly the spec-side scan
(`specBestSplit`): epsilon-close positions are skipped, `nLeft = i` and
`nRight = n − i` must both reach `min_leaf`, the candidate threshold is
the midpoint, `delta = I_parent − (nL/n)·iL − (nR/n)·iR` is compared
strictly against the running best so the first best wins, and when every
position is inadmissible the pivot position stays `-1`. -/
theorem c6_bestSplit_matches_spec (xi : List ℚ) (Y : ℕ → ℕ) (inx : List ℕ)
    (minLeaf : ℤ) (dInit : ℚ) (K : ℕ) (imp : ℤ → List ℤ → ℚ)
    (hn : inx.length = xi.length) (hY : ∀ s ∈ inx, Y s < K) :
    bestSplitGo xi Y inx minLeaf dInit (List.replicate K 0)
        (classHisto K Y inx) imp =
      specBestSplit xi Y inx minLeaf dInit K imp ∧
    ((∀ i, 1 ≤ i → i < xi.length →
        (xi.getD i 0 ≤ xi.getD (i - 1) 0 + eps ∨
          ¬ (minLeaf ≤ (i : ℤ) ∧ minLeaf ≤ ((xi.length - i : ℕ) : ℤ)))) →
      (bestSplitGo xi Y inx minLeaf dInit (List.replicate K 0)
        (classHisto K Y inx) imp).2.2 = -1) := by
  have hmain : bestSplitGo xi Y inx minLeaf dInit (List.replicate K 0)
      (classHisto K Y inx) imp = specBestSplit xi Y inx minLeaf dInit K imp := by
    unfold bestSplitGo specBestSplit
    have hinv0 : BSInv xi Y inx K
        ⟨0, 0, -1, 0, (xi.length : ℤ), List.replicate K 0, classHisto K Y inx, 0⟩
        (0, 0, -1) := by
      refine ⟨by simp, by simp, ?_, by simp, rfl, rfl, rfl⟩
      simp [classHisto_nil]
    have hfin := bs_fold_inv xi Y inx minLeaf dInit K imp hn hY
      (List.range' 1 (xi.length - 1)) _ _ hinv0 ?_ ?_
    · obtain ⟨_, _, _, _, hv, hd, hp⟩ := hfin
      exact Prod.ext hv (Prod.ext hd hp)
    · intro j hj
      rw [List.mem_range'_1] at hj
      refine ⟨?_, by omega, by omega⟩
      show 0 ≤ j
      omega
    · exact (List.pairwise_lt_range' 1 (xi.length - 1) 1 (by omega)).imp le_of_lt
  refine ⟨hmain, ?_⟩
  intro hnone
  rw [hmain]
  unfold specBestSplit
  rw [specStep_skip xi Y inx minLeaf dInit K imp _ _ ?_]
  intro i hi
  rw [List.mem_range'_1] at hi
  exact hnone i (by omega) (by omega)

/-- Witness for C6 on `xi = [0,1]`, two samples of two distinct classes,
gini impurity, `min_leaf = 1`. -/
theorem c6_bestSplit_matches_spec_witness :
    (bestSplitGo [0, 1] (fun s => s) [0, 1] 1 (1 / 2)
        (List.replicate 2 0) (classHisto 2 (fun s => s) [0, 1]) gini =
      specBestSplit [0, 1] (fun s => s) [0, 1] 1 (1 / 2) 2 gini) ∧
    ((∀ i, 1 ≤ i → i < ([0, 1] : List ℚ).length →
        (([0, 1] : List ℚ).getD i 0 ≤ ([0, 1] : List ℚ).getD (i - 1) 0 + eps ∨
          ¬ ((1 : ℤ) ≤ (i : ℤ) ∧ (1 : ℤ) ≤ ((([0, 1] : List ℚ).length - i : ℕ) : ℤ)))) →
      (bestSplitGo [0, 1] (fun s => s) [0, 1] 1 (1 / 2)
        (List.replicate 2 0) (classHisto 2 (fun s => s) [0, 1]) gini).2.2 = -1) :=
  c6_bestSplit_matches_spec [0, 1] (fun s => s) [0, 1] 1 (1 / 2) 2 gini rfl
    (by decide)

/-! ### C5: the in-place partition and the prediction decision rule -/

/-- `l[i], l[j] = l[j], l[i]` — the simultaneous slice swap used by the
partition loop (and, on value/index pairs, by the dual sort). -/
def swapAt {α : Type} [Inhabited α] (l : List α) (i j : ℕ) : List α :=
  (l.set i (l.getD j default)).set j (l.getD i default)

theorem swapAt_length {α : Type} [Inhabited α] (l : List α) (i j : ℕ) :
    (swapAt l i j).length = l.length := by
  simp [swapAt]

theorem swapAt_perm {α : Type} [DecidableEq α] [Inhabited α] (l : List α)
    (i j : ℕ) (hi : i < l.length) (hj : j < l.length) :
    List.Perm (swapAt l i j) l := by
  rw [List.perm_iff_count]
  intro a
  unfold swapAt
  rw [List.getD_eq_getElem _ _ hj, List.getD_eq_getElem _ _ hi]
  rw [List.count_set _ _ _ _ (by simpa using hj),
    List.count_set _ _ _ _ hi]
  have hjl : j < (l.set i l[j]).length := by simpa using hj
  have hset : (l.set i l[j])[j] = l[j] := by
    rw [List.getElem_set]
    by_cases h : i = j <;> simp [h]
  rw [hset]
  by_cases h1 : l[i] = a
  · have hc1 : 1 ≤ l.count a := List.count_pos_iff.mpr (h1 ▸ List.getElem_mem hi)
    by_cases h2 : l[j] = a <;> simp [h1, h2] <;> omega
  · by_cases h2 : l[j] = a <;> simp [h1, h2] <;> omega

theorem bsMove_fst (Y : ℕ → ℕ) (inx : List ℕ) :
    ∀ (k lastCtr : ℕ) (st : ℤ × List ℤ × ℤ × List ℤ),
      (bsMove Y inx lastCtr (lastCtr + k) st).1 = st.1 + (k : ℤ) := by
  intro k
  induction k with
  | zero => intro lastCtr st; unfold bsMove; simp
  | succ k ih =>
    intro lastCtr st
    unfold bsMove
    have hcount : lastCtr + (k + 1) - lastCtr = k + 1 := by omega
    rw [hcount, List.range'_succ]
    simp only [List.foldl_cons]
    have := ih (lastCtr + 1)
      (st.1 + 1, incAt st.2.1 (Y (inx.getD lastCtr 0)),
        st.2.2.1 - 1, decAt st.2.2.2 (Y (inx.getD lastCtr 0)))
    unfold bsMove at this
    have hcount2 : lastCtr + 1 + k - (lastCtr + 1) = k := by omega
    rw [hcount2] at this
    rw [this]
    push_cast
    ring

/-- Invariant for the position characterisation of the scan. -/
def PosChar (xi : List ℚ) (st : BSState) : Prop :=
  st.nLeft = (st.lastCtr : ℤ) ∧
  (st.pos = -1 ∨ ∃ i, 1 ≤ i ∧ i < xi.length ∧ st.pos = (i : ℤ) ∧
    xi.getD (i - 1) 0 + eps < xi.getD i 0 ∧
    st.vBest = (xi.getD (i - 1) 0 + xi.getD i 0) / 2)

theorem bs_step_posChar (xi : List ℚ) (Y : ℕ → ℕ) (inx : List ℕ)
    (minLeaf : ℤ) (dInit : ℚ) (imp : ℤ → List ℤ → ℚ)
    (st : BSState) (i : ℕ) (hchar : PosChar xi st)
    (hle : st.lastCtr ≤ i) (h1 : 1 ≤ i) (hi : i < xi.length) :
    PosChar xi (bsStep xi Y inx minLeaf dInit imp st i) ∧
      st.lastCtr ≤ (bsStep xi Y inx minLeaf dInit imp st i).lastCtr ∧
      (bsStep xi Y inx minLeaf dInit imp st i).lastCtr ≤ i := by
  obtain ⟨hL, hpos⟩ := hchar
  by_cases heps : xi.getD i 0 ≤ xi.getD (i - 1) 0 + eps
  · rw [bsStep, if_pos heps]
    exact ⟨⟨hL, hpos⟩, le_refl _, hle⟩
  · rw [bsStep, if_neg heps]
    have hfst : (bsMove Y inx st.lastCtr i (st.nLeft, st.ctL, st.nRight, st.ctR)).1 =
        (i : ℤ) := by
      have hk : i = st.lastCtr + (i - st.lastCtr) := by omega
      rw [hk, bsMove_fst, hL]
      omega
    by_cases hml : 0 < minLeaf ∧
        ((bsMove Y inx st.lastCtr i (st.nLeft, st.ctL, st.nRight, st.ctR)).1 < minLeaf ∨
          (bsMove Y inx st.lastCtr i (st.nLeft, st.ctL, st.nRight, st.ctR)).2.2.1 < minLeaf)
    · rw [if_pos hml]
      exact ⟨⟨hfst, hpos⟩, by simpa using hle, le_refl i⟩
    · rw [if_neg hml]
      by_cases hgt : dInit -
            (((bsMove Y inx st.lastCtr i (st.nLeft, st.ctL, st.nRight, st.ctR)).1 : ℚ) /
              (xi.length : ℚ)) *
              imp (bsMove Y inx st.lastCtr i (st.nLeft, st.ctL, st.nRight, st.ctR)).1
                (bsMove Y inx st.lastCtr i (st.nLeft, st.ctL, st.nRight, st.ctR)).2.1 -
            (((bsMove Y inx st.lastCtr i (st.nLeft, st.ctL, st.nRight, st.ctR)).2.2.1 : ℚ) /
              (xi.length : ℚ)) *
              imp (bsMove Y inx st.lastCtr i (st.nLeft, st.ctL, st.nRight, st.ctR)).2.2.1
                (bsMove Y inx st.lastCtr i (st.nLeft, st.ctL, st.nRight, st.ctR)).2.2.2 >
          st.dBest
      · rw [if_pos hgt]
        refine ⟨⟨hfst, Or.inr ⟨i, h1, hi, hfst, by linarith, rfl⟩⟩,
          by simpa using hle, le_refl i⟩
      · rw [if_neg hgt]
        exact ⟨⟨hfst, hpos⟩, by simpa using hle, le_refl i⟩

theorem bestSplitGo_posChar (xi : List ℚ) (Y : ℕ → ℕ) (inx : List ℕ)
    (minLeaf : ℤ) (dInit : ℚ) (ctL0 ctR0 : List ℤ) (imp : ℤ → List ℤ → ℚ) :
    (bestSplitGo xi Y inx minLeaf dInit ctL0 ctR0 imp).2.2 = -1 ∨
    ∃ i, 1 ≤ i ∧ i < xi.length ∧
      (bestSplitGo xi Y inx minLeaf dInit ctL0 ctR0 imp).2.2 = (i : ℤ) ∧
      xi.getD (i - 1) 0 + eps < xi.getD i 0 ∧
      (bestSplitGo xi Y inx minLeaf dInit ctL0 ctR0 imp).1 =
        (xi.getD (i - 1) 0 + xi.getD i 0) / 2 := by
  have key : ∀ (idxs : List ℕ) (st : BSState), PosChar xi st →
      (∀ j ∈ idxs, st.lastCtr ≤ j ∧ 1 ≤ j ∧ j < xi.length) →
      idxs.Pairwise (· ≤ ·) →
      PosChar xi (idxs.foldl (bsStep xi Y inx minLeaf dInit imp) st) := by
    intro idxs
    induction idxs with
    | nil => intro st h _ _; exact h
    | cons i rest ih =>
      intro st hchar hmem hpair
      simp only [List.foldl_cons]
      obtain ⟨hle, h1, hi⟩ := hmem i (List.mem_cons_self i rest)
      obtain ⟨hchar', hge, hle'⟩ :=
        bs_step_posChar xi Y inx minLeaf dInit imp st i hchar hle h1 hi
      apply ih _ hchar'
      · intro j hj
        obtain ⟨_, h1j, hij⟩ := hmem j (List.mem_cons_of_mem i hj)
        refine ⟨?_, h1j, hij⟩
        have : i ≤ j := (List.pairwise_cons.mp hpair).1 j hj
        omega
      · exact (List.pairwise_cons.mp hpair).2
  have h := key (List.range' 1 (xi.length - 1))
    ⟨0, 0, -1, 0, (xi.length : ℤ), ctL0, ctR0, 0⟩
    ⟨by simp, Or.inl rfl⟩
    (by intro j hj
        rw [List.mem_range'_1] at hj
        refine ⟨?_, by omega, by omega⟩
        show 0 ≤ j
        omega)
    ((List.pairwise_lt_range' 1 (xi.length - 1) 1 (by omega)).imp le_of_lt)
  obtain ⟨_, hpos⟩ := h
  unfold bestSplitGo
  exact hpos

/-- The in-place partition of `Classifier.fit`:
`i := 0; j := len(w.inx); for i < j { if X[w.inx[i]][xBest] < vBest { i++ }
else { j--; swap } }`.  `fuel ≥ j - i` makes it total. -/
def partLoop (xv : ℕ → ℚ) (v : ℚ) : ℕ → List ℕ → ℕ → ℕ → List ℕ
  | 0, l, _, _ => l
  | fuel + 1, l, i, j =>
    if i < j then
      if xv (l.getD i 0) < v then partLoop xv v fuel l (i + 1) j
      else partLoop xv v fuel (swapAt l i (j - 1)) i (j - 1)
    else l

def partitionGo (xv : ℕ → ℚ) (v : ℚ) (l : List ℕ) : List ℕ :=
  partLoop xv v l.length l 0 l.length

theorem swapAt_getD_ne {α : Type} [Inhabited α] (l : List α) (i j k : ℕ)
    (d : α) (hki : k ≠ i) (hkj : k ≠ j) :
    (swapAt l i j).getD k d = l.getD k d := by
  unfold swapAt
  rw [getD_set_ne _ j k _ _ (fun h => hkj h.symm),
    getD_set_ne _ i k _ _ (fun h => hki h.symm)]

theorem swapAt_getD_right {α : Type} [Inhabited α] (l : List α) (i j : ℕ)
    (d : α) (hj : j < l.length) :
    (swapAt l i j).getD j d = l.getD i default := by
  unfold swapAt
  exact getD_set_self _ j _ _ (by simpa using hj)

theorem partLoop_spec (xv : ℕ → ℚ) (v : ℚ) :
    ∀ (fuel : ℕ) (l : List ℕ) (i j : ℕ),
      i ≤ j → j ≤ l.length → j - i ≤ fuel →
      (∀ k < i, xv (l.getD k 0) < v) →
      (∀ k, j ≤ k → k < l.length → ¬ xv (l.getD k 0) < v) →
      List.Perm (partLoop xv v fuel l i j) l ∧
      (partLoop xv v fuel l i j).length = l.length ∧
      ∃ m, i ≤ m ∧ m ≤ j ∧
        (∀ k < m, xv ((partLoop xv v fuel l i j).getD k 0) < v) ∧
        (∀ k, m ≤ k → k < l.length →
          ¬ xv ((partLoop xv v fuel l i j).getD k 0) < v) := by
  intro fuel
  induction fuel with
  | zero =>
    intro l i j hij hjl hfuel hleft hright
    have hieq : i = j := by omega
    subst hieq
    exact ⟨List.Perm.refl l, rfl, i, le_refl i, le_refl i, hleft, hright⟩
  | succ fuel ih =>
    intro l i j hij hjl hfuel hleft hright
    unfold partLoop
    by_cases hij2 : i < j
    · rw [if_pos hij2]
      by_cases hlt : xv (l.getD i 0) < v
      · rw [if_pos hlt]
        have hres := ih l (i + 1) j (by omega) hjl (by omega) ?_ hright
        · obtain ⟨hp, hl, m, hm1, hm2, hml, hmr⟩ := hres
          exact ⟨hp, hl, m, by omega, hm2, hml, hmr⟩
        · intro k hk
          by_cases hk2 : k = i
          · rwa [hk2]
          · exact hleft k (by omega)
      · rw [if_neg hlt]
        have hj1 : j - 1 < l.length := by omega
        have hil : i < l.length := by omega
        have hperm : List.Perm (swapAt l i (j - 1)) l :=
          swapAt_perm l i (j - 1) hil hj1
        have hlen : (swapAt l i (j - 1)).length = l.length := swapAt_length ..
        have hres := ih (swapAt l i (j - 1)) i (j - 1) (by omega) (by omega)
          (by omega) ?_ ?_
        · obtain ⟨hp, hl, m, hm1, hm2, hml, hmr⟩ := hres
          exact ⟨hp.trans hperm, by rw [hl, hlen], m, hm1, by omega, hml,
            fun k hk1 hk2 => hmr k hk1 (by omega)⟩
        · intro k hk
          rw [swapAt_getD_ne l i (j - 1) k 0 (by omega) (by omega)]
          exact hleft k hk
        · intro k hk1 hk2
          rw [hlen] at hk2
          by_cases hkj : k = j - 1
          · subst hkj
            rw [swapAt_getD_right l i (j - 1) 0 hj1]
            exact hlt
          · rw [swapAt_getD_ne l i (j - 1) k 0 (by omega) hkj]
            exact hright k (by omega) hk2
    · rw [if_neg hij2]
      have hieq : i = j := by omega
      subst hieq
      exact ⟨List.Perm.refl l, rfl, i, le_refl i, le_refl i, hleft, hright⟩

theorem countP_of_split {α : Type} [Inhabited α] (p : α → Bool) :
    ∀ (r : List α) (m : ℕ), m ≤ r.length →
      (∀ k < m, p (r.getD k default) = true) →
      (∀ k, m ≤ k → k < r.length → p (r.getD k default) = false) →
      r.countP p = m := by
  intro r
  induction r with
  | nil => intro m hm _ _; simp at hm ⊢; omega
  | cons a r ih =>
    intro m hm h1 h2
    cases m with
    | zero =>
      rw [List.countP_eq_zero.mpr]
      intro x hx
      rw [List.mem_iff_getElem] at hx
      obtain ⟨k, hk, hval⟩ := hx
      have := h2 k (by omega) hk
      rw [List.getD_eq_getElem _ _ hk, hval] at this
      simp [this]
    | succ m =>
      rw [List.countP_cons]
      have ha : p a = true := by
        have := h1 0 (by omega)
        simpa using this
      rw [ih m (by simpa using hm) ?_ ?_]
      · simp [ha]
      · intro k hk
        have := h1 (k + 1) (by omega)
        simpa using this
      · intro k hk1 hk2
        have := h2 (k + 1) (by omega) (by simpa using hk2)
        simpa using this

/-- C5: when `bestSplit` (run over the sorted value list `xi` of feature
`f` on this node's samples) retains a split `(v, d, pos)` with `pos ≥ 1`,
the in-place partition of the node's sample indices (which moves samples
with `X[s][f] < v` to the front) produces exactly `pos` samples on the
left, every left-slice sample fails the prediction test
`x[f] > threshold` (so prediction sends it left), and every right-slice
sample satisfies it (so prediction sends it right). -/
theorem c5_partition_routing (X : ℕ → ℕ → ℚ) (f : ℕ) (v d : ℚ) (pos : ℤ)
    (xi : List ℚ) (Y : ℕ → ℕ) (inxS inx : List ℕ) (minLeaf : ℤ) (dInit : ℚ)
    (ctL0 ctR0 : List ℤ) (imp : ℤ → List ℤ → ℚ)
    (hsorted : List.Pairwise (· ≤ ·) xi)
    (hperm : List.Perm (inx.map (fun s => X s f)) xi)
    (hbs : bestSplitGo xi Y inxS minLeaf dInit ctL0 ctR0 imp = (v, d, pos))
    (hpos : 1 ≤ pos) :
    List.Perm (partitionGo (fun s => X s f) v inx) inx ∧
    ((partitionGo (fun s => X s f) v inx).take pos.toNat).length = pos.toNat ∧
    (∀ s ∈ (partitionGo (fun s => X s f) v inx).take pos.toNat,
      X s f < v ∧ ¬ (X s f > v)) ∧
    (∀ s ∈ (partitionGo (fun s => X s f) v inx).drop pos.toNat, X s f > v) := by
  -- recover the structure of the retained split
  obtain hchar := bestSplitGo_posChar xi Y inxS minLeaf dInit ctL0 ctR0 imp
  rw [hbs] at hchar
  rcases hchar with hneg | ⟨i, h1i, hin, hposi, hgap, hvmid⟩
  · exfalso
    simp only at hneg
    omega
  simp only at hposi hvmid
  -- the threshold is strictly between the two adjacent sorted values
  have hepspos : (0 : ℚ) < eps := by norm_num [eps]
  have hab : xi.getD (i - 1) 0 < xi.getD i 0 := by linarith
  have hav : xi.getD (i - 1) 0 < v := by rw [hvmid]; linarith
  have hvb : v < xi.getD i 0 := by rw [hvmid]; linarith
  have hget : ∀ p q, p ≤ q → q < xi.length → xi.getD p 0 ≤ xi.getD q 0 := by
    intro p q hpq hq
    rcases Nat.lt_or_ge p q with h | h
    · rw [List.getD_eq_getElem _ _ (by omega), List.getD_eq_getElem _ _ hq]
      exact List.pairwise_iff_getElem.mp hsorted p q (by omega) hq h
    · have : p = q := by omega
      rw [this]
  have hxlt : ∀ k < i, xi.getD k 0 < v := by
    intro k hk
    have := hget k (i - 1) (by omega) (by omega)
    linarith
  have hxgt : ∀ k, i ≤ k → k < xi.length → v < xi.getD k 0 := by
    intro k hk1 hk2
    have := hget i k hk1 hk2
    linarith
  have hdich : ∀ s ∈ inx, X s f < v ∨ v < X s f := by
    intro s hs
    have hmemx : X s f ∈ xi := by
      rw [← hperm.mem_iff]
      exact List.mem_map_of_mem _ hs
    rw [List.mem_iff_getElem] at hmemx
    obtain ⟨k, hk, hval⟩ := hmemx
    rcases Nat.lt_or_ge k i with h | h
    · left
      have := hxlt k h
      rwa [List.getD_eq_getElem _ _ hk, hval] at this
    · right
      have := hxgt k h hk
      rwa [List.getD_eq_getElem _ _ hk, hval] at this
  -- counting: exactly i values are < v
  have hcountxi : xi.countP (fun q => decide (q < v)) = i := by
    apply countP_of_split _ xi i (by omega)
    · intro k hk
      simpa using hxlt k hk
    · intro k hk1 hk2
      have := hxgt k hk1 hk2
      simp only [decide_eq_false_iff_not]
      intro hcon
      have : (default : ℚ) = 0 := rfl
      rw [this] at hcon
      linarith
  have hcountinx : inx.countP (fun s => decide (X s f < v)) = i := by
    have h1 : (inx.map (fun s => X s f)).countP (fun q => decide (q < v)) =
        xi.countP (fun q => decide (q < v)) := hperm.countP_eq _
    rw [List.countP_map, hcountxi] at h1
    simpa [Function.comp] using h1
  -- run the partition
  have hlenxi : inx.length = xi.length := by
    have := hperm.length_eq
    simpa using this
  obtain ⟨hp, hl, m, hm0, hmlen, hml, hmr⟩ :=
    partLoop_spec (fun s => X s f) v inx.length inx 0 inx.length
      (by omega) (le_refl _) (by omega)
      (by intro k hk; omega)
      (by intro k hk1 hk2; omega)
  rw [show partLoop (fun s => X s f) v inx.length inx 0 inx.length =
    partitionGo (fun s => X s f) v inx from rfl] at hp hl hml hmr
  have hcountr : (partitionGo (fun s => X s f) v inx).countP
      (fun s => decide (X s f < v)) = m := by
    apply countP_of_split _ _ m (by rw [hl]; omega)
    · intro k hk
      simpa using hml k hk
    · intro k hk1 hk2
      rw [hl] at hk2
      simpa using hmr k hk1 hk2
  have hmi : m = i := by
    have := hp.countP_eq (fun s => decide (X s f < v))
    rw [hcountr, hcountinx] at this
    exact this
  have hposNat : pos.toNat = i := by omega
  refine ⟨hp, ?_, ?_, ?_⟩
  · rw [List.length_take, hl, hposNat]
    omega
  · intro s hs
    rw [List.mem_take_iff_getElem] at hs
    obtain ⟨k, hk, hval⟩ := hs
    have hki : k < i := by
      rw [hposNat] at hk
      omega
    have := hml k (by omega)
    rw [List.getD_eq_getElem _ _ (by omega), hval] at this
    exact ⟨this, by linarith⟩
  · intro s hs
    rw [List.mem_drop_iff_getElem] at hs
    obtain ⟨k, hk, hval⟩ := hs
    have hnotlt := hmr (pos.toNat + k) (by omega) (by rw [hl] at hk; omega)
    rw [List.getD_eq_getElem _ _ (by omega), hval] at hnotlt
    have hsmem : s ∈ inx := hp.mem_iff.mp (by
      rw [← hval]
      exact List.getElem_mem _)
    rcases hdich s hsmem with h | h
    · exact absurd h hnotlt
    · exact h

/-- Evaluation of `bestSplit` on the two-sample node used by the C5 and
C6 witnesses: values `[0,1]`, classes `0` and `1`, gini, `min_leaf = 1`. -/
theorem bestSplitGo_two_sample :
    bestSplitGo [0, 1] (fun s => s) [0, 1] 1 (1 / 2) [0, 0] [1, 1] gini =
      (1 / 2, 1 / 2, 1) := by
  unfold bestSplitGo bsStep bsMove
  norm_num [List.range', incAt, decAt, gini, eps]

/-- Witness for C5 on a two-sample node: feature values `0` and `1`,
threshold `1/2`, pivot 1. -/
theorem c5_partition_routing_witness :
    List.Perm (partitionGo (fun s => ((s : ℚ))) (1 / 2) [0, 1]) [0, 1] ∧
    ((partitionGo (fun s => ((s : ℚ))) (1 / 2) [0, 1]).take (1 : ℤ).toNat).length =
      (1 : ℤ).toNat ∧
    (∀ s ∈ (partitionGo (fun s => ((s : ℚ))) (1 / 2) [0, 1]).take (1 : ℤ).toNat,
      ((s : ℚ)) < 1 / 2 ∧ ¬ (((s : ℚ)) > 1 / 2)) ∧
    (∀ s ∈ (partitionGo (fun s => ((s : ℚ))) (1 / 2) [0, 1]).drop (1 : ℤ).toNat,
      ((s : ℚ)) > 1 / 2) :=
  c5_partition_routing (fun s _ => (s : ℚ)) 0 (1 / 2) (1 / 2) 1 [0, 1]
    (fun s => s) [0, 1] [0, 1] 1 (1 / 2) [0, 0] [1, 1] gini
    (by norm_num [List.pairwise_cons])
    (by
      show (List.map (fun s => ((s : ℕ) : ℚ)) [0, 1]).Perm ([0, 1] : List ℚ)
      rw [show List.map (fun s => ((s : ℕ) : ℚ)) [0, 1] = ([0, 1] : List ℚ)
        from by norm_num])
    bestSplitGo_two_sample
    (by norm_num)

/-! ### The dual-key sort (`tree/sort.go`, C7)

The two parallel slices `(x []float64, inx []int)` are embedded zipped as
one `List (ℚ × ℕ)`; `swap` swaps a pair, which is exactly the Go `swap`
that exchanges corresponding elements of both slices.  Loops carry
explicit fuel; every call site supplies fuel at least as large as the
loop's iteration bound, so the embedded functions agree with the Go
code. -/

/-- The `for j := i; j > a && x[j] < x[j-1]; j--` loop of `insertionSort`. -/
def insInner (a : ℕ) : List (ℚ × ℕ) → ℕ → List (ℚ × ℕ)
  | l, 0 => l
  | l, j + 1 =>
    if a ≤ j ∧ (l.getD (j + 1) default).1 < (l.getD j default).1 then
      insInner a (swapAt l (j + 1) j) j
    else l

def insertionSortGo (l : List (ℚ × ℕ)) (a b : ℕ) : List (ℚ × ℕ) :=
  (List.range' (a + 1) (b - (a + 1))).foldl (fun l i => insInner a l i) l

/-- The body of `siftDown`; fuel `hi` dominates the number of iterations
(the root at least doubles each round). -/
def siftDownGo (hi first : ℕ) : ℕ → List (ℚ × ℕ) → ℕ → List (ℚ × ℕ)
  | 0, l, _ => l
  | fuel + 1, l, root =>
    if 2 * root + 1 ≥ hi then l
    else
      let child :=
        if 2 * root + 2 < hi ∧
            (l.getD (first + (2 * root + 1)) default).1 <
              (l.getD (first + (2 * root + 2)) default).1
        then 2 * root + 2 else 2 * root + 1
      if ¬ ((l.getD (first + root) default).1 < (l.getD (first + child) default).1)
      then l
      else siftDownGo hi first fuel (swapAt l (first + root) (first + child)) child

def siftDown (l : List (ℚ × ℕ)) (lo hi first : ℕ) : List (ℚ × ℕ) :=
  siftDownGo hi first hi l lo

def heapSortGo (l : List (ℚ × ℕ)) (a b : ℕ) : List (ℚ × ℕ) :=
  let first := a
  let hi := b - a
  let l1 := (List.range ((hi - 1) / 2 + 1)).reverse.foldl
    (fun l i => siftDown l i hi first) l
  (List.range hi).reverse.foldl
    (fun l i => siftDown (swapAt l first (first + i)) 0 i first) l1

/-- `medianOfThree` moves the median of `x[a], x[b], x[c]` into `x[a]`. -/
def medianOfThree (l : List (ℚ × ℕ)) (a b c : ℕ) : List (ℚ × ℕ) :=
  let l1 := if (l.getD a default).1 < (l.getD b default).1 then swapAt l a b else l
  let l2 := if (l1.getD c default).1 < (l1.getD a default).1 then swapAt l1 c a else l1
  if (l2.getD a default).1 < (l2.getD b default).1 then swapAt l2 a b else l2

def swapRange (l : List (ℚ × ℕ)) (a b n : ℕ) : List (ℚ × ℕ) :=
  (List.range n).foldl (fun l i => swapAt l (a + i) (b + i)) l

/-- First inner loop of `doPivot` (advancing `b`, growing the left
equal-section at `a`). -/
def dpLoopB (pivot c : ℕ) : ℕ → List (ℚ × ℕ) → ℕ → ℕ → List (ℚ × ℕ) × ℕ × ℕ
  | 0, l, a, b => (l, a, b)
  | fuel + 1, l, a, b =>
    if b < c then
      if (l.getD b default).1 < (l.getD pivot default).1 then
        dpLoopB pivot c fuel l a (b + 1)
      else if ¬ ((l.getD pivot default).1 < (l.getD b default).1) then
        dpLoopB pivot c fuel (swapAt l a b) (a + 1) (b + 1)
      else (l, a, b)
    else (l, a, b)

/-- Second inner loop of `doPivot` (retreating `c`, growing the right
equal-section at `d`). -/
def dpLoopC (pivot b : ℕ) : ℕ → List (ℚ × ℕ) → ℕ → ℕ → List (ℚ × ℕ) × ℕ × ℕ
  | 0, l, c, d => (l, c, d)
  | fuel + 1, l, c, d =>
    if b < c then
      if (l.getD pivot default).1 < (l.getD (c - 1) default).1 then
        dpLoopC pivot b fuel l (c - 1) d
      else if ¬ ((l.getD (c - 1) default).1 < (l.getD pivot default).1) then
        dpLoopC pivot b fuel (swapAt l (c - 1) (d - 1)) (c - 1) (d - 1)
      else (l, c, d)
    else (l, c, d)

/-- The outer `for {}` of `doPivot`. -/
def dpOuter (pivot : ℕ) : ℕ → List (ℚ × ℕ) → ℕ → ℕ → ℕ → ℕ →
    List (ℚ × ℕ) × ℕ × ℕ × ℕ × ℕ
  | 0, l, a, b, c, d => (l, a, b, c, d)
  | fuel + 1, l, a, b, c, d =>
    let r1 := dpLoopB pivot c (c - b) l a b
    let r2 := dpLoopC pivot r1.2.2 (c - r1.2.2) r1.1 c d
    if r1.2.2 ≥ r2.2.1 then (r2.1, r1.2.1, r1.2.2, r2.2.1, r2.2.2)
    else dpOuter pivot fuel (swapAt r2.1 r1.2.2 (r2.2.1 - 1))
      r1.2.1 (r1.2.2 + 1) (r2.2.1 - 1) r2.2.2

def doPivot (l : List (ℚ × ℕ)) (lo hi : ℕ) : List (ℚ × ℕ) × ℕ × ℕ :=
  let m := lo + (hi - lo) / 2
  let l0 :=
    if hi - lo > 40 then
      let s := (hi - lo) / 8
      let l1 := medianOfThree l lo (lo + s) (lo + 2 * s)
      let l2 := medianOfThree l1 m (m - s) (m + s)
      medianOfThree l2 (hi - 1) (hi - 1 - s) (hi - 1 - 2 * s)
    else l
  let l3 := medianOfThree l0 lo m (hi - 1)
  let r := dpOuter lo (hi - lo) l3 (lo + 1) (lo + 1) hi hi
  let a := r.2.1
  let b := r.2.2.1
  let c := r.2.2.2.1
  let d := r.2.2.2.2
  let n1 := min (b - a) (a - lo)
  let l4 := swapRange r.1 lo (b - n1) n1
  let n2 := min (hi - d) (d - c)
  let l5 := swapRange l4 c (hi - n2) n2
  (l5, lo + b - a, hi - (d - c))

def quickSortGo : ℕ → List (ℚ × ℕ) → ℕ → ℕ → ℕ → List (ℚ × ℕ)
  | 0, l, _, _, _ => l
  | fuel + 1, l, a, b, maxDepth =>
    if b - a > 7 then
      if maxDepth = 0 then heapSortGo l a b
      else
        let r := doPivot l a b
        if r.2.1 - a < b - r.2.2 then
          quickSortGo fuel (quickSortGo fuel r.1 a r.2.1 (maxDepth - 1))
            r.2.2 b (maxDepth - 1)
        else
          quickSortGo fuel (quickSortGo fuel r.1 r.2.2 b (maxDepth - 1))
            a r.2.1 (maxDepth - 1)
    else if b - a > 1 then insertionSortGo l a b
    else l

/-- `for i := n; i > 0; i >>= 1 { maxDepth++ }` -/
def bitCount : ℕ → ℕ
  | 0 => 0
  | n + 1 => bitCount ((n + 1) / 2) + 1
decreasing_by exact Nat.div_lt_self (Nat.succ_pos n) (by omega)

/-- `bSort` on the zipped pair list. -/
def bSortP (l : List (ℚ × ℕ)) : List (ℚ × ℕ) :=
  quickSortGo (l.length + 1) l 0 l.length (2 * bitCount l.length)

/-- `bSort(x, inx)`: sorts both slices jointly by the keys in `x`. -/
def bSort (x : List ℚ) (inx : List ℕ) : List ℚ × List ℕ :=
  ((bSortP (x.zip inx)).map Prod.fst, (bSortP (x.zip inx)).map Prod.snd)

/-! ### The tree builder (`tree.Classifier.fit`, C3/C4)

The global `rand.Intn` is modelled by a stream of naturals; each call
consumes one element and reduces it modulo its argument.  The explicit
work stack pushes the left child then the right child, so the right
subtree is processed first; the recursion below threads the features
array and the random stream in that order. -/

def randIntn (r : List ℕ) (n : ℕ) : ℕ × List ℕ :=
  match r with
  | [] => (0, [])
  | a :: rest => (a % n, rest)

/-- `n.ClassCounts = make([]int, len(classes)); for _, inx := range w.inx
{ n.ClassCounts[Y[inx]]++ }` -/
def classCounts (K : ℕ) (Y : ℕ → ℕ) (inx : List ℕ) : List ℤ :=
  inx.foldl (fun cc s => incAt cc (Y s)) (List.replicate K 0)

/-- `c := make([]bool, t.nFeatures); copy(c, w.constantFeatures)` -/
def extendMask (cf : List Bool) (n : ℕ) : List Bool :=
  (List.range n).map (fun i => cf.getD i false)

/-- State of the per-node feature-sampling loop.  `nExamined` is a ghost
counter (it instruments how many non-constant features reached the
best-threshold scan; nothing in the transition reads it). -/
structure SLState : Type where
  j : ℕ
  visited : ℕ
  nConst : ℕ
  nExamined : ℕ
  dBest : ℚ
  vBest : ℚ
  xBest : ℕ
  iBest : ℤ
  features : List ℕ
  cf : List Bool
  inx : List ℕ
  rand : List ℕ

/-- The feature-sampling loop of `fit` (lines 166-220): partial
Fisher–Yates over `features`, skipping features marked constant
(`nDrawnConstant++`), detecting data-constant features
(`xt[len-1] ≤ xt[0]+1e-7`), and otherwise scanning via `bestSplit`,
while `j > 0 && (visited < maxFeatures || visited <= nDrawnConstant)`. -/
def sampleLoop (X : ℕ → ℕ → ℚ) (Y : ℕ → ℕ) (K nFeatures : ℕ)
    (maxFeatures minLeaf : ℤ) (imp : ℤ → List ℤ → ℚ)
    (nodeCounts : List ℤ) (nodeImpurity : ℚ) : ℕ → SLState → SLState
  | 0, st => st
  | fuel + 1, st =>
    if 0 < st.j ∧ ((st.visited : ℤ) < maxFeatures ∨ st.visited ≤ st.nConst) then
      let r := randIntn st.rand (st.j + 1)
      let currentFeature := st.features.getD r.1 0
      let features1 := swapAt st.features r.1 st.j
      if 0 < st.cf.length ∧ st.cf.getD currentFeature false then
        sampleLoop X Y K nFeatures maxFeatures minLeaf imp nodeCounts nodeImpurity
          fuel { st with j := st.j - 1, visited := st.visited + 1,
                         nConst := st.nConst + 1, features := features1,
                         rand := r.2 }
      else
        let xt := st.inx.map (fun s => X s currentFeature)
        let sorted := bSort xt st.inx
        if sorted.1.getD (sorted.1.length - 1) 0 ≤ sorted.1.getD 0 0 + eps then
          sampleLoop X Y K nFeatures maxFeatures minLeaf imp nodeCounts nodeImpurity
            fuel { st with j := st.j - 1, visited := st.visited + 1,
                           nConst := st.nConst + 1, features := features1,
                           cf := (extendMask st.cf nFeatures).set currentFeature true,
                           inx := sorted.2, rand := r.2 }
        else
          let bs := bestSplitGo sorted.1 Y sorted.2 minLeaf nodeImpurity
            (List.replicate K 0) nodeCounts imp
          if bs.2.1 > st.dBest then
            sampleLoop X Y K nFeatures maxFeatures minLeaf imp nodeCounts nodeImpurity
              fuel { st with j := st.j - 1, visited := st.visited + 1,
                             nExamined := st.nExamined + 1,
                             dBest := bs.2.1, vBest := bs.1,
                             xBest := currentFeature, iBest := bs.2.2,
                             features := features1, inx := sorted.2, rand := r.2 }
          else
            sampleLoop X Y K nFeatures maxFeatures minLeaf imp nodeCounts nodeImpurity
              fuel { st with j := st.j - 1, visited := st.visited + 1,
                             nExamined := st.nExamined + 1,
                             features := features1, inx := sorted.2, rand := r.2 }
    else st

def FNode.height : FNode → ℕ
  | FNode.leaf _ _ _ => 0
  | FNode.node _ _ _ _ _ l r => 1 + max l.height r.height

def FNode.isLeafNode : FNode → Bool
  | FNode.leaf _ _ _ => true
  | FNode.node _ _ _ _ _ _ _ => false

/-- One work item of `fit`'s stack loop, as a recursion: compute class
counts and impurity, test the leaf conditions, otherwise sample features,
partition in place at `iBest`, and process the right child before the
left (matching the LIFO stack), threading the features array and the
random stream.  Returns `(node, features, rand)`. -/
def fitGo (X : ℕ → ℕ → ℚ) (Y : ℕ → ℕ) (K nFeatures : ℕ)
    (minSplit minLeaf maxDepth maxFeatures : ℤ) (imp : ℤ → List ℤ → ℚ) :
    ℕ → List ℕ → List Bool → ℕ → List ℕ → List ℕ → FNode × List ℕ × List ℕ
  | 0, inx, _, _, features, rand =>
    (FNode.leaf (classCounts K Y inx)
      (imp (inx.length : ℤ) (classCounts K Y inx)) inx.length, features, rand)
  | fuel + 1, inx, cf, depth, features, rand =>
    let counts := classCounts K Y inx
    let impurity := imp (inx.length : ℤ) counts
    if (inx.length : ℤ) < minSplit ∨ (inx.length : ℤ) < 2 * minLeaf ∨
        (0 < maxDepth ∧ (depth : ℤ) = maxDepth) ∨ impurity ≤ eps then
      (FNode.leaf counts impurity inx.length, features, rand)
    else
      let st := sampleLoop X Y K nFeatures maxFeatures minLeaf imp counts impurity
        nFeatures ⟨nFeatures - 1, 0, 0, 0, 0, 0, 0, -1, features, cf, inx, rand⟩
      if 0 < st.iBest then
        let r := partitionGo (fun s => X s st.xBest) st.vBest st.inx
        let rres := fitGo X Y K nFeatures minSplit minLeaf maxDepth maxFeatures imp
          fuel (r.drop st.iBest.toNat) st.cf (depth + 1) st.features st.rand
        let lres := fitGo X Y K nFeatures minSplit minLeaf maxDepth maxFeatures imp
          fuel (r.take st.iBest.toNat) st.cf (depth + 1) rres.2.1 rres.2.2
        (FNode.node counts impurity inx.length st.xBest st.vBest lres.1 rres.1,
          lres.2.1, lres.2.2)
      else
        (FNode.leaf counts impurity inx.length, features, rand)

/-- `tree.Classifier.fit`: defaults for negative hyperparameters, the
identity features array, an empty constant mask and depth 0 at the root.
The fuel `|inx| + 1` dominates the tree depth (every split leaves at
least one sample on each side). -/
def fitClassifier (X : ℕ → ℕ → ℚ) (Y : ℕ → ℕ) (K nFeatures : ℕ)
    (minSplitRaw minLeafRaw maxDepth maxFeaturesRaw : ℤ)
    (imp : ℤ → List ℤ → ℚ) (inx : List ℕ) (rand : List ℕ) : FNode :=
  (fitGo X Y K nFeatures
    (if minSplitRaw < 0 then 2 else minSplitRaw)
    (if minLeafRaw < 0 then 1 else minLeafRaw)
    maxDepth
    (if maxFeaturesRaw < 0 then (nFeatures : ℤ) else maxFeaturesRaw)
    imp (inx.length + 1) inx [] 0 (List.range nFeatures) rand).1

theorem fitGo_height (X : ℕ → ℕ → ℚ) (Y : ℕ → ℕ) (K nF : ℕ)
    (minSplit minLeaf maxDepth maxFeatures : ℤ) (imp : ℤ → List ℤ → ℚ)
    (hmd : 0 < maxDepth) :
    ∀ (fuel : ℕ) (inx : List ℕ) (cf : List Bool) (depth : ℕ)
      (features rand : List ℕ), (depth : ℤ) ≤ maxDepth →
      (((fitGo X Y K nF minSplit minLeaf maxDepth maxFeatures imp
          fuel inx cf depth features rand).1.height : ℤ)) ≤
        maxDepth - (depth : ℤ) := by
  intro fuel
  induction fuel with
  | zero =>
    intro inx cf depth features rand hd
    simp only [fitGo, FNode.height]
    push_cast
    omega
  | succ fuel ih =>
    intro inx cf depth features rand hd
    simp only [fitGo]
    split
    · simp only [FNode.height]
      push_cast
      omega
    · next hleaf =>
      split
      · next hsplit =>
        simp only [FNode.height]
        have hdm : (depth : ℤ) < maxDepth := by
          push_neg at hleaf
          obtain ⟨-, -, h3, -⟩ := hleaf
          have := h3 hmd
          omega
        set st := sampleLoop X Y K nF maxFeatures minLeaf imp (classCounts K Y inx)
          (imp (inx.length : ℤ) (classCounts K Y inx)) nF
          ⟨nF - 1, 0, 0, 0, 0, 0, 0, -1, features, cf, inx, rand⟩ with hst
        set r := partitionGo (fun s => X s st.xBest) st.vBest st.inx with hr
        set rres := fitGo X Y K nF minSplit minLeaf maxDepth maxFeatures imp fuel
          (r.drop st.iBest.toNat) st.cf (depth + 1) st.features st.rand with hrres
        set lres := fitGo X Y K nF minSplit minLeaf maxDepth maxFeatures imp fuel
          (r.take st.iBest.toNat) st.cf (depth + 1) rres.2.1 rres.2.2 with hlres
        have h1 : ((rres.1.height : ℤ)) ≤ maxDepth - ((depth + 1 : ℕ) : ℤ) := by
          rw [hrres]
          exact ih _ _ _ _ _ (by push_cast; omega)
        have h2 : ((lres.1.height : ℤ)) ≤ maxDepth - ((depth + 1 : ℕ) : ℤ) := by
          rw [hlres]
          exact ih _ _ _ _ _ (by push_cast; omega)
        push_cast at h1 h2 ⊢
        omega
      · simp only [FNode.height]
        push_cast
        omega

/-- C3 (amended): the depth guard fires only for strictly positive
`max_depth`.  For every `max_depth ≥ 1` each root-to-leaf path of the
fitted tree has length at most `max_depth`, and a popped work item whose
depth equals `max_depth` is marked as a leaf.  (`max_depth = 0` is NOT a
depth cap — refuted by `c3_counterexample`.) -/
theorem c3_max_depth_bound (X : ℕ → ℕ → ℚ) (Y : ℕ → ℕ) (K nF : ℕ)
    (mS mL maxDepth mF : ℤ) (imp : ℤ → List ℤ → ℚ) (inx rand : List ℕ)
    (hmd : 1 ≤ maxDepth) :
    ((fitClassifier X Y K nF mS mL maxDepth mF imp inx rand).height : ℤ) ≤
      maxDepth ∧
    (∀ (fuel : ℕ) (inx2 : List ℕ) (cf : List Bool) (depth : ℕ)
        (features rand2 : List ℕ), (depth : ℤ) = maxDepth →
      (fitGo X Y K nF (if mS < 0 then 2 else mS) (if mL < 0 then 1 else mL)
        maxDepth (if mF < 0 then (nF : ℤ) else mF) imp (fuel + 1) inx2 cf depth
        features rand2).1.isLeafNode = true) := by
  constructor
  · unfold fitClassifier
    have := fitGo_height X Y K nF
      (if mS < 0 then 2 else mS) (if mL < 0 then 1 else mL)
      maxDepth (if mF < 0 then (nF : ℤ) else mF) imp (by omega)
      (inx.length + 1) inx [] 0 (List.range nF) rand (by push_cast; omega)
    push_cast at this ⊢
    omega
  · intro fuel inx2 cf depth features rand2 hdep
    simp only [fitGo]
    rw [if_pos (Or.inr (Or.inr (Or.inl ⟨by omega, hdep⟩)))]
    rfl

/-- Concrete run of the feature-sampling loop on a two-sample,
two-feature node: the random stream `[0]` draws feature `0`, which is
non-constant; `bestSplit` returns `(1/2, 1/2, 1)` and becomes the best. -/
theorem sampleLoop_two_feature_eval :
    sampleLoop (fun s _ => (s : ℚ)) (fun s => s) 2 2 2 1 gini [1, 1] (1 / 2) 2
      ⟨1, 0, 0, 0, 0, 0, 0, -1, [0, 1], [], [0, 1], [0]⟩ =
      ⟨0, 1, 0, 1, 1 / 2, 1 / 2, 0, 1, [1, 0], [], [0, 1], []⟩ := by
  have hb : bSort [(0 : ℚ), 1] [0, 1] = ([0, 1], [0, 1]) := rfl
  have hbs : bestSplitGo [0, 1] (fun s => s) [0, 1] 1 (1 / 2) [0, 0] [1, 1] gini
      = (1 / 2, 1 / 2, 1) := bestSplitGo_two_sample
  simp only [sampleLoop, randIntn]
  norm_num [swapAt, List.getD, List.replicate, eps, hb, hbs]

theorem fitGo_leaf_right_eval :
    fitGo (fun s _ => (s : ℚ)) (fun s => s) 2 2 2 1 0 2 gini 2 [1] [] 1 [1, 0] []
      = (FNode.leaf [0, 1] 0 1, [1, 0], []) := by
  have hg01 : gini 1 [0, 1] = 0 := by norm_num [gini]
  rw [fitGo]
  norm_num [classCounts, incAt, List.getD, List.replicate, hg01]

theorem fitGo_leaf_left_eval :
    fitGo (fun s _ => (s : ℚ)) (fun s => s) 2 2 2 1 0 2 gini 2 [0] [] 1 [1, 0] []
      = (FNode.leaf [1, 0] 0 1, [1, 0], []) := by
  have hg10 : gini 1 [1, 0] = 0 := by norm_num [gini]
  rw [fitGo]
  norm_num [classCounts, incAt, List.getD, List.replicate, hg10]

/-- With `max_depth = 0` the fitted tree on the two-sample data set
`x = [0, 1]`, `y = [0, 1]` is a full split of height 1: the guard
`t.MaxDepth > 0 && w.depth == t.MaxDepth` never fires. -/
theorem fitClassifier_depth0_eval :
    fitClassifier (fun s _ => (s : ℚ)) (fun s => s) 2 2 2 1 0 (-1) gini [0, 1] [0]
      = FNode.node [1, 1] (1 / 2) 2 0 (1 / 2)
          (FNode.leaf [1, 0] 0 1) (FNode.leaf [0, 1] 0 1) := by
  have hg2 : gini 2 [1, 1] = 1 / 2 := by norm_num [gini]
  have hp : partitionGo (fun s => (s : ℚ)) (1 / 2) [0, 1] = [0, 1] := by
    norm_num [partitionGo, partLoop, swapAt, List.getD]
  have h3 : fitGo (fun s _ => (s : ℚ)) (fun s => s) 2 2 2 1 0 2 gini 3 [0, 1] [] 0 [0, 1] [0]
      = (FNode.node [1, 1] (1 / 2) 2 0 (1 / 2)
          (FNode.leaf [1, 0] 0 1) (FNode.leaf [0, 1] 0 1), [1, 0], []) := by
    rw [fitGo]
    norm_num [classCounts, incAt, List.getD, List.replicate, eps, hg2,
      sampleLoop_two_feature_eval, hp, fitGo_leaf_right_eval, fitGo_leaf_left_eval]
  simp only [fitClassifier]
  norm_num [List.range_succ, h3]

/-- C3, counterexample to the claim as stated: the claim asserts the
depth cap for every `max_depth ≥ 0`, including `max_depth = 0`, yet the
tree fitted with `max_depth = 0` on `x = [0, 1]`, `y = [0, 1]`
(min_split 2, min_leaf 1, all features, gini) has height 1, not 0: the
code's guard `t.MaxDepth > 0 && w.depth == t.MaxDepth` ignores
`max_depth = 0`. -/
theorem c3_counterexample :
    (0 : ℤ) ≤ 0 ∧
    ¬ (fitClassifier (fun s _ => (s : ℚ)) (fun s => s) 2 2 2 1 0 (-1) gini
        [0, 1] [0]).height ≤ 0 := by
  refine ⟨le_refl 0, ?_⟩
  rw [fitClassifier_depth0_eval]
  simp [FNode.height]

theorem c3_max_depth_bound_witness :
    ((fitClassifier (fun s _ => (s : ℚ)) (fun s => s) 2 2 2 1 1 (-1) gini
        [0, 1] [0]).height : ℤ) ≤ 1 :=
  (c3_max_depth_bound (fun s _ => (s : ℚ)) (fun s => s) 2 2 2 1 1 (-1) gini
    [0, 1] [0] (by norm_num)).1

/-- Concrete run of the feature-sampling loop with `max_features = 2` on
a four-feature node whose mask marks features 2 and 3 constant: the
stream `[2, 0]` first draws masked feature 2 (counted into `visited` and
`nConst`), then non-constant feature 0 (examined, becomes the best
split); the loop then exits with `visited = 2 = max_features` although
only one non-constant feature was examined. -/
theorem sampleLoop_mask_eval :
    sampleLoop (fun s f => if f ≤ 1 then (s : ℚ) else 5) (fun s => s) 2 4 2 1 gini
      [1, 1] (1 / 2) 4
      ⟨3, 0, 0, 0, 0, 0, 0, -1, [0, 1, 2, 3], [false, false, true, true], [0, 1], [2, 0]⟩ =
      ⟨1, 2, 1, 1, 1 / 2, 1 / 2, 0, 1, [3, 1, 0, 2], [false, false, true, true],
        [0, 1], []⟩ := by
  have hb : bSort [(0 : ℚ), 1] [0, 1] = ([0, 1], [0, 1]) := rfl
  have hbs : bestSplitGo [0, 1] (fun s => s) [0, 1] 1 (1 / 2) [0, 0] [1, 1] gini
      = (1 / 2, 1 / 2, 1) := bestSplitGo_two_sample
  rw [sampleLoop]
  norm_num [randIntn, swapAt, List.getD, eps]
  rw [sampleLoop]
  norm_num [randIntn, swapAt, List.getD, List.replicate, eps, hb, hbs]
  rw [sampleLoop]
  norm_num

/-- C4 (amended): `visited` counts EVERY drawn feature, constant or not,
and always equals `nDrawnConstant` plus the number of non-constant
features examined.  The loop keeps drawing while `visited < max_features`
or all features drawn so far were constant; run to completion it stops
either with `j = 0` (the feature array is exhausted down to the one
undrawn entry at index 0) or with `visited ≥ max_features` and at least
one non-constant feature examined.  Constant features therefore DO
consume the `max_features` budget (refuted as stated by
`c4_counterexample`). -/
theorem c4_sample_budget (X : ℕ → ℕ → ℚ) (Y : ℕ → ℕ) (K nF : ℕ)
    (mF mL : ℤ) (imp : ℤ → List ℤ → ℚ) (nodeCounts : List ℤ) (nodeImp : ℚ) :
    ∀ (fuel : ℕ) (st : SLState), st.j ≤ fuel →
      st.visited = st.nConst + st.nExamined →
      ∀ st', sampleLoop X Y K nF mF mL imp nodeCounts nodeImp fuel st = st' →
        st'.visited = st'.nConst + st'.nExamined ∧
        (st'.j = 0 ∨ (mF ≤ (st'.visited : ℤ) ∧ st'.nConst < st'.visited)) := by
  intro fuel
  induction fuel with
  | zero =>
    intro st hj hinv st' heq
    simp only [sampleLoop] at heq
    subst heq
    exact ⟨hinv, Or.inl (by omega)⟩
  | succ fuel ih =>
    intro st hj hinv st' heq
    simp only [sampleLoop] at heq
    split at heq
    · next hg =>
      split at heq
      · exact ih _ (by simp; omega) (by simp; omega) st' heq
      · split at heq
        · exact ih _ (by simp; omega) (by simp; omega) st' heq
        · split at heq
          · exact ih _ (by simp; omega) (by simp; omega) st' heq
          · exact ih _ (by simp; omega) (by simp; omega) st' heq
    · next hg =>
      subst heq
      exact ⟨hinv, by omega⟩

theorem c4_sample_budget_witness :
    (2 : ℕ) = 1 + 1 ∧ ((1 : ℕ) = 0 ∨ ((2 : ℤ) ≤ ((2 : ℕ) : ℤ) ∧ (1 : ℕ) < 2)) :=
  c4_sample_budget (fun s f => if f ≤ 1 then (s : ℚ) else 5) (fun s => s) 2 4 2 1 gini
    [1, 1] (1 / 2) 4
    ⟨3, 0, 0, 0, 0, 0, 0, -1, [0, 1, 2, 3], [false, false, true, true], [0, 1], [2, 0]⟩
    (by norm_num) (by norm_num) _ sampleLoop_mask_eval

/-- C4, counterexample to the claim as stated: with `max_features = 2`,
features 0 and 1 unmasked and non-constant on the node's two samples
(so at least `max_features` non-constant candidates remain), the
sampling loop that first draws masked-constant feature 2 and then
feature 0 examines only ONE non-constant feature, not two: the drawn
constant feature consumed half the budget via `visited`. -/
theorem c4_counterexample :
    ([false, false, true, true].getD 0 false = false ∧
     [false, false, true, true].getD 1 false = false ∧
     (fun s f => if f ≤ 1 then (s : ℚ) else 5) 0 0 ≠
       (fun s f => if f ≤ 1 then (s : ℚ) else 5) 1 0 ∧
     (fun s f => if f ≤ 1 then (s : ℚ) else 5) 0 1 ≠
       (fun s f => if f ≤ 1 then (s : ℚ) else 5) 1 1) ∧
    (sampleLoop (fun s f => if f ≤ 1 then (s : ℚ) else 5) (fun s => s) 2 4 2 1 gini
      [1, 1] (1 / 2) 4
      ⟨3, 0, 0, 0, 0, 0, 0, -1, [0, 1, 2, 3], [false, false, true, true], [0, 1],
        [2, 0]⟩).nExamined = 1 ∧
    (sampleLoop (fun s f => if f ≤ 1 then (s : ℚ) else 5) (fun s => s) 2 4 2 1 gini
      [1, 1] (1 / 2) 4
      ⟨3, 0, 0, 0, 0, 0, 0, -1, [0, 1, 2, 3], [false, false, true, true], [0, 1],
        [2, 0]⟩).nExamined ≠ 2 := by
  refine ⟨⟨rfl, rfl, by norm_num, by norm_num⟩, ?_, ?_⟩
  all_goals rw [sampleLoop_mask_eval]
  all_goals norm_num

/-! C7 infrastructure: windows, confinement, sortedness predicates. -/

def keyD (l : List (ℚ × ℕ)) (k : ℕ) : ℚ := (l.getD k default).1

def SortedW (l : List (ℚ × ℕ)) (a b : ℕ) : Prop :=
  ∀ p q, a ≤ p → p < q → q < b → keyD l p ≤ keyD l q

def Confined (a b : ℕ) (l l2 : List (ℚ × ℕ)) : Prop :=
  l2.Perm l ∧ ∀ k, k < a ∨ b ≤ k → l2.getD k default = l.getD k default

theorem confined_refl (a b : ℕ) (l : List (ℚ × ℕ)) : Confined a b l l :=
  ⟨List.Perm.refl l, fun _ _ => rfl⟩

theorem confined_trans {a b : ℕ} {l l2 l3 : List (ℚ × ℕ)}
    (h1 : Confined a b l l2) (h2 : Confined a b l2 l3) : Confined a b l l3 :=
  ⟨h2.1.trans h1.1, fun k hk => (h2.2 k hk).trans (h1.2 k hk)⟩

theorem confined_mono {a b a2 b2 : ℕ} {l l2 : List (ℚ × ℕ)}
    (ha : a2 ≤ a) (hb : b ≤ b2) (h : Confined a b l l2) : Confined a2 b2 l l2 :=
  ⟨h.1, fun k hk => h.2 k (by omega)⟩

theorem confined_length {a b : ℕ} {l l2 : List (ℚ × ℕ)}
    (h : Confined a b l l2) : l2.length = l.length :=
  h.1.length_eq

theorem confined_swapAt {a b i j : ℕ} (l : List (ℚ × ℕ))
    (hai : a ≤ i) (hib : i < b) (haj : a ≤ j) (hjb : j < b) (hbl : b ≤ l.length) :
    Confined a b l (swapAt l i j) :=
  ⟨swapAt_perm l i j (by omega) (by omega),
   fun k hk => swapAt_getD_ne l i j k default (by omega) (by omega)⟩

theorem confined_foldl {β : Type} {a b : ℕ} (g : List (ℚ × ℕ) → β → List (ℚ × ℕ))
    (r : List β)
    (h : ∀ l x, x ∈ r → b ≤ l.length → Confined a b l (g l x)) :
    ∀ l : List (ℚ × ℕ), b ≤ l.length → Confined a b l (r.foldl g l) := by
  induction r with
  | nil => intro l _; exact confined_refl a b l
  | cons x r ih =>
    intro l hl
    rw [List.foldl_cons]
    have h1 := h l x (by simp) hl
    exact confined_trans h1 (ih (fun l2 y hy hl2 => h l2 y (by simp [hy]) hl2)
      (g l x) (by rw [confined_length h1]; exact hl))

theorem confined_take {a b : ℕ} {l l2 : List (ℚ × ℕ)} (h : Confined a b l l2) :
    l2.take a = l.take a := by
  apply List.ext_getElem
  · simp [confined_length h]
  · intro i h1 h2
    have hi2 : i < l2.length := by simp at h1; omega
    have hi : i < l.length := by simp at h2; omega
    have hia : i < a := by simp at h1; omega
    rw [List.getElem_take, List.getElem_take,
      ← List.getD_eq_getElem _ default hi2, ← List.getD_eq_getElem _ default hi]
    exact h.2 i (Or.inl hia)

theorem confined_drop {a b : ℕ} {l l2 : List (ℚ × ℕ)} (h : Confined a b l l2) :
    l2.drop b = l.drop b := by
  apply List.ext_getElem
  · simp [confined_length h]
  · intro i h1 h2
    have hi2 : b + i < l2.length := by simp at h1; omega
    have hi : b + i < l.length := by simp at h2; omega
    rw [List.getElem_drop, List.getElem_drop,
      ← List.getD_eq_getElem _ default hi2, ← List.getD_eq_getElem _ default hi]
    exact h.2 (b + i) (Or.inr (by omega))

theorem window_decomp (a b : ℕ) (m : List (ℚ × ℕ)) (hab : a ≤ b) :
    m = m.take a ++ ((m.drop a).take (b - a) ++ m.drop b) := by
  conv_lhs => rw [← List.take_append_drop a m]
  congr 1
  conv_lhs => rw [← List.take_append_drop (b - a) (m.drop a)]
  congr 1
  rw [List.drop_drop]
  congr 1
  omega

theorem confined_window_perm {a b : ℕ} {l l2 : List (ℚ × ℕ)}
    (h : Confined a b l l2) (hab : a ≤ b) (hbl : b ≤ l.length) :
    ((l2.drop a).take (b - a)).Perm ((l.drop a).take (b - a)) := by
  have hp : (l2.take a ++ ((l2.drop a).take (b - a) ++ l2.drop b)).Perm
      (l.take a ++ ((l.drop a).take (b - a) ++ l.drop b)) := by
    rw [← window_decomp a b l2 hab, ← window_decomp a b l hab]
    exact h.1
  rw [confined_take h, confined_drop h] at hp
  rw [List.perm_append_left_iff] at hp
  rw [List.perm_append_right_iff] at hp
  exact hp

theorem window_getD_mem {a b : ℕ} {l : List (ℚ × ℕ)} (hbl : b ≤ l.length)
    {k : ℕ} (hak : a ≤ k) (hkb : k < b) :
    l.getD k default ∈ (l.drop a).take (b - a) := by
  have h1 : k - a < ((l.drop a).take (b - a)).length := by
    simp
    omega
  have h2 : ((l.drop a).take (b - a))[k - a] = l.getD k default := by
    rw [List.getElem_take, List.getElem_drop,
      ← List.getD_eq_getElem _ default (show a + (k - a) < l.length from by omega)]
    rw [show a + (k - a) = k from by omega]
  rw [← h2]
  exact List.getElem_mem h1

theorem window_mem_getD {a b : ℕ} {l : List (ℚ × ℕ)} (hbl : b ≤ l.length)
    {y : ℚ × ℕ} (hy : y ∈ (l.drop a).take (b - a)) :
    ∃ k, a ≤ k ∧ k < b ∧ l.getD k default = y := by
  obtain ⟨i, hi, hval⟩ := List.getElem_of_mem hy
  refine ⟨a + i, by omega, ?_, ?_⟩
  · have hlen : i < b - a ∧ i < l.length - a := by simpa using hi
    omega
  · rw [← hval, List.getElem_take, List.getElem_drop]
    exact List.getD_eq_getElem l default (by simp at hi; omega)

theorem confined_bound {a b : ℕ} {l l2 : List (ℚ × ℕ)} (h : Confined a b l l2)
    (hab : a ≤ b) (hbl : b ≤ l.length) (P : ℚ × ℕ → Prop)
    (hP : ∀ k, a ≤ k → k < b → P (l.getD k default)) :
    ∀ k, a ≤ k → k < b → P (l2.getD k default) := by
  intro k hak hkb
  have hl2 : b ≤ l2.length := by rw [confined_length h]; exact hbl
  have hmem : l2.getD k default ∈ (l.drop a).take (b - a) :=
    (confined_window_perm h hab hbl).mem_iff.mp (window_getD_mem hl2 hak hkb)
  obtain ⟨k2, hk2a, hk2b, hval⟩ := window_mem_getD hbl hmem
  rw [← hval]
  exact hP k2 hk2a hk2b

theorem sortedW_congr {l l2 : List (ℚ × ℕ)} {a b : ℕ}
    (h : ∀ k, a ≤ k → k < b → l2.getD k default = l.getD k default)
    (hs : SortedW l a b) : SortedW l2 a b := by
  intro p q hap hpq hqb
  simp only [keyD]
  rw [h p hap (by omega), h q (by omega) hqb]
  exact hs p q hap hpq hqb

theorem sortedW_of_le (l : List (ℚ × ℕ)) {a b : ℕ} (h : b ≤ a + 1) :
    SortedW l a b := by
  intro p q hap hpq hqb
  omega

theorem swapAt_getD_left {α : Type} [Inhabited α] (l : List α) (i j : ℕ) (d : α)
    (hi : i < l.length) : (swapAt l i j).getD i d = l.getD j default := by
  by_cases h : i = j
  · subst h
    exact swapAt_getD_right l i i d hi
  · unfold swapAt
    rw [getD_set_ne _ _ _ _ _ (fun he => h he.symm), getD_set_self _ _ _ _ hi]

theorem insInner_spec (a i : ℕ) :
    ∀ (m : ℕ) (l : List (ℚ × ℕ)), m ≤ i → i < l.length → a ≤ m →
      (∀ p q, a ≤ p → p < q → q ≤ i → p ≠ m → q ≠ m → keyD l p ≤ keyD l q) →
      (∀ q, m < q → q ≤ i → keyD l m ≤ keyD l q) →
      Confined a (i + 1) l (insInner a l m) ∧
      (∀ p q, a ≤ p → p < q → q ≤ i → keyD (insInner a l m) p ≤ keyD (insInner a l m) q) := by
  intro m
  induction m with
  | zero =>
    intro l hmi hil ham hs1 hs2
    refine ⟨confined_refl a (i + 1) l, ?_⟩
    intro p q hap hpq hqi
    simp only [insInner]
    by_cases hp0 : p = 0
    · subst hp0
      exact hs2 q (by omega) hqi
    · exact hs1 p q hap hpq hqi hp0 (by omega)
  | succ j ih =>
    intro l hmi hil ham hs1 hs2
    rw [insInner]
    split
    · next hg =>
      obtain ⟨haj, hlt⟩ := hg
      have hjl : j < l.length := by omega
      have hj1l : j + 1 < l.length := by omega
      have hswlen : (swapAt l (j + 1) j).length = l.length := swapAt_length l (j + 1) j
      have hkey1 : keyD (swapAt l (j + 1) j) (j + 1) = keyD l j := by
        simp only [keyD]
        rw [swapAt_getD_left l (j + 1) j default hj1l]
      have hkey0 : keyD (swapAt l (j + 1) j) j = keyD l (j + 1) := by
        simp only [keyD]
        rw [swapAt_getD_right l (j + 1) j default hjl]
      have hkeyo : ∀ k, k ≠ j → k ≠ j + 1 → keyD (swapAt l (j + 1) j) k = keyD l k := by
        intro k hk1 hk2
        simp only [keyD]
        rw [swapAt_getD_ne l (j + 1) j k default hk2 hk1]
      have hc1 : Confined a (i + 1) l (swapAt l (j + 1) j) :=
        confined_swapAt l (by omega) (by omega) (by omega) (by omega) (by omega)
      have hres := ih (swapAt l (j + 1) j) (by omega) (by omega) haj
        (by
          intro p q hap hpq hqi hpj hqj
          by_cases hpj1 : p = j + 1
          · subst hpj1
            rw [hkey1]
            by_cases hqj1 : q = j + 1
            · omega
            · rw [hkeyo q hqj hqj1]
              exact hs1 j q haj (by omega) hqi (by omega) hqj1
          · rw [hkeyo p hpj hpj1]
            by_cases hqj1 : q = j + 1
            · subst hqj1
              rw [hkey1]
              exact hs1 p j hap (by omega) (by omega) hpj1 (by omega)
            · rw [hkeyo q hqj hqj1]
              exact hs1 p q hap hpq hqi hpj1 hqj1)
        (by
          intro q hjq hqi
          rw [hkey0]
          by_cases hqj1 : q = j + 1
          · subst hqj1
            rw [hkey1]
            exact le_of_lt hlt
          · rw [hkeyo q (by omega) hqj1]
            exact hs2 q (by omega) hqi)
      exact ⟨confined_trans hc1 hres.1, hres.2⟩
    · next hg =>
      push_neg at hg
      refine ⟨confined_refl a (i + 1) l, ?_⟩
      intro p q hap hpq hqi
      by_cases haj : a ≤ j
      · have hle : keyD l j ≤ keyD l (j + 1) := hg haj
        by_cases hpm : p = j + 1
        · subst hpm
          exact hs2 q (by omega) hqi
        · by_cases hqm : q = j + 1
          · subst hqm
            by_cases hpj : p = j
            · subst hpj
              exact hle
            · exact le_trans (hs1 p j hap (by omega) (by omega) hpm (by omega)) hle
          · exact hs1 p q hap hpq hqi hpm hqm
      · have hma : j + 1 = a := by omega
        by_cases hpm : p = j + 1
        · subst hpm
          exact hs2 q (by omega) hqi
        · have hqm : q ≠ j + 1 := by omega
          exact hs1 p q hap hpq hqi hpm hqm

theorem insFold_spec (a : ℕ) :
    ∀ (n s : ℕ) (l : List (ℚ × ℕ)), a < s → s + n ≤ l.length →
      SortedW l a s →
      Confined a (s + n) l ((List.range' s n).foldl (fun l i => insInner a l i) l) ∧
      SortedW ((List.range' s n).foldl (fun l i => insInner a l i) l) a (s + n) := by
  intro n
  induction n with
  | zero =>
    intro s l has hsl hsorted
    exact ⟨confined_refl a (s + 0) l, by simpa using hsorted⟩
  | succ n ih =>
    intro s l has hsl hsorted
    rw [List.range'_succ, List.foldl_cons]
    have hins := insInner_spec a s s l (le_refl s) (by omega) (by omega)
      (by
        intro p q hap hpq hqi hpm hqm
        exact hsorted p q hap hpq (by omega))
      (by intro q hq hqi; omega)
    have hsort1 : SortedW (insInner a l s) a (s + 1) := by
      intro p q hap hpq hqb
      exact hins.2 p q hap hpq (by omega)
    have hlen1 : (insInner a l s).length = l.length := confined_length hins.1
    have hrest := ih (s + 1) (insInner a l s) (by omega) (by omega) hsort1
    refine ⟨?_, ?_⟩
    · have h1 : Confined a (s + (n + 1)) l (insInner a l s) :=
        confined_mono (le_refl a) (by omega) hins.1
      have h2 := confined_mono (le_refl a) (show s + 1 + n ≤ s + (n + 1) from by omega) hrest.1
      exact confined_trans h1 h2
    · intro p q hap hpq hqb
      exact hrest.2 p q hap hpq (by omega)

theorem insertionSortGo_spec (l : List (ℚ × ℕ)) (a b : ℕ) (hb : b ≤ l.length) :
    Confined a b l (insertionSortGo l a b) ∧ SortedW (insertionSortGo l a b) a b := by
  unfold insertionSortGo
  by_cases hab : b ≤ a + 1
  · have hn : b - (a + 1) = 0 := by omega
    rw [hn]
    exact ⟨confined_refl a b l, sortedW_of_le l hab⟩
  · have hfold := insFold_spec a (b - (a + 1)) (a + 1) l (by omega) (by omega)
      (sortedW_of_le l (le_refl (a + 1)))
    have heq : a + 1 + (b - (a + 1)) = b := by omega
    rw [heq] at hfold
    exact hfold

/-! Binary-heap index combinatorics for `siftDown`. -/

inductive Desc : ℕ → ℕ → Prop
  | refl (s : ℕ) : Desc s s
  | left {s t : ℕ} : Desc (2 * s + 1) t → Desc s t
  | right {s t : ℕ} : Desc (2 * s + 2) t → Desc s t

theorem desc_le {s t : ℕ} (h : Desc s t) : s ≤ t := by
  induction h with
  | refl s => exact le_refl s
  | left h ih => omega
  | right h ih => omega

theorem desc_child {s t c : ℕ} (h : Desc s t) (hc : c = 2 * t + 1 ∨ c = 2 * t + 2) :
    Desc s c := by
  induction h with
  | refl s =>
    rcases hc with hc | hc
    · exact Desc.left (hc ▸ Desc.refl c)
    · exact Desc.right (hc ▸ Desc.refl c)
  | left h ih => exact Desc.left (ih hc)
  | right h ih => exact Desc.right (ih hc)

theorem desc_trans {s u t : ℕ} (h1 : Desc s u) (h2 : Desc u t) : Desc s t := by
  induction h1 with
  | refl => exact h2
  | left h ih => exact Desc.left (ih h2)
  | right h ih => exact Desc.right (ih h2)

theorem desc_parent {s t : ℕ} (h : Desc s t) (hne : t ≠ s) :
    Desc s ((t - 1) / 2) := by
  induction h with
  | refl s => exact absurd rfl hne
  | left h ih =>
    next s t =>
    by_cases he : t = 2 * s + 1
    · rw [show (t - 1) / 2 = s from by omega]
      exact Desc.refl s
    · exact Desc.left (ih he)
  | right h ih =>
    next s t =>
    by_cases he : t = 2 * s + 2
    · rw [show (t - 1) / 2 = s from by omega]
      exact Desc.refl s
    · exact Desc.right (ih he)

theorem desc_zero (t : ℕ) : Desc 0 t := by
  induction t using Nat.strong_induction_on with
  | _ t ih =>
    match t with
    | 0 => exact Desc.refl 0
    | t + 1 =>
      have hp := ih ((t + 1 - 1) / 2) (by omega)
      exact desc_child hp (by omega)

theorem not_desc_of_lt {s t : ℕ} (h : t < s) : ¬ Desc s t :=
  fun hd => absurd (desc_le hd) (by omega)

theorem desc_sibling_disjoint {s : ℕ} :
    ∀ t, Desc (2 * s + 1) t → Desc (2 * s + 2) t → False := by
  intro t
  induction t using Nat.strong_induction_on with
  | _ t ih =>
    intro h1 h2
    by_cases he1 : t = 2 * s + 1
    · exact absurd (desc_le h2) (by omega)
    · by_cases he2 : t = 2 * s + 2
      · have hp := desc_parent h1 (by omega)
        rw [show (t - 1) / 2 = s from by omega] at hp
        exact absurd (desc_le hp) (by omega)
      · have ht1 : 1 ≤ t := by
          have := desc_le h1
          omega
        exact ih ((t - 1) / 2) (by omega) (desc_parent h1 he1) (desc_parent h2 he2)

theorem not_desc_sibling {root child oc : ℕ}
    (hchild : child = 2 * root + 1 ∨ child = 2 * root + 2)
    (hocc : oc = 2 * root + 1 ∨ oc = 2 * root + 2) (hne : oc ≠ child) :
    ¬ Desc child oc := by
  intro hd
  have hp := desc_parent hd hne
  have hoc : (oc - 1) / 2 = root := by omega
  rw [hoc] at hp
  have := desc_le hp
  omega

def heapOrd (l : List (ℚ × ℕ)) (first hi : ℕ) (r : ℕ) : Prop :=
  ∀ c, (c = 2 * r + 1 ∨ c = 2 * r + 2) → c < hi →
    keyD l (first + c) ≤ keyD l (first + r)

theorem heap_chain {l : List (ℚ × ℕ)} {first hi : ℕ} :
    ∀ (s t : ℕ), Desc s t →
      (∀ r, Desc s r → heapOrd l first hi r) → t < hi →
      keyD l (first + t) ≤ keyD l (first + s) := by
  intro s t hd
  induction hd with
  | refl s2 => intro hh ht; exact le_refl _
  | left h ih =>
    next s2 t2 =>
    intro hh ht
    have h1 := ih (fun r hr => hh r (Desc.left hr)) ht
    have h2 := hh s2 (Desc.refl s2) (2 * s2 + 1) (Or.inl rfl)
      (by have := desc_le h; omega)
    exact le_trans h1 h2
  | right h ih =>
    next s2 t2 =>
    intro hh ht
    have h1 := ih (fun r hr => hh r (Desc.right hr)) ht
    have h2 := hh s2 (Desc.refl s2) (2 * s2 + 2) (Or.inr rfl)
      (by have := desc_le h; omega)
    exact le_trans h1 h2

def SiftSpec (hi first : ℕ) (l l2 : List (ℚ × ℕ)) (root : ℕ) : Prop :=
  l2.Perm l ∧
  (∀ k, (∀ t, Desc root t → t < hi → k ≠ first + t) →
    l2.getD k default = l.getD k default) ∧
  (∀ t, Desc root t → t < hi → ∃ t2, Desc root t2 ∧ t2 < hi ∧
    l2.getD (first + t) default = l.getD (first + t2) default) ∧
  (∀ r, Desc root r → heapOrd l2 first hi r)

theorem siftSpec_id {hi first root : ℕ} (l : List (ℚ × ℕ))
    (hroot : ∀ c, (c = 2 * root + 1 ∨ c = 2 * root + 2) → c < hi →
      keyD l (first + c) ≤ keyD l (first + root))
    (hh : ∀ r, Desc root r → r ≠ root → heapOrd l first hi r) :
    SiftSpec hi first l l root := by
  refine ⟨List.Perm.refl l, fun k _ => rfl, fun t ht hthi => ⟨t, ht, hthi, rfl⟩, ?_⟩
  intro r hr
  by_cases hrr : r = root
  · subst hrr
    exact hroot
  · exact hh r hr hrr

theorem siftDown_step (hi first fuel root child : ℕ) (l : List (ℚ × ℕ))
    (ih : ∀ (l2 : List (ℚ × ℕ)) (r2 : ℕ), first + hi ≤ l2.length → hi - r2 ≤ fuel →
      (∀ r, Desc r2 r → r ≠ r2 → heapOrd l2 first hi r) →
      SiftSpec hi first l2 (siftDownGo hi first fuel l2 r2) r2)
    (hlen : first + hi ≤ l.length)
    (hfuel : hi - root ≤ fuel + 1)
    (hchild : child = 2 * root + 1 ∨ child = 2 * root + 2)
    (hchi : child < hi)
    (hoc : ∀ oc, (oc = 2 * root + 1 ∨ oc = 2 * root + 2) → oc < hi →
      keyD l (first + oc) ≤ keyD l (first + child))
    (hh : ∀ r, Desc root r → r ≠ root → heapOrd l first hi r) :
    SiftSpec hi first l
      (if ¬ ((l.getD (first + root) default).1 < (l.getD (first + child) default).1)
        then l
        else siftDownGo hi first fuel (swapAt l (first + root) (first + child)) child)
      root := by
  by_cases hstop : (l.getD (first + root) default).1 < (l.getD (first + child) default).1
  · rw [if_neg (not_not_intro hstop)]
    have hrc : root < child := by omega
    have hrhi : root < hi := by omega
    have hpr : first + root < l.length := by omega
    have hpc : first + child < l.length := by omega
    have hdrc : Desc root child := desc_child (Desc.refl root) hchild
    have hlen1 : (swapAt l (first + root) (first + child)).length = l.length :=
      swapAt_length l _ _
    have hk_root : (swapAt l (first + root) (first + child)).getD (first + root) default
        = l.getD (first + child) default :=
      swapAt_getD_left l _ _ default hpr
    have hk_child : (swapAt l (first + root) (first + child)).getD (first + child) default
        = l.getD (first + root) default :=
      swapAt_getD_right l _ _ default hpc
    have hk_other : ∀ m, m ≠ root → m ≠ child →
        (swapAt l (first + root) (first + child)).getD (first + m) default
          = l.getD (first + m) default := by
      intro m h1 h2
      exact swapAt_getD_ne l _ _ _ default (by omega) (by omega)
    have hihheap : ∀ r, Desc child r → r ≠ child →
        heapOrd (swapAt l (first + root) (first + child)) first hi r := by
      intro r hr hrc2 c hc hchi2
      have hrge : child ≤ r := desc_le hr
      simp only [keyD]
      rw [hk_other c (by omega) (by omega), hk_other r (by omega) (by omega)]
      exact hh r (desc_trans hdrc hr) (by omega) c hc hchi2
    obtain ⟨hperm2, huntouched2, hprov2, hheap2⟩ :=
      ih (swapAt l (first + root) (first + child)) child (by omega) (by omega) hihheap
    have hroot_un : (siftDownGo hi first fuel (swapAt l (first + root) (first + child))
        child).getD (first + root) default = l.getD (first + child) default := by
      rw [← hk_root]
      apply huntouched2
      intro t ht _ he
      have hteq : root = t := by omega
      subst hteq
      exact absurd (desc_le ht) (by omega)
    refine ⟨?_, ?_, ?_, ?_⟩
    · exact hperm2.trans (swapAt_perm l _ _ hpr hpc)
    · intro k hk
      have h1 := huntouched2 k (fun t ht hthi => hk t (desc_trans hdrc ht) hthi)
      rw [h1]
      exact swapAt_getD_ne l _ _ _ default (hk root (Desc.refl root) hrhi)
        (hk child hdrc hchi)
    · intro t ht hthi
      by_cases hdt : Desc child t
      · obtain ⟨t2, ht2, ht2hi, hval⟩ := hprov2 t hdt hthi
        by_cases ht2c : t2 = child
        · subst ht2c
          exact ⟨root, Desc.refl root, hrhi, by rw [hval, hk_child]⟩
        · refine ⟨t2, desc_trans hdrc ht2, ht2hi, ?_⟩
          rw [hval, hk_other t2 (by have := desc_le ht2; omega) ht2c]
      · have h1 : (siftDownGo hi first fuel (swapAt l (first + root) (first + child))
            child).getD (first + t) default
            = (swapAt l (first + root) (first + child)).getD (first + t) default := by
          apply huntouched2
          intro t3 ht3 _ he
          exact hdt (by rwa [show t = t3 from by omega])
        by_cases htr : t = root
        · subst htr
          exact ⟨child, hdrc, hchi, by rw [h1, hk_root]⟩
        · have htc : t ≠ child := fun he => hdt (he ▸ Desc.refl child)
          exact ⟨t, ht, hthi, by rw [h1, hk_other t htr htc]⟩
    · intro r hr
      by_cases hdr : Desc child r
      · exact hheap2 r hdr
      · by_cases hrr : r = root
        · rw [hrr]
          intro c hc hchi2
          by_cases hcc : c = child
          · rw [hcc]
            obtain ⟨t2, ht2, ht2hi, hval⟩ := hprov2 child (Desc.refl child) hchi
            have hb : ((swapAt l (first + root) (first + child)).getD
                (first + t2) default).1 ≤ (l.getD (first + child) default).1 := by
              by_cases ht2c : t2 = child
              · subst ht2c
                rw [hk_child]
                exact le_of_lt hstop
              · rw [hk_other t2 (by have := desc_le ht2; omega) ht2c]
                exact heap_chain child t2 ht2
                  (fun r2 hr2 => hh r2 (desc_trans hdrc hr2)
                    (by have := desc_le hr2; omega)) ht2hi
            simp only [keyD]
            rw [hval, hroot_un]
            exact hb
          · have hocc : c = 2 * root + 1 ∨ c = 2 * root + 2 := hc
            have hnd : ¬ Desc child c := not_desc_sibling hchild hocc hcc
            have h1 : (siftDownGo hi first fuel (swapAt l (first + root) (first + child))
                child).getD (first + c) default
                = (swapAt l (first + root) (first + child)).getD (first + c) default := by
              apply huntouched2
              intro t ht _ he
              exact hnd (by rwa [show c = t from by omega])
            simp only [keyD]
            rw [h1, hroot_un, hk_other c (by omega) hcc]
            exact hoc c hocc hchi2
        · have hsib : ∃ oc, (oc = 2 * root + 1 ∨ oc = 2 * root + 2) ∧ oc ≠ child ∧
              Desc oc r := by
            cases hr with
            | refl => exact absurd rfl hrr
            | left h =>
              rcases hchild with hch | hch
              · exact absurd (hch ▸ h) hdr
              · exact ⟨2 * root + 1, Or.inl rfl, by omega, h⟩
            | right h =>
              rcases hchild with hch | hch
              · exact ⟨2 * root + 2, Or.inr rfl, by omega, h⟩
              · exact absurd (hch ▸ h) hdr
          obtain ⟨oc, hocc, hocne, hocr⟩ := hsib
          have hsub : ∀ m, Desc oc m →
              (siftDownGo hi first fuel (swapAt l (first + root) (first + child))
                child).getD (first + m) default = l.getD (first + m) default := by
            intro m hm
            have hmnc : ¬ Desc child m := by
              intro hcm
              rcases hocc with ho | ho <;> rcases hchild with hch | hch
              · exact hocne (by omega)
              · exact desc_sibling_disjoint m (ho ▸ hm) (hch ▸ hcm)
              · exact desc_sibling_disjoint m (hch ▸ hcm) (ho ▸ hm)
              · exact hocne (by omega)
            have hm_root : m ≠ root := by
              have h1 := desc_le hm
              omega
            have hm_child : m ≠ child := fun he => hmnc (he ▸ Desc.refl child)
            have h1 : (siftDownGo hi first fuel (swapAt l (first + root) (first + child))
                child).getD (first + m) default
                = (swapAt l (first + root) (first + child)).getD (first + m) default := by
              apply huntouched2
              intro t ht _ he
              exact hmnc (by rwa [show m = t from by omega])
            rw [h1, hk_other m hm_root hm_child]
          intro c hc hchi2
          simp only [keyD]
          rw [hsub c (desc_child hocr hc), hsub r hocr]
          exact hh r hr hrr c hc hchi2
  · rw [if_pos hstop]
    apply siftSpec_id l ?_ hh
    intro c hc hchi2
    exact le_trans (hoc c hc hchi2) (le_of_not_lt hstop)

theorem siftDownGo_spec (hi first : ℕ) :
    ∀ (fuel : ℕ) (l : List (ℚ × ℕ)) (root : ℕ),
      first + hi ≤ l.length → hi - root ≤ fuel →
      (∀ r, Desc root r → r ≠ root → heapOrd l first hi r) →
      SiftSpec hi first l (siftDownGo hi first fuel l root) root := by
  intro fuel
  induction fuel with
  | zero =>
    intro l root hlen hfuel hh
    simp only [siftDownGo]
    apply siftSpec_id l ?_ hh
    intro c hc hchi
    omega
  | succ fuel ih =>
    intro l root hlen hfuel hh
    simp only [siftDownGo]
    by_cases hg1 : 2 * root + 1 ≥ hi
    · rw [if_pos hg1]
      apply siftSpec_id l ?_ hh
      intro c hc hchi
      omega
    · rw [if_neg hg1]
      by_cases hs : 2 * root + 2 < hi ∧ (l.getD (first + (2 * root + 1)) default).1 <
          (l.getD (first + (2 * root + 2)) default).1
      · simp only [if_pos hs]
        apply siftDown_step hi first fuel root (2 * root + 2) l ih hlen hfuel
          (Or.inr rfl) hs.1 ?_ hh
        intro oc hoc2 hochi
        rcases hoc2 with ho | ho
        · subst ho
          exact le_of_lt hs.2
        · subst ho
          exact le_refl _
      · simp only [if_neg hs]
        apply siftDown_step hi first fuel root (2 * root + 1) l ih hlen hfuel
          (Or.inl rfl) (by omega) ?_ hh
        intro oc hoc2 hochi
        rcases hoc2 with ho | ho
        · subst ho
          exact le_refl _
        · subst ho
          exact le_of_not_lt (fun hb => hs ⟨hochi, hb⟩)

theorem siftSpec_confined {hi first root : ℕ} {l l2 : List (ℚ × ℕ)}
    (h : SiftSpec hi first l l2 root) : Confined first (first + hi) l l2 :=
  ⟨h.1, fun k hk => h.2.1 k (fun t _ hthi => by omega)⟩

theorem heapifyFold (first hi : ℕ) :
    ∀ (m : ℕ) (l : List (ℚ × ℕ)), first + hi ≤ l.length →
      (∀ r, m ≤ r → heapOrd l first hi r) →
      Confined first (first + hi) l
        ((List.range m).reverse.foldl (fun l i => siftDown l i hi first) l) ∧
      (∀ r, heapOrd ((List.range m).reverse.foldl (fun l i => siftDown l i hi first) l)
        first hi r) := by
  intro m
  induction m with
  | zero =>
    intro l hlen hheap
    exact ⟨confined_refl _ _ l, fun r => hheap r (Nat.zero_le r)⟩
  | succ m ih =>
    intro l hlen hheap
    have hrange : (List.range (m + 1)).reverse = m :: (List.range m).reverse := by
      rw [List.range_succ, List.reverse_append, List.reverse_singleton]
      rfl
    rw [hrange, List.foldl_cons]
    have hspec := siftDownGo_spec hi first hi l m hlen (by omega)
      (fun r hr hrm => hheap r (by have := desc_le hr; omega))
    obtain ⟨hperm, hun, hprov, hheap2⟩ := hspec
    have hlen2 : (siftDown l m hi first).length = l.length := by
      unfold siftDown
      exact hperm.length_eq
    have hheap3 : ∀ r, m ≤ r → heapOrd (siftDown l m hi first) first hi r := by
      intro r hmr
      by_cases hdr : Desc m r
      · exact hheap2 r hdr
      · intro c hc hchi
        have hrc : r < c := by omega
        have hrne : r ≠ m := fun he => hdr (by rw [he]; exact Desc.refl m)
        have hcm : ¬ Desc m c := by
          intro hdc
          have hcne : c ≠ m := by omega
          have hp := desc_parent hdc hcne
          rw [show (c - 1) / 2 = r from by omega] at hp
          exact hdr hp
        have h1 : (siftDown l m hi first).getD (first + c) default
            = l.getD (first + c) default := by
          apply hun
          intro t ht hthi he
          exact hcm (by rwa [show c = t from by omega])
        have h2 : (siftDown l m hi first).getD (first + r) default
            = l.getD (first + r) default := by
          apply hun
          intro t ht hthi he
          exact hdr (by rwa [show r = t from by omega])
        simp only [keyD]
        rw [h1, h2]
        exact hheap r (by omega) c hc hchi
    have hrest := ih (siftDown l m hi first) (by omega) hheap3
    refine ⟨confined_trans ?_ hrest.1, hrest.2⟩
    exact siftSpec_confined ⟨hperm, hun, hprov, hheap2⟩

theorem extractFold (first hi : ℕ) :
    ∀ (n : ℕ) (l : List (ℚ × ℕ)), n ≤ hi → first + hi ≤ l.length →
      (∀ r, heapOrd l first n r) →
      SortedW l (first + n) (first + hi) →
      (∀ p q, p < n → n ≤ q → q < hi → keyD l (first + p) ≤ keyD l (first + q)) →
      Confined first (first + hi) l
        ((List.range n).reverse.foldl
          (fun l i => siftDown (swapAt l first (first + i)) 0 i first) l) ∧
      SortedW ((List.range n).reverse.foldl
          (fun l i => siftDown (swapAt l first (first + i)) 0 i first) l)
        first (first + hi) := by
  intro n
  induction n with
  | zero =>
    intro l hn hlen hheap hsorted hbound
    exact ⟨confined_refl _ _ l, by simpa using hsorted⟩
  | succ n ih =>
    intro l hn hlen hheap hsorted hbound
    have hrange : (List.range (n + 1)).reverse = n :: (List.range n).reverse := by
      rw [List.range_succ, List.reverse_append, List.reverse_singleton]
      rfl
    rw [hrange, List.foldl_cons]
    have hfirst : first < l.length := by omega
    have hfn : first + n < l.length := by omega
    have hlenw : (swapAt l first (first + n)).length = l.length := swapAt_length l _ _
    have hw_zero : (swapAt l first (first + n)).getD first default
        = l.getD (first + n) default := by
      have := swapAt_getD_left l first (first + n) default hfirst
      rwa [show first = first + 0 from by omega] at this
    have hw_n : (swapAt l first (first + n)).getD (first + n) default
        = l.getD first default :=
      swapAt_getD_right l first (first + n) default hfn
    have hw_other : ∀ k, k ≠ first → k ≠ first + n →
        (swapAt l first (first + n)).getD k default = l.getD k default := by
      intro k h1 h2
      exact swapAt_getD_ne l first (first + n) k default h1 h2
    have hheap1 : ∀ r, Desc 0 r → r ≠ 0 →
        heapOrd (swapAt l first (first + n)) first n r := by
      intro r _ hr0 c hc hchi
      have hrc : r < c := by omega
      simp only [keyD]
      rw [hw_other (first + c) (by omega) (by omega),
        hw_other (first + r) (by omega) (by omega)]
      exact hheap r c hc (by omega)
    have hspec := siftDownGo_spec n first n (swapAt l first (first + n)) 0
      (by omega) (by omega) hheap1
    obtain ⟨hperm, hun, hprov, hheap2⟩ := hspec
    have hbody : siftDown (swapAt l first (first + n)) 0 n first
        = siftDownGo n first n (swapAt l first (first + n)) 0 := rfl
    have hchain0 : ∀ t, t < n + 1 →
        keyD l (first + t) ≤ keyD l (first + 0) :=
      fun t ht => heap_chain 0 t (desc_zero t) (fun r _ => hheap r) ht
    have hlen3 : (siftDownGo n first n (swapAt l first (first + n)) 0).length
        = l.length := by
      rw [hperm.length_eq, hlenw]
    have htail : ∀ k, first + n ≤ k →
        (siftDownGo n first n (swapAt l first (first + n)) 0).getD k default
          = (swapAt l first (first + n)).getD k default := by
      intro k hk
      apply hun
      intro t _ hthi he
      omega
    have htail2 : ∀ k, first + n < k →
        (siftDownGo n first n (swapAt l first (first + n)) 0).getD k default
          = l.getD k default := by
      intro k hk
      rw [htail k (by omega)]
      exact hw_other k (by omega) (by omega)
    have htailn : (siftDownGo n first n (swapAt l first (first + n)) 0).getD
        (first + n) default = l.getD first default := by
      rw [htail (first + n) (le_refl _), hw_n]
    have hsorted2 : SortedW (siftDownGo n first n (swapAt l first (first + n)) 0)
        (first + n) (first + hi) := by
      intro p q hp hpq hq
      simp only [keyD]
      by_cases hpn : p = first + n
      · rw [hpn, htailn, htail2 q (by omega)]
        have h2 := hbound 0 (q - first) (by omega) (by omega) (by omega)
        simp only [keyD] at h2
        rwa [show first + 0 = first from by omega,
          show first + (q - first) = q from by omega] at h2
      · rw [htail2 p (by omega), htail2 q (by omega)]
        exact hsorted p q (by omega) hpq hq
    have hboundval : ∀ p, p < n →
        (siftDownGo n first n (swapAt l first (first + n)) 0).getD (first + p) default
          = l.getD (first + p) default ∨
        ((siftDownGo n first n (swapAt l first (first + n)) 0).getD (first + p)
          default).1 ≤ keyD l (first + 0) := by
      intro p hp
      obtain ⟨t2, _, ht2n, hval⟩ := hprov p (desc_zero p) hp
      right
      rw [hval]
      by_cases ht20 : t2 = 0
      · rw [ht20, show first + 0 = first from by omega, hw_zero]
        exact hchain0 n (by omega)
      · rw [hw_other (first + t2) (by omega) (by omega)]
        exact hchain0 t2 (by omega)
    have hbound2 : ∀ p q, p < n → n ≤ q → q < hi →
        keyD (siftDownGo n first n (swapAt l first (first + n)) 0) (first + p)
          ≤ keyD (siftDownGo n first n (swapAt l first (first + n)) 0) (first + q) := by
      intro p q hp hnq hq
      have hpb : keyD (siftDownGo n first n (swapAt l first (first + n)) 0) (first + p)
          ≤ keyD l (first + 0) := by
        rcases hboundval p hp with h | h
        · simp only [keyD]
          rw [h]
          exact hchain0 p (by omega)
        · exact h
      by_cases hqn : q = n
      · rw [hqn]
        refine le_trans hpb ?_
        simp only [keyD]
        rw [htailn]
        rw [show first + 0 = first from by omega]
      · refine le_trans hpb ?_
        simp only [keyD]
        rw [htail2 (first + q) (by omega)]
        have h2 := hbound 0 q (by omega) (by omega) hq
        simp only [keyD] at h2
        rwa [show first + 0 = first from by omega] at h2
    have hheap4 : ∀ r, heapOrd (siftDownGo n first n (swapAt l first (first + n)) 0)
        first n r := fun r => hheap2 r (desc_zero r)
    have hrest := ih (siftDownGo n first n (swapAt l first (first + n)) 0)
      (by omega) (by omega) hheap4 hsorted2 hbound2
    rw [hbody]
    refine ⟨confined_trans ?_ hrest.1, hrest.2⟩
    have hc1 : Confined first (first + hi) l (swapAt l first (first + n)) :=
      confined_swapAt l (le_refl first) (by omega) (by omega) (by omega) (by omega)
    exact confined_trans hc1 (confined_mono (le_refl first) (by omega)
      (siftSpec_confined ⟨hperm, hun, hprov, hheap2⟩))

theorem heapSortGo_spec (l : List (ℚ × ℕ)) (a b : ℕ) (hab : a ≤ b)
    (hb : b ≤ l.length) :
    Confined a b l (heapSortGo l a b) ∧ SortedW (heapSortGo l a b) a b := by
  simp only [heapSortGo]
  have h1 := heapifyFold a (b - a) ((b - a - 1) / 2 + 1) l (by omega)
    (by
      intro r hr c hc hchi
      omega)
  obtain ⟨hc1, hheap1⟩ := h1
  have hlen1 : ((List.range ((b - a - 1) / 2 + 1)).reverse.foldl
      (fun l i => siftDown l i (b - a) a) l).length = l.length :=
    confined_length hc1
  have h2 := extractFold a (b - a) (b - a)
    ((List.range ((b - a - 1) / 2 + 1)).reverse.foldl
      (fun l i => siftDown l i (b - a) a) l)
    (le_refl _) (by omega) hheap1
    (by intro p q hp hpq hq; omega)
    (by intro p q hp hnq hq; omega)
  obtain ⟨hc2, hs2⟩ := h2
  have hcc := confined_trans hc1 hc2
  rw [show a + (b - a) = b from by omega] at hcc hs2
  exact ⟨hcc, hs2⟩

theorem dpLoopB_spec (pivot c hi lo1 : ℕ) (v : ℚ) :
    ∀ (fuel : ℕ) (l : List (ℚ × ℕ)) (a b : ℕ),
      c - b ≤ fuel → lo1 ≤ a → a ≤ b → b ≤ c → c ≤ hi → hi ≤ l.length →
      pivot < lo1 → keyD l pivot = v →
      (∀ k, lo1 ≤ k → k < a → keyD l k = v) →
      (∀ k, a ≤ k → k < b → keyD l k < v) →
      ∃ l2 a2 b2, dpLoopB pivot c fuel l a b = (l2, a2, b2) ∧
        Confined a c l l2 ∧
        a ≤ a2 ∧ a2 ≤ b2 ∧ b ≤ b2 ∧ b2 ≤ c ∧
        keyD l2 pivot = v ∧
        (∀ k, lo1 ≤ k → k < a2 → keyD l2 k = v) ∧
        (∀ k, a2 ≤ k → k < b2 → keyD l2 k < v) ∧
        (b2 = c ∨ v < keyD l2 b2) := by
  intro fuel
  induction fuel with
  | zero =>
    intro l a b hfuel ha hab hbc hchi hhil hplo hv hR1 hR2
    exact ⟨l, a, b, rfl, confined_refl a c l, le_refl a, hab, le_refl b, hbc,
      hv, hR1, hR2, Or.inl (by omega)⟩
  | succ fuel ih =>
    intro l a b hfuel ha hab hbc hchi hhil hplo hv hR1 hR2
    rw [dpLoopB]
    by_cases hbc2 : b < c
    · rw [if_pos hbc2]
      by_cases h1 : (l.getD b default).1 < (l.getD pivot default).1
      · rw [if_pos h1]
        have hR2n : ∀ k, a ≤ k → k < b + 1 → keyD l k < v := by
          intro k hk1 hk2
          by_cases hkb : k = b
          · rw [hkb]
            calc keyD l b < keyD l pivot := h1
              _ = v := hv
          · exact hR2 k hk1 (by omega)
        obtain ⟨l2, a2, b2, heq, hconf, h3, h4, h5, h6, h7, h8, h9, h10⟩ :=
          ih l a (b + 1) (by omega) ha (by omega) (by omega) hchi hhil hplo hv hR1 hR2n
        exact ⟨l2, a2, b2, heq, hconf, h3, h4, by omega, h6, h7, h8, h9, h10⟩
      · rw [if_neg h1]
        by_cases h2 : (l.getD pivot default).1 < (l.getD b default).1
        · rw [if_neg (not_not_intro h2)]
          refine ⟨l, a, b, rfl, confined_refl a c l, le_refl a, hab, le_refl b, hbc,
            hv, hR1, hR2, Or.inr ?_⟩
          calc v = keyD l pivot := hv.symm
            _ < keyD l b := h2
        · rw [if_pos h2]
          have hkb : keyD l b = v := by
            have hle1 : keyD l pivot ≤ keyD l b := le_of_not_lt h1
            have hle2 : keyD l b ≤ keyD l pivot := le_of_not_lt h2
            calc keyD l b = keyD l pivot := le_antisymm hle2 hle1
              _ = v := hv
          have hbl : b < l.length := by omega
          have hal : a < l.length := by omega
          have hswlen : (swapAt l a b).length = l.length := swapAt_length l a b
          have hka : keyD (swapAt l a b) a = v := by
            simp only [keyD]
            rw [swapAt_getD_left l a b default hal]
            exact hkb
          have hkbnew : keyD (swapAt l a b) b = keyD l a := by
            simp only [keyD]
            rw [swapAt_getD_right l a b default hbl]
          have hko : ∀ k, k ≠ a → k ≠ b → keyD (swapAt l a b) k = keyD l k := by
            intro k hk1 hk2
            simp only [keyD]
            rw [swapAt_getD_ne l a b k default hk1 hk2]
          have hR1n : ∀ k, lo1 ≤ k → k < a + 1 → keyD (swapAt l a b) k = v := by
            intro k hk1 hk2
            by_cases hka2 : k = a
            · rw [hka2]; exact hka
            · rw [hko k hka2 (by omega)]
              exact hR1 k hk1 (by omega)
          have hR2n : ∀ k, a + 1 ≤ k → k < b + 1 → keyD (swapAt l a b) k < v := by
            intro k hk1 hk2
            by_cases hkb2 : k = b
            · rw [hkb2, hkbnew]
              exact hR2 a (le_refl a) (by omega)
            · rw [hko k (by omega) hkb2]
              exact hR2 k (by omega) (by omega)
          have hvp : keyD (swapAt l a b) pivot = v := by
            rw [hko pivot (by omega) (by omega)]
            exact hv
          obtain ⟨l2, a2, b2, heq, hconf, h3, h4, h5, h6, h7, h8, h9, h10⟩ :=
            ih (swapAt l a b) (a + 1) (b + 1) (by omega) (by omega) (by omega)
              (by omega) hchi (by omega) hplo hvp hR1n hR2n
          refine ⟨l2, a2, b2, heq, ?_, by omega, h4, by omega, h6, h7, h8, h9, h10⟩
          exact confined_trans
            (confined_swapAt l (le_refl a) (by omega) hab (by omega) (by omega))
            (confined_mono (by omega) (le_refl c) hconf)
    · rw [if_neg hbc2]
      exact ⟨l, a, b, rfl, confined_refl a c l, le_refl a, hab, le_refl b, hbc,
        hv, hR1, hR2, Or.inl (by omega)⟩

theorem dpLoopC_spec (pivot b hi : ℕ) (v : ℚ) :
    ∀ (fuel : ℕ) (l : List (ℚ × ℕ)) (c d : ℕ),
      c - b ≤ fuel → b ≤ c → c ≤ d → d ≤ hi → hi ≤ l.length →
      pivot < b → keyD l pivot = v →
      (∀ k, c ≤ k → k < d → v < keyD l k) →
      (∀ k, d ≤ k → k < hi → keyD l k = v) →
      ∃ l2 c2 d2, dpLoopC pivot b fuel l c d = (l2, c2, d2) ∧
        Confined c2 d l l2 ∧
        b ≤ c2 ∧ c2 ≤ c ∧ c2 ≤ d2 ∧ d2 ≤ d ∧
        keyD l2 pivot = v ∧
        (∀ k, c2 ≤ k → k < d2 → v < keyD l2 k) ∧
        (∀ k, d2 ≤ k → k < hi → keyD l2 k = v) ∧
        (c2 = b ∨ keyD l2 (c2 - 1) < v) := by
  intro fuel
  induction fuel with
  | zero =>
    intro l c d hfuel hbc hcd hdhi hhil hpb hv hR3 hR4
    exact ⟨l, c, d, rfl, confined_refl c d l, by omega, le_refl c, hcd, le_refl d,
      hv, hR3, hR4, Or.inl (by omega)⟩
  | succ fuel ih =>
    intro l c d hfuel hbc hcd hdhi hhil hpb hv hR3 hR4
    rw [dpLoopC]
    by_cases hbc2 : b < c
    · rw [if_pos hbc2]
      by_cases h1 : (l.getD pivot default).1 < (l.getD (c - 1) default).1
      · rw [if_pos h1]
        have hR3n : ∀ k, c - 1 ≤ k → k < d → v < keyD l k := by
          intro k hk1 hk2
          by_cases hkc : k = c - 1
          · rw [hkc]
            calc v = keyD l pivot := hv.symm
              _ < keyD l (c - 1) := h1
          · exact hR3 k (by omega) hk2
        obtain ⟨l2, c2, d2, heq, hconf, h3, h4, h5, h6, h7, h8, h9, h10⟩ :=
          ih l (c - 1) d (by omega) (by omega) (by omega) hdhi hhil hpb hv hR3n hR4
        exact ⟨l2, c2, d2, heq, hconf, h3, by omega, h5, h6, h7, h8, h9, h10⟩
      · rw [if_neg h1]
        by_cases h2 : (l.getD (c - 1) default).1 < (l.getD pivot default).1
        · rw [if_neg (not_not_intro h2)]
          refine ⟨l, c, d, rfl, confined_refl c d l, hbc, le_refl c, hcd, le_refl d,
            hv, hR3, hR4, Or.inr ?_⟩
          calc keyD l (c - 1) < keyD l pivot := h2
            _ = v := hv
        · rw [if_pos h2]
          have hkc : keyD l (c - 1) = v := by
            have hle1 : keyD l (c - 1) ≤ keyD l pivot := le_of_not_lt h1
            have hle2 : keyD l pivot ≤ keyD l (c - 1) := le_of_not_lt h2
            calc keyD l (c - 1) = keyD l pivot := le_antisymm hle1 hle2
              _ = v := hv
          have hcl : c - 1 < l.length := by omega
          have hdl : d - 1 < l.length := by omega
          have hswlen : (swapAt l (c - 1) (d - 1)).length = l.length :=
            swapAt_length l (c - 1) (d - 1)
          have hkd : keyD (swapAt l (c - 1) (d - 1)) (d - 1) = v := by
            simp only [keyD]
            rw [swapAt_getD_right l (c - 1) (d - 1) default hdl]
            exact hkc
          have hkcnew : keyD (swapAt l (c - 1) (d - 1)) (c - 1) = keyD l (d - 1) := by
            simp only [keyD]
            rw [swapAt_getD_left l (c - 1) (d - 1) default hcl]
          have hko : ∀ k, k ≠ c - 1 → k ≠ d - 1 →
              keyD (swapAt l (c - 1) (d - 1)) k = keyD l k := by
            intro k hk1 hk2
            simp only [keyD]
            rw [swapAt_getD_ne l (c - 1) (d - 1) k default hk1 hk2]
          have hR3n : ∀ k, c - 1 ≤ k → k < d - 1 →
              v < keyD (swapAt l (c - 1) (d - 1)) k := by
            intro k hk1 hk2
            by_cases hkc2 : k = c - 1
            · rw [hkc2, hkcnew]
              exact hR3 (d - 1) (by omega) (by omega)
            · rw [hko k hkc2 (by omega)]
              exact hR3 k (by omega) (by omega)
          have hR4n : ∀ k, d - 1 ≤ k → k < hi →
              keyD (swapAt l (c - 1) (d - 1)) k = v := by
            intro k hk1 hk2
            by_cases hkd2 : k = d - 1
            · rw [hkd2]; exact hkd
            · rw [hko k (by omega) hkd2]
              exact hR4 k (by omega) hk2
          have hvp : keyD (swapAt l (c - 1) (d - 1)) pivot = v := by
            rw [hko pivot (by omega) (by omega)]
            exact hv
          obtain ⟨l2, c2, d2, heq, hconf, h3, h4, h5, h6, h7, h8, h9, h10⟩ :=
            ih (swapAt l (c - 1) (d - 1)) (c - 1) (d - 1) (by omega) (by omega)
              (by omega) (by omega) (by omega) hpb hvp hR3n hR4n
          refine ⟨l2, c2, d2, heq, ?_, h3, by omega, h5, by omega, h7, h8, ?_, h10⟩
          · exact confined_trans
              (confined_swapAt l (show c2 ≤ c - 1 from h4) (by omega)
                (by omega) (by omega) (by omega))
              (confined_mono (le_refl c2) (by omega) hconf)
          · intro k hk1 hk2
            by_cases hkin : k < d - 1
            · exact h9 k hk1 (by omega)
            · have hkeq : (l2 : List (ℚ × ℕ)).getD k default
                  = (swapAt l (c - 1) (d - 1)).getD k default :=
                hconf.2 k (Or.inr (by omega))
              simp only [keyD] at hR4n ⊢
              rw [hkeq]
              exact hR4n k (by omega) hk2
    · rw [if_neg hbc2]
      exact ⟨l, c, d, rfl, confined_refl c d l, by omega, le_refl c, hcd, le_refl d,
        hv, hR3, hR4, Or.inl (by omega)⟩

theorem dpOuter_spec (hi lo1 pivot : ℕ) (v : ℚ) :
    ∀ (fuel : ℕ) (l : List (ℚ × ℕ)) (a b c d : ℕ),
      c - b < fuel → lo1 ≤ a → a ≤ b → b ≤ c → c ≤ d → d ≤ hi → hi ≤ l.length →
      pivot < lo1 → keyD l pivot = v →
      (∀ k, lo1 ≤ k → k < a → keyD l k = v) →
      (∀ k, a ≤ k → k < b → keyD l k < v) →
      (∀ k, c ≤ k → k < d → v < keyD l k) →
      (∀ k, d ≤ k → k < hi → keyD l k = v) →
      ∃ l2 a2 b2 d2, dpOuter pivot fuel l a b c d = (l2, a2, b2, b2, d2) ∧
        Confined lo1 hi l l2 ∧
        lo1 ≤ a2 ∧ a2 ≤ b2 ∧ b2 ≤ d2 ∧ d2 ≤ hi ∧ keyD l2 pivot = v ∧
        (∀ k, lo1 ≤ k → k < a2 → keyD l2 k = v) ∧
        (∀ k, a2 ≤ k → k < b2 → keyD l2 k < v) ∧
        (∀ k, b2 ≤ k → k < d2 → v < keyD l2 k) ∧
        (∀ k, d2 ≤ k → k < hi → keyD l2 k = v) := by
  intro fuel
  induction fuel with
  | zero =>
    intro l a b c d hfuel
    omega
  | succ fuel ih =>
    intro l a b c d hfuel ha hab hbc hcd hdhi hhil hplo hv hR1 hR2 hR3 hR4
    simp only [dpOuter]
    obtain ⟨l1, a1, b1, heqB, hconfB, hB3, hB4, hB5, hB6, hB7, hB8, hB9, hB10⟩ :=
      dpLoopB_spec pivot c hi lo1 v (c - b) l a b (le_refl _) ha hab hbc
        (by omega) hhil hplo hv hR1 hR2
    have hlen1 : l1.length = l.length := confined_length hconfB
    have hR3l1 : ∀ k, c ≤ k → k < d → v < keyD l1 k := by
      intro k hk1 hk2
      have he : l1.getD k default = l.getD k default := hconfB.2 k (Or.inr hk1)
      simp only [keyD]
      rw [he]
      exact hR3 k hk1 hk2
    have hR4l1 : ∀ k, d ≤ k → k < hi → keyD l1 k = v := by
      intro k hk1 hk2
      have he : l1.getD k default = l.getD k default := hconfB.2 k (Or.inr (by omega))
      simp only [keyD]
      rw [he]
      exact hR4 k hk1 hk2
    obtain ⟨l2, c2, d2, heqC, hconfC, hC3, hC4, hC5, hC6, hC7, hC8, hC9, hC10⟩ :=
      dpLoopC_spec pivot b1 hi v (c - b1) l1 c d (le_refl _) hB6 hcd hdhi
        (by omega) (by omega) hB7 hR3l1 hR4l1
    have hlen2 : l2.length = l.length := by
      rw [confined_length hconfC, hlen1]
    rw [heqB]
    simp only []
    rw [heqC]
    simp only []
    have hR1l2 : ∀ k, lo1 ≤ k → k < a1 → keyD l2 k = v := by
      intro k hk1 hk2
      have he : l2.getD k default = l1.getD k default := hconfC.2 k (Or.inl (by omega))
      simp only [keyD]
      rw [he]
      exact hB8 k hk1 hk2
    have hR2l2 : ∀ k, a1 ≤ k → k < b1 → keyD l2 k < v := by
      intro k hk1 hk2
      have he : l2.getD k default = l1.getD k default := hconfC.2 k (Or.inl (by omega))
      simp only [keyD]
      rw [he]
      exact hB9 k hk1 hk2
    by_cases hout : b1 ≥ c2
    · rw [if_pos hout]
      have hbe : c2 = b1 := by omega
      refine ⟨l2, a1, b1, d2, by rw [hbe], ?_, by omega, hB4, by omega, by omega,
        hC7, hR1l2, hR2l2, ?_, hC9⟩
      · exact confined_trans (confined_mono (by omega) (by omega) hconfB)
          (confined_mono (by omega) (by omega) hconfC)
      · intro k hk1 hk2
        exact hC8 k (by omega) hk2
    · have hb1c2 : b1 < c2 := by omega
      rw [if_neg hout]
      have hkb1 : v < keyD l2 b1 := by
        have hb1c : ¬ b1 = c := by omega
        have hlt : v < keyD l1 b1 := hB10.resolve_left hb1c
        have he : l2.getD b1 default = l1.getD b1 default := hconfC.2 b1 (Or.inl hb1c2)
        simp only [keyD] at hlt ⊢
        rw [he]
        exact hlt
      have hkc1 : keyD l2 (c2 - 1) < v := hC10.resolve_left (by omega)
      have hgap : b1 + 2 ≤ c2 := by
        by_contra hcon
        have hce : c2 - 1 = b1 := by omega
        rw [hce] at hkc1
        exact absurd (lt_trans hkb1 hkc1) (lt_irrefl v)
      have hb1l : b1 < l2.length := by omega
      have hc1l : c2 - 1 < l2.length := by omega
      have hka : keyD (swapAt l2 b1 (c2 - 1)) b1 = keyD l2 (c2 - 1) := by
        simp only [keyD]
        rw [swapAt_getD_left l2 b1 (c2 - 1) default hb1l]
      have hkc : keyD (swapAt l2 b1 (c2 - 1)) (c2 - 1) = keyD l2 b1 := by
        simp only [keyD]
        rw [swapAt_getD_right l2 b1 (c2 - 1) default hc1l]
      have hko : ∀ k, k ≠ b1 → k ≠ c2 - 1 →
          keyD (swapAt l2 b1 (c2 - 1)) k = keyD l2 k := by
        intro k hk1 hk2
        simp only [keyD]
        rw [swapAt_getD_ne l2 b1 (c2 - 1) k default hk1 hk2]
      have hswlen : (swapAt l2 b1 (c2 - 1)).length = l2.length := swapAt_length l2 _ _
      have hR1n : ∀ k, lo1 ≤ k → k < a1 → keyD (swapAt l2 b1 (c2 - 1)) k = v := by
        intro k hk1 hk2
        rw [hko k (by omega) (by omega)]
        exact hR1l2 k hk1 hk2
      have hR2n : ∀ k, a1 ≤ k → k < b1 + 1 → keyD (swapAt l2 b1 (c2 - 1)) k < v := by
        intro k hk1 hk2
        by_cases hkb : k = b1
        · rw [hkb, hka]
          exact hkc1
        · rw [hko k hkb (by omega)]
          exact hR2l2 k hk1 (by omega)
      have hR3n : ∀ k, c2 - 1 ≤ k → k < d2 → v < keyD (swapAt l2 b1 (c2 - 1)) k := by
        intro k hk1 hk2
        by_cases hkc2 : k = c2 - 1
        · rw [hkc2, hkc]
          exact hkb1
        · rw [hko k (by omega) hkc2]
          exact hC8 k (by omega) hk2
      have hR4n : ∀ k, d2 ≤ k → k < hi → keyD (swapAt l2 b1 (c2 - 1)) k = v := by
        intro k hk1 hk2
        rw [hko k (by omega) (by omega)]
        exact hC9 k hk1 hk2
      have hvp : keyD (swapAt l2 b1 (c2 - 1)) pivot = v := by
        rw [hko pivot (by omega) (by omega)]
        exact hC7
      obtain ⟨l4, a4, b4, d4, heqO, hconfO, hO3, hO4, hO5, hO6, hO7, hO8, hO9,
          hO10, hO11⟩ :=
        ih (swapAt l2 b1 (c2 - 1)) a1 (b1 + 1) (c2 - 1) d2 (by omega) (by omega)
          (by omega) (by omega) (by omega) (by omega) (by omega) hplo hvp
          hR1n hR2n hR3n hR4n
      refine ⟨l4, a4, b4, d4, heqO, ?_, hO3, hO4, hO5, hO6, hO7, hO8, hO9, hO10, hO11⟩
      have hcs : Confined lo1 hi l2 (swapAt l2 b1 (c2 - 1)) :=
        confined_swapAt l2 (by omega) (by omega) (by omega) (by omega) (by omega)
      exact confined_trans (confined_mono (by omega) (by omega) hconfB)
        (confined_trans (confined_mono (by omega) (by omega) hconfC)
          (confined_trans hcs hconfO))

theorem confined_step_swap {lo hi a b : ℕ} {l l2 : List (ℚ × ℕ)} (P : Prop)
    [Decidable P] (h : Confined lo hi l l2)
    (ha : lo ≤ a) (hahi : a < hi) (hb2 : lo ≤ b) (hbhi : b < hi)
    (hhi : hi ≤ l.length) :
    Confined lo hi l (if P then swapAt l2 a b else l2) := by
  split
  · exact confined_trans h (confined_swapAt l2 ha hahi hb2 hbhi
      (by rw [confined_length h]; exact hhi))
  · exact h

theorem medianOfThree_confined {lo hi : ℕ} (l : List (ℚ × ℕ)) (a b c : ℕ)
    (ha : lo ≤ a) (hahi : a < hi) (hb2 : lo ≤ b) (hbhi : b < hi)
    (hc2 : lo ≤ c) (hchi : c < hi) (hhi : hi ≤ l.length) :
    Confined lo hi l (medianOfThree l a b c) := by
  simp only [medianOfThree]
  apply confined_step_swap _ ?_ ha hahi hb2 hbhi hhi
  apply confined_step_swap _ ?_ hc2 hchi ha hahi hhi
  apply confined_step_swap _ ?_ ha hahi hb2 hbhi hhi
  exact confined_refl lo hi l

theorem swapRange_unfold (l : List (ℚ × ℕ)) (a b n : ℕ) :
    swapRange l a b (n + 1) = swapAt (swapRange l a b n) (a + n) (b + n) := by
  unfold swapRange
  rw [List.range_succ, List.foldl_append, List.foldl_cons, List.foldl_nil]

theorem swapRange_getD (l : List (ℚ × ℕ)) (a b : ℕ) :
    ∀ (n : ℕ), a + n ≤ b → b + n ≤ l.length →
      (swapRange l a b n).length = l.length ∧
      (∀ k, a ≤ k → k < a + n →
        (swapRange l a b n).getD k default = l.getD (b + (k - a)) default) ∧
      (∀ k, b ≤ k → k < b + n →
        (swapRange l a b n).getD k default = l.getD (a + (k - b)) default) ∧
      (∀ k, (k < a ∨ a + n ≤ k) → (k < b ∨ b + n ≤ k) →
        (swapRange l a b n).getD k default = l.getD k default) := by
  intro n
  induction n with
  | zero =>
    intro hab hbl
    refine ⟨rfl, ?_, ?_, fun k _ _ => rfl⟩
    · intro k h1 h2
      omega
    · intro k h1 h2
      omega
  | succ n ih =>
    intro hab hbl
    obtain ⟨ihlen, ih1, ih2, ih3⟩ := ih (by omega) (by omega)
    rw [swapRange_unfold]
    have hanl : a + n < (swapRange l a b n).length := by omega
    have hbnl : b + n < (swapRange l a b n).length := by omega
    refine ⟨by rw [swapAt_length, ihlen], ?_, ?_, ?_⟩
    · intro k h1 h2
      by_cases hk : k = a + n
      · rw [hk]
        have he := swapAt_getD_left (swapRange l a b n) (a + n) (b + n) default hanl
        rw [he, ih3 (b + n) (by omega) (by omega)]
        congr 1
        omega
      · rw [swapAt_getD_ne _ _ _ _ default (by omega) (by omega)]
        exact ih1 k h1 (by omega)
    · intro k h1 h2
      by_cases hk : k = b + n
      · rw [hk]
        have he := swapAt_getD_right (swapRange l a b n) (a + n) (b + n) default hbnl
        rw [he, ih3 (a + n) (by omega) (by omega)]
        congr 1
        omega
      · rw [swapAt_getD_ne _ _ _ _ default (by omega) (by omega)]
        exact ih2 k h1 (by omega)
    · intro k h1 h2
      rw [swapAt_getD_ne _ _ _ _ default (by omega) (by omega)]
      exact ih3 k (by omega) (by omega)

theorem swapRange_confined {lo hi : ℕ} (l : List (ℚ × ℕ)) (a b n : ℕ)
    (ha : lo ≤ a) (hahi : a + n ≤ hi) (hb2 : lo ≤ b) (hbhi : b + n ≤ hi)
    (hhi : hi ≤ l.length) :
    Confined lo hi l (swapRange l a b n) := by
  unfold swapRange
  apply confined_foldl _ _ _ l hhi
  intro l2 i hi2 hl2
  have hin : i < n := List.mem_range.mp hi2
  exact confined_swapAt l2 (by omega) (by omega) (by omega) (by omega) hl2

/-- The ninther pivot preconditioning of `doPivot` (`hi - lo > 40` branch). -/
def ninther (l : List (ℚ × ℕ)) (lo hi : ℕ) : List (ℚ × ℕ) :=
  if hi - lo > 40 then
    let s := (hi - lo) / 8
    let m := lo + (hi - lo) / 2
    medianOfThree (medianOfThree (medianOfThree l lo (lo + s) (lo + 2 * s))
      m (m - s) (m + s)) (hi - 1) (hi - 1 - s) (hi - 1 - 2 * s)
  else l

theorem doPivot_eq (l : List (ℚ × ℕ)) (lo hi : ℕ) :
    doPivot l lo hi =
      ((fun r : List (ℚ × ℕ) × ℕ × ℕ × ℕ × ℕ =>
        (swapRange
          (swapRange r.1 lo (r.2.2.1 - min (r.2.2.1 - r.2.1) (r.2.1 - lo))
            (min (r.2.2.1 - r.2.1) (r.2.1 - lo)))
          r.2.2.2.1 (hi - min (hi - r.2.2.2.2) (r.2.2.2.2 - r.2.2.2.1))
          (min (hi - r.2.2.2.2) (r.2.2.2.2 - r.2.2.2.1)),
         lo + r.2.2.1 - r.2.1, hi - (r.2.2.2.2 - r.2.2.2.1)))
        (dpOuter lo (hi - lo) (medianOfThree (ninther l lo hi) lo
          (lo + (hi - lo) / 2) (hi - 1)) (lo + 1) (lo + 1) hi hi)) := by
  unfold doPivot ninther
  rfl

theorem ninther_confined (l : List (ℚ × ℕ)) (lo hi : ℕ) (hlohi : lo < hi)
    (hhil : hi ≤ l.length) : Confined lo hi l (ninther l lo hi) := by
  unfold ninther
  split
  · have h1 : Confined lo hi l (medianOfThree l lo (lo + (hi - lo) / 8)
        (lo + 2 * ((hi - lo) / 8))) :=
      medianOfThree_confined l _ _ _ (le_refl lo) (by omega) (by omega) (by omega)
        (by omega) (by omega) hhil
    have h2 : Confined lo hi l (medianOfThree (medianOfThree l lo (lo + (hi - lo) / 8)
        (lo + 2 * ((hi - lo) / 8))) (lo + (hi - lo) / 2)
        (lo + (hi - lo) / 2 - (hi - lo) / 8) (lo + (hi - lo) / 2 + (hi - lo) / 8)) := by
      refine confined_trans h1 (medianOfThree_confined _ _ _ _ (by omega) (by omega)
        (by omega) (by omega) (by omega) (by omega) ?_)
      rw [confined_length h1]
      exact hhil
    refine confined_trans h2 (medianOfThree_confined _ _ _ _ (by omega) (by omega)
      (by omega) (by omega) (by omega) (by omega) ?_)
    rw [confined_length h2]
    exact hhil
  · exact confined_refl lo hi l

theorem doPivot_spec (l : List (ℚ × ℕ)) (lo hi : ℕ)
    (hlohi : lo < hi) (hhil : hi ≤ l.length) :
    ∃ l5 mlo mhi v, doPivot l lo hi = (l5, mlo, mhi) ∧
      Confined lo hi l l5 ∧ lo ≤ mlo ∧ mlo < mhi ∧ mhi ≤ hi ∧
      (∀ k, lo ≤ k → k < mlo → keyD l5 k < v) ∧
      (∀ k, mlo ≤ k → k < mhi → keyD l5 k = v) ∧
      (∀ k, mhi ≤ k → k < hi → v < keyD l5 k) := by
  rw [doPivot_eq]
  have hcN : Confined lo hi l (ninther l lo hi) := ninther_confined l lo hi hlohi hhil
  have hcLM : Confined lo hi l (medianOfThree (ninther l lo hi) lo
      (lo + (hi - lo) / 2) (hi - 1)) := by
    refine confined_trans hcN (medianOfThree_confined _ _ _ _ (le_refl lo) hlohi
      (by omega) (by omega) (by omega) (by omega) ?_)
    rw [confined_length hcN]
    exact hhil
  have hlenLM : (medianOfThree (ninther l lo hi) lo (lo + (hi - lo) / 2)
      (hi - 1)).length = l.length := confined_length hcLM
  obtain ⟨l2, a2, b2, d2, heqO, hconfO, hO1, hO2, hO3, hO4, hOv, hR1, hR2, hR3, hR4⟩ :=
    dpOuter_spec hi (lo + 1) lo (keyD (medianOfThree (ninther l lo hi) lo
        (lo + (hi - lo) / 2) (hi - 1)) lo) (hi - lo)
      (medianOfThree (ninther l lo hi) lo (lo + (hi - lo) / 2) (hi - 1))
      (lo + 1) (lo + 1) hi hi (by omega) (le_refl _) (le_refl _) (by omega)
      (le_refl hi) (le_refl hi) (by omega) (by omega) rfl
      (by intro k h1 h2; omega) (by intro k h1 h2; omega)
      (by intro k h1 h2; omega) (by intro k h1 h2; omega)
  rw [heqO]
  simp only []
  set v := keyD (medianOfThree (ninther l lo hi) lo (lo + (hi - lo) / 2) (hi - 1)) lo
    with hvdef
  have hlen2 : l2.length = l.length := by
    rw [confined_length hconfO, hlenLM]
  set n1 := min (b2 - a2) (a2 - lo) with hn1
  set n2 := min (hi - d2) (d2 - b2) with hn2
  have hn1a : lo + n1 ≤ a2 := by omega
  have hn1b : a2 ≤ b2 - n1 := by omega
  have hRlow : ∀ k, lo ≤ k → k < a2 → keyD l2 k = v := by
    intro k hk1 hk2
    by_cases hkl : k = lo
    · rw [hkl]
      exact hOv
    · exact hR1 k (by omega) hk2
  obtain ⟨hlen4, h4a, h4b, h4out⟩ :=
    swapRange_getD l2 lo (b2 - n1) n1 (by omega) (by omega)
  set L4 := swapRange l2 lo (b2 - n1) n1 with hL4
  have hL4high : ∀ k, b2 ≤ k → L4.getD k default = l2.getD k default := by
    intro k hk
    exact h4out k (by omega) (by omega)
  have hL4low : ∀ k, lo ≤ k → k < lo + b2 - a2 → keyD L4 k < v := by
    intro k hk1 hk2
    by_cases hksw : k < lo + n1
    · have he := h4a k hk1 hksw
      simp only [keyD]
      rw [he]
      exact hR2 (b2 - n1 + (k - lo)) (by omega) (by omega)
    · have he := h4out k (by omega) (by omega)
      simp only [keyD]
      rw [he]
      exact hR2 k (by omega) (by omega)
  have hL4mid : ∀ k, lo + b2 - a2 ≤ k → k < b2 → keyD L4 k = v := by
    intro k hk1 hk2
    by_cases hksw : b2 - n1 ≤ k
    · have he := h4b k hksw (by omega)
      simp only [keyD]
      rw [he]
      exact hRlow (lo + (k - (b2 - n1))) (by omega) (by omega)
    · have he := h4out k (by omega) (by omega)
      simp only [keyD]
      rw [he]
      exact hRlow k (by omega) (by omega)
  have hL4R3 : ∀ k, b2 ≤ k → k < d2 → v < keyD L4 k := by
    intro k hk1 hk2
    simp only [keyD]
    rw [hL4high k hk1]
    exact hR3 k hk1 hk2
  have hL4R4 : ∀ k, d2 ≤ k → k < hi → keyD L4 k = v := by
    intro k hk1 hk2
    simp only [keyD]
    rw [hL4high k (by omega)]
    exact hR4 k hk1 hk2
  have hn2a : b2 + n2 ≤ d2 := by omega
  have hn2b : d2 ≤ hi - n2 := by omega
  obtain ⟨hlen5, h5a, h5b, h5out⟩ :=
    swapRange_getD L4 b2 (hi - n2) n2 (by omega) (by omega)
  refine ⟨_, _, _, v, rfl, ?_, by omega, by omega, by omega, ?_, ?_, ?_⟩
  · refine confined_trans hcLM (confined_trans
      (confined_mono (by omega) (le_refl hi) hconfO) ?_)
    have hc4 : Confined lo hi l2 L4 :=
      swapRange_confined l2 lo (b2 - n1) n1 (le_refl lo) (by omega) (by omega)
        (by omega) (by omega)
    refine confined_trans hc4 ?_
    exact swapRange_confined L4 b2 (hi - n2) n2 (by omega) (by omega) (by omega)
      (by omega) (by omega)
  · intro k hk1 hk2
    have he := h5out k (by omega) (by omega)
    simp only [keyD]
    rw [he]
    exact hL4low k hk1 (by omega)
  · intro k hk1 hk2
    by_cases hkb : k < b2
    · have he := h5out k (by omega) (by omega)
      simp only [keyD]
      rw [he]
      exact hL4mid k (by omega) hkb
    · by_cases hksw : k < b2 + n2
      · have he := h5a k (by omega) hksw
        simp only [keyD]
        rw [he]
        exact hL4R4 (hi - n2 + (k - b2)) (by omega) (by omega)
      · have he := h5out k (by omega) (by omega)
        simp only [keyD]
        rw [he]
        exact hL4R4 k (by omega) (by omega)
  · intro k hk1 hk2
    by_cases hksw : hi - n2 ≤ k
    · have he := h5b k hksw (by omega)
      simp only [keyD]
      rw [he]
      exact hL4R3 (b2 + (k - (hi - n2))) (by omega) (by omega)
    · have he := h5out k (by omega) (by omega)
      simp only [keyD]
      rw [he]
      exact hL4R3 k (by omega) (by omega)

theorem quickSortGo_spec :
    ∀ (fuel : ℕ) (l : List (ℚ × ℕ)) (a b md : ℕ), b ≤ l.length →
      Confined a b l (quickSortGo fuel l a b md) ∧
      (b - a ≤ fuel → SortedW (quickSortGo fuel l a b md) a b) := by
  intro fuel
  induction fuel with
  | zero =>
    intro l a b md hb
    simp only [quickSortGo]
    exact ⟨confined_refl a b l, fun hfuel => sortedW_of_le l (by omega)⟩
  | succ fuel ih =>
    intro l a b md hb
    simp only [quickSortGo]
    by_cases h7 : b - a > 7
    · rw [if_pos h7]
      by_cases hmd : md = 0
      · rw [if_pos hmd]
        have hs := heapSortGo_spec l a b (by omega) hb
        exact ⟨hs.1, fun _ => hs.2⟩
      · rw [if_neg hmd]
        obtain ⟨l5, mlo, mhi, v, heqP, hconfP, hP1, hP2, hP3, hPlt, hPeq, hPgt⟩ :=
          doPivot_spec l a b (by omega) hb
        rw [heqP]
        simp only []
        have hlen5 : l5.length = l.length := confined_length hconfP
        by_cases hside : mlo - a < b - mhi
        · rw [if_pos hside]
          have ih1 := ih l5 a mlo (md - 1) (by omega)
          have hlen1 : (quickSortGo fuel l5 a mlo (md - 1)).length = l5.length :=
            confined_length ih1.1
          have ih2 := ih (quickSortGo fuel l5 a mlo (md - 1)) mhi b (md - 1) (by omega)
          refine ⟨?_, ?_⟩
          · exact confined_trans hconfP (confined_trans
              (confined_mono (le_refl a) (by omega) ih1.1)
              (confined_mono (by omega) (le_refl b) ih2.1))
          · intro hfuel
            have hs1 := ih1.2 (by omega)
            have hs2 := ih2.2 (by omega)
            have hmid1 : ∀ k, mlo ≤ k →
                (quickSortGo fuel l5 a mlo (md - 1)).getD k default
                  = l5.getD k default := fun k hk => ih1.1.2 k (Or.inr hk)
            have hlow1 : ∀ k, a ≤ k → k < mlo →
                ((quickSortGo fuel l5 a mlo (md - 1)).getD k default).1 < v :=
              confined_bound ih1.1 (by omega) (by omega)
                (fun y => y.1 < v) (fun k h1 h2 => hPlt k h1 h2)
            have hkeep2 : ∀ k, k < mhi →
                (quickSortGo fuel (quickSortGo fuel l5 a mlo (md - 1)) mhi b
                  (md - 1)).getD k default
                  = (quickSortGo fuel l5 a mlo (md - 1)).getD k default :=
              fun k hk => ih2.1.2 k (Or.inl hk)
            have hv1 : ∀ k, a ≤ k → k < mlo →
                keyD (quickSortGo fuel (quickSortGo fuel l5 a mlo (md - 1)) mhi b
                  (md - 1)) k < v := by
              intro k h1 h2
              simp only [keyD]
              rw [hkeep2 k (by omega)]
              exact hlow1 k h1 h2
            have hv2 : ∀ k, mlo ≤ k → k < mhi →
                keyD (quickSortGo fuel (quickSortGo fuel l5 a mlo (md - 1)) mhi b
                  (md - 1)) k = v := by
              intro k h1 h2
              simp only [keyD]
              rw [hkeep2 k h2, hmid1 k h1]
              exact hPeq k h1 h2
            have hv3 : ∀ k, mhi ≤ k → k < b →
                v < keyD (quickSortGo fuel (quickSortGo fuel l5 a mlo (md - 1)) mhi b
                  (md - 1)) k := by
              intro k h1 h2
              have hbase : ∀ k2, mhi ≤ k2 → k2 < b →
                  v < ((quickSortGo fuel l5 a mlo (md - 1)).getD k2 default).1 := by
                intro k2 h3 h4
                rw [hmid1 k2 (by omega)]
                exact hPgt k2 h3 h4
              exact confined_bound ih2.1 (by omega) (by omega)
                (fun y => v < y.1) hbase k h1 h2
            have hsA : SortedW (quickSortGo fuel (quickSortGo fuel l5 a mlo (md - 1))
                mhi b (md - 1)) a mlo :=
              sortedW_congr (fun k h1 h2 => hkeep2 k (by omega)) hs1
            intro p q hap hpq hqb
            by_cases hq1 : q < mlo
            · exact hsA p q hap hpq hq1
            · by_cases hp1 : p < mlo
              · have hpv := hv1 p hap hp1
                by_cases hq2 : q < mhi
                · rw [hv2 q (by omega) hq2]
                  exact le_of_lt hpv
                · exact le_of_lt (lt_trans hpv (hv3 q (by omega) hqb))
              · by_cases hp2 : p < mhi
                · rw [hv2 p (by omega) hp2]
                  by_cases hq2 : q < mhi
                  · rw [hv2 q (by omega) hq2]
                  · exact le_of_lt (hv3 q (by omega) hqb)
                · exact hs2 p q (by omega) hpq hqb
        · rw [if_neg hside]
          have ih1 := ih l5 mhi b (md - 1) (by omega)
          have hlen1 : (quickSortGo fuel l5 mhi b (md - 1)).length = l5.length :=
            confined_length ih1.1
          have ih2 := ih (quickSortGo fuel l5 mhi b (md - 1)) a mlo (md - 1) (by omega)
          refine ⟨?_, ?_⟩
          · exact confined_trans hconfP (confined_trans
              (confined_mono (by omega) (le_refl b) ih1.1)
              (confined_mono (le_refl a) (by omega) ih2.1))
          · intro hfuel
            have hs1 := ih1.2 (by omega)
            have hs2 := ih2.2 (by omega)
            have hmid1 : ∀ k, k < mhi →
                (quickSortGo fuel l5 mhi b (md - 1)).getD k default
                  = l5.getD k default := fun k hk => ih1.1.2 k (Or.inl hk)
            have hhigh1 : ∀ k, mhi ≤ k → k < b →
                v < ((quickSortGo fuel l5 mhi b (md - 1)).getD k default).1 :=
              confined_bound ih1.1 (by omega) (by omega)
                (fun y => v < y.1) (fun k h1 h2 => hPgt k h1 h2)
            have hkeep2 : ∀ k, mlo ≤ k →
                (quickSortGo fuel (quickSortGo fuel l5 mhi b (md - 1)) a mlo
                  (md - 1)).getD k default
                  = (quickSortGo fuel l5 mhi b (md - 1)).getD k default :=
              fun k hk => ih2.1.2 k (Or.inr hk)
            have hv1 : ∀ k, a ≤ k → k < mlo →
                keyD (quickSortGo fuel (quickSortGo fuel l5 mhi b (md - 1)) a mlo
                  (md - 1)) k < v := by
              intro k h1 h2
              have hbase : ∀ k2, a ≤ k2 → k2 < mlo →
                  ((quickSortGo fuel l5 mhi b (md - 1)).getD k2 default).1 < v := by
                intro k2 h3 h4
                rw [hmid1 k2 (by omega)]
                exact hPlt k2 h3 h4
              exact confined_bound ih2.1 (by omega) (by omega)
                (fun y => y.1 < v) hbase k h1 h2
            have hv2 : ∀ k, mlo ≤ k → k < mhi →
                keyD (quickSortGo fuel (quickSortGo fuel l5 mhi b (md - 1)) a mlo
                  (md - 1)) k = v := by
              intro k h1 h2
              simp only [keyD]
              rw [hkeep2 k h1, hmid1 k h2]
              exact hPeq k h1 h2
            have hv3 : ∀ k, mhi ≤ k → k < b →
                v < keyD (quickSortGo fuel (quickSortGo fuel l5 mhi b (md - 1)) a mlo
                  (md - 1)) k := by
              intro k h1 h2
              simp only [keyD]
              rw [hkeep2 k (by omega)]
              exact hhigh1 k h1 h2
            have hsB : SortedW (quickSortGo fuel (quickSortGo fuel l5 mhi b (md - 1))
                a mlo (md - 1)) mhi b :=
              sortedW_congr (fun k h1 h2 => hkeep2 k (by omega)) hs1
            intro p q hap hpq hqb
            by_cases hq1 : q < mlo
            · exact ih2.2 (by omega) p q hap hpq hq1
            · by_cases hp1 : p < mlo
              · have hpv := hv1 p hap hp1
                by_cases hq2 : q < mhi
                · rw [hv2 q (by omega) hq2]
                  exact le_of_lt hpv
                · exact le_of_lt (lt_trans hpv (hv3 q (by omega) hqb))
              · by_cases hp2 : p < mhi
                · rw [hv2 p (by omega) hp2]
                  by_cases hq2 : q < mhi
                  · rw [hv2 q (by omega) hq2]
                  · exact le_of_lt (hv3 q (by omega) hqb)
                · exact hsB p q (by omega) hpq hqb
    · rw [if_neg h7]
      by_cases h1 : b - a > 1
      · rw [if_pos h1]
        have hs := insertionSortGo_spec l a b hb
        exact ⟨hs.1, fun _ => hs.2⟩
      · rw [if_neg h1]
        exact ⟨confined_refl a b l, fun _ => sortedW_of_le l (by omega)⟩

theorem zip_map_fst_snd (l : List (ℚ × ℕ)) :
    (l.map Prod.fst).zip (l.map Prod.snd) = l := by
  induction l with
  | nil => rfl
  | cons x l ih => simp [ih]

theorem bSortP_spec (l : List (ℚ × ℕ)) :
    (bSortP l).Perm l ∧ SortedW (bSortP l) 0 l.length := by
  unfold bSortP
  have hs := quickSortGo_spec (l.length + 1) l 0 l.length (2 * bitCount l.length)
    (le_refl _)
  exact ⟨hs.1.1, hs.2 (by omega)⟩

/-- C7: for equal-length slices, `bSort` returns a non-decreasing values
slice, and the zipped (value, index) pairs of the output are a
permutation of the zipped input pairs, so each index still identifies
the sample its key came from.  Covers insertion sort, heapsort and the
Bentley–McIlroy `doPivot` of the introsort. -/
theorem c7_bSort_sorted_perm (x : List ℚ) (inx : List ℕ)
    (h : x.length = inx.length) :
    List.Pairwise (· ≤ ·) (bSort x inx).1 ∧
    ((bSort x inx).1.zip (bSort x inx).2).Perm (x.zip inx) := by
  obtain ⟨hperm, hsorted⟩ := bSortP_spec (x.zip inx)
  have hlen : (bSortP (x.zip inx)).length = (x.zip inx).length := hperm.length_eq
  constructor
  · unfold bSort
    rw [List.pairwise_iff_getElem]
    intro i j hi hj hij
    have hi2 : i < (bSortP (x.zip inx)).length := by simpa using hi
    have hj2 : j < (bSortP (x.zip inx)).length := by simpa using hj
    rw [List.getElem_map, List.getElem_map]
    have hkey := hsorted i j (Nat.zero_le i) hij (by omega)
    simp only [keyD] at hkey
    rwa [List.getD_eq_getElem _ default hi2, List.getD_eq_getElem _ default hj2]
      at hkey
  · unfold bSort
    rw [zip_map_fst_snd]
    exact hperm

theorem c7_bSort_sorted_perm_witness :
    List.Pairwise (· ≤ ·) (bSort [1, 0] [0, 1]).1 ∧
    ((bSort [1, 0] [0, 1]).1.zip (bSort [1, 0] [0, 1]).2).Perm
      (List.zip [1, 0] [0, 1]) :=
  c7_bSort_sorted_perm [1, 0] [0, 1] rfl

end RF
